import Mathlib

/-!
HJ-Editor: highlighter, completion and structural editing

A shallow embedding of `highlighter.cpp` and `codeeditor.cpp`.

* A `QString` is the list of its characters; offsets are list indices.
* A document is its plain text, blocks separated by a line feed; `characterAt`
  reads a block separator as U+2029, as `QTextDocument::characterAt` does.
* The literal patterns `/\*`, `\*/`, `'''` and the empty pattern of the block-comment
  expressions are kept as the text they match; the patterns of the ordinary rules are
  kept as their `globalMatch` function.
* A `while` loop of the source that can run forever takes a fuel argument and answers
  `none` when the fuel is used up.
-/

namespace HJEditor

/-! ## Strings and characters -/

/-- A `QString`, as the list of its characters. -/
abbrev QString := List Char

/-- The null character `QChar()`, returned by `characterAt` outside the document. -/
def QChar.null : Char := Char.ofNat 0

/-- The paragraph separator U+2029 that `characterAt` returns at a block boundary and at the
end of the document. -/
def QChar.paragraphSeparator : Char := Char.ofNat 0x2029

/-- Models `QChar::isSpace`: U+0020, U+0009..U+000D, U+0085, U+00A0 and the characters of the Unicode
separator categories. -/
def QChar.isSpace (c : Char) : Bool :=
  let u := c.toNat
  u == 0x20 || (0x09 ≤ u && u ≤ 0x0D) || u == 0x85 || u == 0xA0 || u == 0x1680 ||
    (0x2000 ≤ u && u ≤ 0x200A) || u == 0x2028 || u == 0x2029 || u == 0x202F ||
    u == 0x205F || u == 0x3000

/-- The Unicode tables behind `QChar::isLetter`, `QChar::isDigit` and `QString::toLower`, which
are not reproduced here: any classification that agrees with ASCII on the ASCII range, does not
class the paragraph separator as a letter or digit, and lowers no character outside ASCII to an
ASCII character other than a letter. -/
structure QCharTables where
  isLetter : Char → Bool
  isDigit : Char → Bool
  toLower : Char → Char
  isLetter_ascii : ∀ c : Char, c.toNat < 128 → isLetter c = c.isAlpha
  isDigit_ascii : ∀ c : Char, c.toNat < 128 → isDigit c = c.isDigit
  toLower_ascii : ∀ c : Char, c.toNat < 128 → toLower c = c.toLower
  isLetter_separator : isLetter QChar.paragraphSeparator = false
  isDigit_separator : isDigit QChar.paragraphSeparator = false
  toLower_outside : ∀ c : Char, 128 ≤ c.toNat →
    128 ≤ (toLower c).toNat ∨ (toLower c).isAlpha = true

/-- Models `text.startsWith(pat)`: `pat` matches at offset 0 of `text`. -/
def startsWith : QString → QString → Bool
  | _, [] => true
  | [], _ :: _ => false
  | c :: t, p :: ps => c == p && startsWith t ps

/-- Scan of `indexOf`: `s` is the text from offset `i` on. -/
def indexOfAux (pat : QString) : QString → Nat → Int
  | [], i => if startsWith [] pat then (i : Int) else -1
  | c :: t, i => if startsWith (c :: t) pat then (i : Int) else indexOfAux pat t (i + 1)

/-- Models `text.indexOf(QRegularExpression(pat), offset)` and the `capturedStart()` of
`QRegularExpression(pat).match(text, offset)` for a literal pattern: the first offset at or after
`offset` where `pat` matches, `-1` when there is none. A negative offset counts from the end, and
an offset outside `[0, length]` gives no match. -/
def indexOf (text pat : QString) (offset : Int) : Int :=
  let off := if offset < 0 then offset + text.length else offset
  if off < 0 ∨ (text.length : Int) < off then -1
  else indexOfAux pat (text.drop off.toNat) off.toNat

/-- Models `s.contains(pat)`, case sensitive. -/
def contains : QString → QString → Bool
  | [], pat => startsWith [] pat
  | c :: t, pat => startsWith (c :: t) pat || contains t pat

/-- The pattern `pat` occurs in `text` at offset `i` (specification side). -/
def occursAt (pat text : QString) (i : Nat) : Prop :=
  (text.drop i).take pat.length = pat

instance (pat text : QString) (i : Nat) : Decidable (occursAt pat text i) := by
  unfold occursAt; infer_instance

/-! ## The document and the cursor -/

/-- Models `QTextDocument::characterAt` on the plain text `doc`: the null character outside
`[0, length]`, the paragraph separator at a block boundary and at the end. -/
def characterAt (doc : QString) (pos : Int) : Char :=
  if pos < 0 then QChar.null
  else
    match doc.get? pos.toNat with
    | some c => if c = '\n' then QChar.paragraphSeparator else c
    | none => if pos.toNat = doc.length then QChar.paragraphSeparator else QChar.null

/-- A `QTextCursor` without selection: null (default constructed) or at a position. -/
structure QTextCursor where
  isNull : Bool
  position : Nat
  deriving DecidableEq, Repr

/-- The default constructed cursor `QTextCursor()`. -/
def QTextCursor.null : QTextCursor := ⟨true, 0⟩

/-- Models `cursor.movePosition(QTextCursor::NextCharacter)`: one character forward, staying put at
the end of the document. -/
def QTextCursor.movePositionNext (doc : QString) (c : QTextCursor) : QTextCursor :=
  if c.isNull then c
  else if c.position < doc.length then { c with position := c.position + 1 }
  else c

/-- The states of the completion popup. -/
inductive CompleteState
  | Ignore
  | Showing
  | Hide
  deriving DecidableEq, Repr

/-- The background colours of the bracket highlight. -/
inductive Highlight
  | matching
  | current
  deriving DecidableEq, Repr

/-- The editor: document text, cursor position (no selection), completion vocabulary and popup,
and the extra selections. -/
structure CodeEditor where
  document : QString
  position : Nat
  completeList : List QString
  completeState : CompleteState
  widgetItems : List QString
  widgetVisible : Bool
  currentRow : Int
  extraSelections : List (Nat × Highlight)

/-- Models `this->textCursor()`: never null. -/
def CodeEditor.textCursor (ed : CodeEditor) : QTextCursor := ⟨false, ed.position⟩

/-! ## Bracket matching -/

/-- The `while (!cursor.isNull())` loop of `findMatchingBracket`. -/
def findMatchingBracketLoop (doc : QString) (closingChar : Char) :
    Nat → QTextCursor → Bool → Option QTextCursor
  | 0, _, _ => none
  | fuel + 1, cursor, insideString =>
    if !cursor.isNull then
      let cursor := cursor.movePositionNext doc
      let currentChar := characterAt doc cursor.position
      let insideString := if currentChar = '"' then !insideString else insideString
      if !insideString && currentChar == closingChar then some cursor
      else findMatchingBracketLoop doc closingChar fuel cursor insideString
    else some QTextCursor.null

/-- Models `CodeEditor::findMatchingBracket(position, closingChar)`; the scan starts from the text
cursor, `position` is not read. -/
def findMatchingBracket (fuel : Nat) (ed : CodeEditor) (_position : Nat) (closingChar : Char) :
    Option QTextCursor :=
  findMatchingBracketLoop ed.document closingChar fuel ed.textCursor false

/-- The closing character `highlightMatchingParenthesis` looks for, given the opening bracket
`ch` at the cursor. -/
def closingBracket (ch : Char) : Char :=
  if ch = '(' then ')' else if ch = '{' then '}' else ']'

/-- Models `CodeEditor::highlightMatchingParenthesis`: the editor afterwards, `none` when the scan
does not return within the fuel. -/
def highlightMatchingParenthesis (fuel : Nat) (ed : CodeEditor) : Option CodeEditor :=
  let cursor := ed.textCursor
  let position := cursor.position
  let ch := characterAt ed.document position
  if ch = '(' ∨ ch = '{' ∨ ch = '[' then
    let closingChar := closingBracket ch
    match findMatchingBracket fuel ed position closingChar with
    | none => none
    | some matchingCursor =>
      if matchingCursor.isNull then some ed
      else some { ed with extraSelections :=
        [(matchingCursor.position, Highlight.matching), (cursor.position, Highlight.current)] }
  else some ed

/-- A closing bracket `closing` occurs outside a double-quoted string in `rest`, the text after
the cursor, when the scan enters `rest` with in-string flag `inside` (specification side). -/
def closerOutsideString (closing : Char) : Bool → QString → Bool
  | _, [] => false
  | inside, c :: rest =>
    let inside1 := if c = '"' then !inside else inside
    (!inside1 && c == closing) || closerOutsideString closing inside1 rest

/-! ## The highlighter -/

/-- The character formats (style tags) of the highlighter; `plain` is the format of a character
no rule has touched. -/
inductive TextFormat
  | plain
  | keywordFormat
  | classFormat
  | singleLineCommentFormat
  | multiLineCommentFormat
  | quotationFormat
  | functionFormat
  | numberFormat
  | jsonKeyFormat
  | jsonSeparatorFormat
  deriving DecidableEq, Repr

/-- An ordinary rule: the pattern, kept as the function from a line to the
`(capturedStart, capturedLength)` of its successive matches, and the format. -/
structure HighlightingRule where
  globalMatch : QString → List (Int × Int)
  format : TextFormat

/-- The language profile held by a `Highlighter`: the ordered rules and the text matched by the
two block-comment expressions. -/
structure Highlighter where
  highlightingRules : List HighlightingRule
  commentStartExpression : QString
  commentEndExpression : QString

/-- The three supported languages. -/
inductive LanguageType
  | Cpp
  | Python
  | JSON
  deriving DecidableEq, Repr

/-- Models `initCppRules`: block comments run from `/*` to `*/`. The ordinary rules are passed in. -/
def initCppRules (rules : List HighlightingRule) : Highlighter :=
  { highlightingRules := rules
    commentStartExpression := ['/', '*']
    commentEndExpression := ['*', '/'] }

/-- Models `initPythonRules`: both block-comment expressions are three single quotes. -/
def initPythonRules (rules : List HighlightingRule) : Highlighter :=
  { highlightingRules := rules
    commentStartExpression := ['\'', '\'', '\'']
    commentEndExpression := ['\'', '\'', '\''] }

/-- Models `initJsonRules`: both block-comment expressions are the empty pattern. -/
def initJsonRules (rules : List HighlightingRule) : Highlighter :=
  { highlightingRules := rules
    commentStartExpression := []
    commentEndExpression := [] }

/-- Painting of `setFormat`: the formats from index `i` on, those in `[lo, hi)` replaced. -/
def paint (format : TextFormat) (lo hi : Int) : Nat → List TextFormat → List TextFormat
  | _, [] => []
  | i, f :: fs => (if lo ≤ (i : Int) ∧ (i : Int) < hi then format else f) :: paint format lo hi (i + 1) fs

/-- Models `QSyntaxHighlighter::setFormat(start, count, format)` on the per-character format array:
nothing when `start` is outside the array, else the characters `[start, min (start + count) size)`
take `format`. -/
def setFormat (formats : List TextFormat) (start count : Int) (format : TextFormat) :
    List TextFormat :=
  if start < 0 ∨ (formats.length : Int) ≤ start then formats
  else paint format start (min (start + count) formats.length) 0 formats

/-- The ordinary rules of `highlightBlock`, applied in order, each to all its matches. -/
def applyRules (rules : List HighlightingRule) (text : QString) (formats : List TextFormat) :
    List TextFormat :=
  rules.foldl
    (fun fs rule => (rule.globalMatch text).foldl (fun gs m => setFormat gs m.1 m.2 rule.format) fs)
    formats

/-- What `highlightBlock` leaves behind for a line: the format of each character, the block
state, and the `(start, length)` of the block-comment spans in the order they were set. -/
structure BlockResult where
  formats : List TextFormat
  currentBlockState : Int
  commentSpans : List (Int × Int)
  deriving DecidableEq, Repr

/-- The `while (startIndex >= 0)` loop of `highlightBlock`. -/
def commentLoop (text startExp endExp : QString) : Nat → Int → BlockResult → Option BlockResult
  | 0, _, _ => none
  | fuel + 1, startIndex, r =>
    if 0 ≤ startIndex then
      let endIndex := indexOf text endExp startIndex
      let state := if endIndex = -1 then 1 else r.currentBlockState
      let commentLength :=
        if endIndex = -1 then (text.length : Int) - startIndex
        else endIndex - startIndex + endExp.length
      let formats := setFormat r.formats startIndex commentLength TextFormat.multiLineCommentFormat
      commentLoop text startExp endExp fuel (indexOf text startExp (startIndex + commentLength))
        { formats := formats
          currentBlockState := state
          commentSpans := r.commentSpans ++ [(startIndex, commentLength)] }
    else some r

/-- Models `Highlighter::highlightBlock(text)` with the given `previousBlockState()`; `none` when the
block-comment loop does not end within the fuel. -/
def highlightBlock (h : Highlighter) (fuel : Nat) (text : QString) (previousBlockState : Int) :
    Option BlockResult :=
  let formats := applyRules h.highlightingRules text (List.replicate text.length TextFormat.plain)
  let startIndex :=
    if previousBlockState ≠ 1 then indexOf text h.commentStartExpression 0 else 0
  commentLoop text h.commentStartExpression h.commentEndExpression fuel startIndex
    { formats := formats, currentBlockState := 0, commentSpans := [] }

/-- The block states of successive lines, the first line classified after `state`. -/
def threadStates (h : Highlighter) (fuel : Nat) : Int → List QString → Option (List Int)
  | _, [] => some []
  | state, line :: rest =>
    match highlightBlock h fuel line state with
    | none => none
    | some r =>
      match threadStates h fuel r.currentBlockState rest with
      | none => none
      | some states => some (r.currentBlockState :: states)

/-! ## Language detection -/

/-- The characters of `s` after the last `sep`; all of `s` when it has none. -/
def afterLast (sep : Char) (s : QString) : QString :=
  (s.reverse.takeWhile (fun c => c != sep)).reverse

/-- Models `QFileInfo(file).fileName()`: the path without its directories. -/
def QFileInfo.fileName (file : QString) : QString := afterLast '/' file

/-- Models `QFileInfo(file).suffix()`: the characters of the file name after its last dot, empty when
the file name has no dot. -/
def QFileInfo.suffix (file : QString) : QString :=
  if '.' ∈ QFileInfo.fileName file then afterLast '.' (QFileInfo.fileName file) else []

/-- Models `QString::toLower`, character by character. -/
def toLower (T : QCharTables) (s : QString) : QString := s.map T.toLower

/-- Models `Highlighter::detectLanguage(fileName, content)`. -/
def detectLanguage (T : QCharTables) (fileName content : QString) : LanguageType :=
  let byExtension : Option LanguageType :=
    if !fileName.isEmpty then
      let suffix := toLower T (QFileInfo.suffix fileName)
      if suffix = "cpp".toList ∨ suffix = "c".toList ∨ suffix = "h".toList ∨
          suffix = "cxx".toList ∨ suffix = "hpp".toList then some LanguageType.Cpp
      else if suffix = "py".toList then some LanguageType.Python
      else if suffix = "json".toList then some LanguageType.JSON
      else none
    else none
  match byExtension with
  | some lang => lang
  | none =>
    if !content.isEmpty then
      let lowerContent := toLower T content
      let hasBrace := contains lowerContent ['{'] && contains lowerContent ['}']
      let hasBracket := contains lowerContent "[".toList && contains lowerContent "]".toList
      let hasColon := contains lowerContent ":".toList
      if (hasBrace || hasBracket) && hasColon then LanguageType.JSON
      else
        let hasPythonKeyword :=
          contains lowerContent "def ".toList || contains lowerContent "class ".toList ||
            contains lowerContent "import ".toList || contains lowerContent "from ".toList
        let hasCppFeature :=
          contains lowerContent "#include".toList || contains lowerContent ";".toList
        if hasPythonKeyword && !hasCppFeature then LanguageType.Python
        else if contains lowerContent "#include".toList || contains lowerContent ";".toList ||
            contains lowerContent "class ".toList then LanguageType.Cpp
        else LanguageType.Cpp
    else LanguageType.Cpp

/-! ## Completion -/

/-- Models `setUpCompleteList`: the completion vocabulary, in the order it is appended. -/
def setUpCompleteList : List QString :=
  ["char", "class", "const", "double", "enum", "explicit", "friend", "inline", "int", "long",
    "namespace", "operator", "private", "protected", "public", "short", "signals", "signed",
    "slots", "static", "struct", "template", "typedef", "typename", "union", "unsigned",
    "virtual", "void", "volatile", "bool", "using", "constexpr", "sizeof", "if", "for",
    "foreach", "while", "do", "case", "break", "continue", "template", "delete", "new",
    "default", "try", "return", "throw", "catch", "goto", "else", "extren", "this", "switch",
    "#include <>", "#include \"\"", "#define", "iostream"].map String.toList

/-- The characters the backward scans of `getWordOfCursor` and `getCompleteWidgetX` run over:
digits, letters, `_` and `#`. -/
def isWordChar (T : QCharTables) (ch : Char) : Bool :=
  T.isDigit ch || T.isLetter ch || ch == '_' || ch == '#'

/-- The `while` loop of `getWordOfCursor`, entered with `pos = n - 1` and
`ch = characterAt(pos)`; `words` holds the characters collected so far. At `pos = -1` the
character read is the null character, which is no digit, letter, `_` or `#`, and the loop ends. -/
def wordLoop (T : QCharTables) (doc : QString) : Nat → List Char → List Char
  | 0, words => words
  | n + 1, words =>
    let ch := characterAt doc (n : Int)
    if isWordChar T ch then wordLoop T doc n (words ++ [ch]) else words

/-- Models `CodeEditor::getWordOfCursor` for the cursor at `position`. -/
def getWordOfCursor (T : QCharTables) (doc : QString) (position : Nat) : QString :=
  let pos : Int := (position : Int) - 1
  let ch := characterAt doc (pos + 1)
  if T.isDigit ch || T.isLetter ch || ch == ' ' then []
  else
    let ch := characterAt doc pos
    if ch == ' ' then []
    else (wordLoop T doc position []).reverse

/-- A `QMap<QString, int>` as an association list, newest entry first. -/
abbrev QMap := List (QString × Int)

/-- Models `map[key] = value`. -/
def QMap.assign (m : QMap) (key : QString) (value : Int) : QMap := (key, value) :: m

/-- Models `map[key]` read: the value last assigned to `key`, `0` for a key never assigned. -/
def QMap.value : QMap → QString → Int
  | [], _ => 0
  | (k, v) :: m, key => if k = key then v else QMap.value m key

/-- Insertion step of `stdSort`: `x` goes in front of the first element that is not less than
it. -/
def sortInsert {α : Type} (comp : α → α → Bool) (x : α) : List α → List α
  | [] => [x]
  | y :: ys => if comp y x then y :: sortInsert comp x ys else x :: y :: ys

/-- The call `std::sort(begin, end, comp)`: it leaves a permutation of the range in which no
element is less than an earlier one; how it orders elements neither of which is less than the
other is unspecified. This sort is one such arrangement, the one that keeps such elements in
their order. -/
def stdSort {α : Type} (comp : α → α → Bool) (l : List α) : List α :=
  l.foldr (sortInsert comp) []

/-- The locals `itemList`, `distance` and `maxSize` of `showCompleteWidget`. -/
structure Candidates where
  itemList : List QString
  distance : QMap
  maxSize : Int

/-- The `foreach` over `completeList` in `showCompleteWidget`; `ldistance` is
`CompleteListWidget::ldistance` after the conversion of both strings. -/
def collectCandidates (ldistance : QString → QString → Int) (word : QString) :
    List QString → Candidates → Candidates
  | [], st => st
  | temp :: rest, st =>
    if contains temp word then
      collectCandidates ldistance word rest
        { itemList := st.itemList ++ [temp]
          distance := st.distance.assign temp (ldistance temp word)
          maxSize := if st.maxSize < (temp.length : Int) then (temp.length : Int) else st.maxSize }
    else collectCandidates ldistance word rest st

/-- The `std::sort` call of `showCompleteWidget`: `itemList` ordered by the comparison
`distance[s1] < distance[s2]`. -/
def sortedItemList (st : Candidates) : List QString :=
  stdSort (fun s1 s2 => decide (st.distance.value s1 < st.distance.value s2)) st.itemList

/-- Models `CodeEditor::showCompleteWidget`. The position and size of the popup are not kept;
`getCompleteWidgetX` puts the cursor back where it was and leaves the state `Hide`. -/
def showCompleteWidget (T : QCharTables) (ldistance : QString → QString → Int)
    (ed : CodeEditor) : CodeEditor :=
  if ed.completeState = CompleteState.Ignore then ed
  else
    let ed := { ed with widgetVisible := false, completeState := CompleteState.Hide }
    let word := getWordOfCursor T ed.document ed.position
    let ed := { ed with widgetItems := [], currentRow := -1 }
    if !word.isEmpty then
      let st := collectCandidates ldistance word ed.completeList
        { itemList := [], distance := [], maxSize := 0 }
      if 0 < st.itemList.length then
        { ed with
          widgetItems := sortedItemList st
          widgetVisible := true
          completeState := CompleteState.Showing
          currentRow := 0 }
      else ed
    else ed

/-! ## The Return key -/

/-- Models `insertPlainText(s)` without selection: `s` goes in at the cursor, the cursor after it. -/
def insertPlainText (ed : CodeEditor) (s : QString) : CodeEditor :=
  { ed with
    document := ed.document.take ed.position ++ s ++ ed.document.drop ed.position
    position := ed.position + s.length }

/-- The text of the block the cursor is in. -/
def currentBlockText (doc : QString) (position : Nat) : QString :=
  afterLast '\n' (doc.take position) ++ (doc.drop position).takeWhile (fun c => c != '\n')

/-- The first `foreach` of the Return branch: the leading whitespace of `temp` is inserted,
stopping at the first other character. -/
def insertLeadingSpaces : QString → CodeEditor → CodeEditor
  | [], ed => ed
  | c :: rest, ed =>
    if QChar.isSpace c then insertLeadingSpaces rest (insertPlainText ed [c]) else ed

/-- The second `foreach` of the Return branch: every whitespace character of `temp` is
inserted; the loop has no `break`. -/
def insertAllSpaces : QString → CodeEditor → CodeEditor
  | [], ed => ed
  | c :: rest, ed =>
    if QChar.isSpace c then insertAllSpaces rest (insertPlainText ed [c])
    else insertAllSpaces rest ed

/-- The branch of `keyPressEvent` for `Qt::Key_Return` when the completion list is not showing:
the text and the cursor afterwards. The default handling of the key inserts a line break at the
cursor. -/
def keyPressEventReturn (ed : CodeEditor) : CodeEditor :=
  let temp := currentBlockText ed.document ed.position
  let ed := insertPlainText ed ['\n']
  if temp.length ≤ 0 then ed
  else
    let ed := insertLeadingSpaces temp ed
    let ed :=
      if temp.getLast? = some ')' ∧
          (contains temp "for(".toList ∨ contains temp "while(".toList ∨
            contains temp "switch(".toList ∨ contains temp "if(".toList) then
        insertPlainText ed ['\t']
      else ed
    if temp.getLast? = some '{' then
      let ed := insertPlainText ed ['\t']
      let pos := ed.position
      let ed := insertPlainText ed ['\n']
      let ed := insertAllSpaces temp ed
      let ed := insertPlainText ed ['}']
      { ed with position := pos }
    else ed

/-! ## Sample inputs -/

/-- The ASCII tables: letters and digits of ASCII only, ASCII lower case. -/
def asciiTables : QCharTables :=
  { isLetter := Char.isAlpha
    isDigit := Char.isDigit
    toLower := Char.toLower
    isLetter_ascii := fun _ _ => rfl
    isDigit_ascii := fun _ _ => rfl
    toLower_ascii := fun _ _ => rfl
    isLetter_separator := by decide
    isDigit_separator := by decide
    toLower_outside := fun c h => by
      left
      have : c.toLower = c := by
        simp only [Char.toLower]
        split
        · rename_i h2
          have h3 : c.toNat = c.val.toNat := rfl
          omega
        · rfl
      rw [this]; exact h }

/-- An editor with the given text and cursor, the vocabulary of `setUpCompleteList`, and the
completion list hidden. -/
def editorAt (doc : QString) (position : Nat) : CodeEditor :=
  { document := doc
    position := position
    completeList := setUpCompleteList
    completeState := CompleteState.Hide
    widgetItems := []
    widgetVisible := false
    currentRow := -1
    extraSelections := [] }

/-- The editor holding the single character `(` with the cursor in front of it. -/
def openParenEditor : CodeEditor := editorAt ['('] 0

/-- A stand-in distance for sample runs: the difference of the lengths. -/
def lengthDistance (s t : QString) : Int := (s.length : Int) - (t.length : Int)

/-! ## Key events -/

/-- Key code `Qt::Key_Return`. -/
def Qt.Key_Return : Nat := 0x01000004

/-- Key code `Qt::Key_Backspace`. -/
def Qt.Key_Backspace : Nat := 0x01000003

/-- Modifier flag `Qt::ShiftModifier`. -/
def Qt.ShiftModifier : Nat := 0x02000000

/-- A key event: its key code and its modifier flags. -/
structure QKeyEvent where
  key : Nat
  modifiers : Nat
  deriving DecidableEq, Repr

/-- Models `moveCursor(QTextCursor::PreviousCharacter)`: one character back, staying put at the
start of the document. -/
def moveCursorPrevious (ed : CodeEditor) : CodeEditor :=
  { ed with position := ed.position - 1 }

/-- Models `textCursor().deletePreviousChar()` without selection: the character before the
cursor goes, nothing happens at the start of the document. -/
def deletePreviousChar (ed : CodeEditor) : CodeEditor :=
  if 0 < ed.position then
    { ed with
      document := ed.document.take (ed.position - 1) ++ ed.document.drop ed.position
      position := ed.position - 1 }
  else ed

/-- Models `textCursor().deleteChar()` without selection: the character after the cursor goes,
the cursor stays. -/
def deleteChar (ed : CodeEditor) : CodeEditor :=
  { ed with document := ed.document.take ed.position ++ ed.document.drop (ed.position + 1) }

/-- Models `QChar::toLatin1`: the code of a Latin-1 character, `0` for any other. -/
def QChar.toLatin1 (c : Char) : Nat := if c.toNat ≤ 0xff then c.toNat else 0

/-- The branch of `keyPressEvent` for `Qt::Key_Backspace`: the text and the cursor afterwards.
The default handling of the key deletes the character before the cursor. -/
def keyPressEventBackspace (ed : CodeEditor) : CodeEditor :=
  let code := QChar.toLatin1 (characterAt ed.document ((ed.position : Int) - 1))
  if code = '('.toNat then
    let ed := deletePreviousChar ed
    if characterAt ed.document (ed.position : Int) = ')' then deleteChar ed else ed
  else if code = '"'.toNat then
    let ed := deletePreviousChar ed
    if characterAt ed.document (ed.position : Int) = '"' then deleteChar ed else ed
  else if code = '<'.toNat then
    let ed := deletePreviousChar ed
    if characterAt ed.document (ed.position : Int) = '>' then deleteChar ed else ed
  else deletePreviousChar ed

/-- The loop `for (i = 0; i < word.count(); ++i) textCursor().deletePreviousChar()`. -/
def deleteWord : Nat → CodeEditor → CodeEditor
  | 0, ed => ed
  | n + 1, ed => deleteWord n (deletePreviousChar ed)

/-- The branch of `keyPressEvent` for `Qt::Key_Return` while the completion list is showing:
the highlighted candidate replaces the cursor word. There is no result when the popup has no
current item, which the branch reads without a check. While the state is `Ignore` the slot
`showCompleteWidget` returns at once, so it is not run here. -/
def keyPressEventAccept (T : QCharTables) (ed : CodeEditor) : Option CodeEditor :=
  if ed.currentRow < 0 then none
  else
    match ed.widgetItems.get? ed.currentRow.toNat with
    | none => none
    | some insertText =>
      let word := getWordOfCursor T ed.document ed.position
      let ed := { ed with completeState := CompleteState.Ignore }
      let ed := deleteWord word.length ed
      let ed := insertPlainText ed insertText
      let ed := if contains insertText "#include".toList then moveCursorPrevious ed else ed
      some { ed with completeState := CompleteState.Hide, widgetVisible := false }

/-- The `while` loop of `getCompleteWidgetX`, entered with `pos = n` and `ch = characterAt(pos)`:
the value of `pos` when the loop ends. The loop ends at `pos = 0` whatever the character. -/
def anchorLoop (T : QCharTables) (doc : QString) : Nat → Nat
  | 0 => 0
  | n + 1 => if isWordChar T (characterAt doc ((n + 1 : Nat) : Int)) then anchorLoop T doc n
             else n + 1

/-- Models `CodeEditor::getCompleteWidgetX`: the document position at which the cursor rectangle
is read for the x coordinate, and the editor afterwards. With the cursor at the start of the
document `pos` is `-1` and the loop is not entered. -/
def getCompleteWidgetX (T : QCharTables) (ed : CodeEditor) : Nat × CodeEditor :=
  let origianlPos := ed.position
  let pos : Nat := if ed.position = 0 then 0 else anchorLoop T ed.document (ed.position - 1) + 1
  (pos, { ed with position := origianlPos, completeState := CompleteState.Hide })

/-- Models `CodeEditor::keyPressEvent`: the editor after the key, without the slots connected to
`cursorPositionChanged`. `base` is `QPlainTextEdit::keyPressEvent` for the keys of the last
branch; for Return and Backspace the plain key is modelled (line break, deletion of the previous
character). There is no result when the accept branch finds no current item or the bracket scan
does not return within the fuel. -/
def keyPressEvent (T : QCharTables) (fuel : Nat) (base : QKeyEvent → CodeEditor → CodeEditor)
    (event : QKeyEvent) (ed : CodeEditor) : Option CodeEditor :=
  if event.modifiers = Qt.ShiftModifier ∧ event.key = 40 then
    some (moveCursorPrevious (insertPlainText ed "()".toList))
  else if event.modifiers = Qt.ShiftModifier ∧ event.key = 34 then
    some (moveCursorPrevious (insertPlainText ed "\"\"".toList))
  else if event.key = 16777235 ∧ ed.completeState = CompleteState.Showing then
    some (if 0 < ed.currentRow then { ed with currentRow := ed.currentRow - 1 } else ed)
  else if event.key = 16777237 ∧ ed.completeState = CompleteState.Showing then
    some (if ed.currentRow < (ed.widgetItems.length : Int) - 1 then
      { ed with currentRow := ed.currentRow + 1 } else ed)
  else if event.key = Qt.Key_Return ∧ ed.completeState = CompleteState.Showing then
    keyPressEventAccept T ed
  else if event.key = Qt.Key_Return then some (keyPressEventReturn ed)
  else if event.key = Qt.Key_Backspace then some (keyPressEventBackspace ed)
  else highlightMatchingParenthesis fuel (base event ed)

/-! ## Specification side of language detection and bracket matching -/

/-- The extension of `fileName` is one `detectLanguage` recognises. -/
def recognisedExtension (T : QCharTables) (fileName : QString) : Prop :=
  fileName ≠ [] ∧
    toLower T (QFileInfo.suffix fileName) ∈
      ["cpp", "c", "h", "cxx", "hpp", "py", "json"].map String.toList

instance (T : QCharTables) (fileName : QString) : Decidable (recognisedExtension T fileName) := by
  unfold recognisedExtension; infer_instance

/-- The JSON condition on a content: a colon, and a pair of braces or a pair of brackets. -/
def jsonCondition (content : QString) : Prop :=
  ':' ∈ content ∧ (('{' ∈ content ∧ '}' ∈ content) ∨ ('[' ∈ content ∧ ']' ∈ content))

instance (content : QString) : Decidable (jsonCondition content) := by
  unfold jsonCondition; infer_instance

/-- The in-string flag after the characters `l`, having entered them with flag `inside`: it
flips at each double quote. -/
def stringFlag (inside : Bool) (l : QString) : Bool :=
  l.foldl (fun flag c => if c = '"' then !flag else flag) inside

/-- Position `q` holds the closing bracket `closing`, and the scan that starts outside a string
right after position `p` is outside a string at `q`. -/
def closerAt (doc : QString) (closing : Char) (p q : Nat) : Prop :=
  p < q ∧ doc[q]? = some closing ∧ stringFlag false ((doc.drop (p + 1)).take (q - p)) = false

instance (doc : QString) (closing : Char) (p q : Nat) : Decidable (closerAt doc closing p q) := by
  unfold closerAt; infer_instance

/-- An empty pair sits around position `p`: `(` and `)`, two double quotes, or `<` and `>`, at
the positions `p - 1` and `p`. -/
def emptyPairAt (doc : QString) (p : Nat) : Prop :=
  (doc[p - 1]? = some '(' ∧ doc[p]? = some ')') ∨
    (doc[p - 1]? = some '"' ∧ doc[p]? = some '"') ∨
    (doc[p - 1]? = some '<' ∧ doc[p]? = some '>')

instance (doc : QString) (p : Nat) : Decidable (emptyPairAt doc p) := by
  unfold emptyPairAt; infer_instance

/-- The line ends with `)` and contains one of `for(`, `while(`, `switch(`, `if(`. -/
def extraIndent (line : QString) : Prop :=
  line.getLast? = some ')' ∧
    ("for(".toList <:+: line ∨ "while(".toList <:+: line ∨ "switch(".toList <:+: line ∨
      "if(".toList <:+: line)

instance (line : QString) : Decidable (extraIndent line) := by
  unfold extraIndent; infer_instance

/-- The text contains one of the tokens `def `, `class `, `import `, `from `. -/
def hasPythonToken (l : QString) : Prop :=
  "def ".toList <:+: l ∨ "class ".toList <:+: l ∨ "import ".toList <:+: l ∨
    "from ".toList <:+: l

instance (l : QString) : Decidable (hasPythonToken l) := by
  unfold hasPythonToken; infer_instance

/-- The punctuation characters `detectLanguage` looks for one at a time. -/
def sniffedPunctuation : List Char := [':', '{', '}', '[', ']', ';']

/-- The offset in `rest`, the text after the cursor, of the first closing bracket met outside a
string by a scan that enters `rest` with in-string flag `inside` (specification side). -/
def firstCloser (closing : Char) : Bool → QString → Option Nat
  | _, [] => none
  | inside, c :: rest =>
    let inside1 := if c = '"' then !inside else inside
    if !inside1 && c == closing then some 0
    else (firstCloser closing inside1 rest).map (fun k => k + 1)

/-! ## The edit distance -/

/-- Inner recursion of `ldistance` for a first string `a :: s`, over the second string;
`above` is the distance from `s`. -/
def ldistanceAux (a : Char) (s : QString) (above : QString → Nat) : QString → Nat
  | [] => s.length + 1
  | b :: t =>
    min (min (above (b :: t) + 1) (ldistanceAux a s above t + 1))
      (above t + if a = b then 0 else 1)

/-- Modelled from the spec: `CompleteListWidget::ldistance`, whose source is not among the files
(only its call in `showCompleteWidget` is). The spec describes it as the classic
dynamic-programming edit distance over whole strings, cost 1 per insert, delete or substitute,
no transpositions: the distance from the empty string is the length of the other string, and
otherwise the least of a deletion, an insertion and a substitution (free for equal
characters). -/
def ldistance : QString → QString → Nat
  | [] => fun t => t.length
  | a :: s => ldistanceAux a s (ldistance s)

/-- The distance as `showCompleteWidget` stores it, an `int`. -/
def ldistanceInt (s t : QString) : Int := (ldistance s t : Int)

/-! ## Events -/

/-- What the editor reacts to: a key press, or the signal `cursorPositionChanged`, to which
`showCompleteWidget` is connected. -/
inductive EditorEvent
  | keyPress (event : QKeyEvent)
  | cursorPositionChanged
  deriving DecidableEq, Repr

/-- The editor after one event; see `keyPressEvent` for when there is no result. -/
def handleEvent (T : QCharTables) (ldist : QString → QString → Int) (fuel : Nat)
    (base : QKeyEvent → CodeEditor → CodeEditor) : EditorEvent → CodeEditor → Option CodeEditor
  | EditorEvent.keyPress event, ed => keyPressEvent T fuel base event ed
  | EditorEvent.cursorPositionChanged, ed => some (showCompleteWidget T ldist ed)

/-- The editor after a sequence of events. -/
def runEvents (T : QCharTables) (ldist : QString → QString → Int) (fuel : Nat)
    (base : QKeyEvent → CodeEditor → CodeEditor) : List EditorEvent → CodeEditor → Option CodeEditor
  | [], ed => some ed
  | e :: rest, ed =>
    match handleEvent T ldist fuel base e ed with
    | none => none
    | some ed1 => runEvents T ldist fuel base rest ed1

/-- The completion popup of an editor: the state, the candidates, whether the list is shown, and
the highlighted row. -/
def popupOf (ed : CodeEditor) : CompleteState × List QString × Bool × Int :=
  (ed.completeState, ed.widgetItems, ed.widgetVisible, ed.currentRow)

/-- The popup invariant (specification side): while the state is `Showing` the list is shown, it
has a candidate, and the highlighted row is the index of one. -/
def popupInvariant (ed : CodeEditor) : Prop :=
  ed.completeState = CompleteState.Showing →
    ed.widgetVisible = true ∧ ed.widgetItems ≠ [] ∧ 0 ≤ ed.currentRow ∧
      ed.currentRow ≤ (ed.widgetItems.length : Int) - 1

/-- The text of an opening parenthesis, a quote, a backslash, a quote, a closing parenthesis,
a quote and a closing parenthesis. -/
def escapedQuoteText : QString := ['(', '"', '\\', '"', ')', '"', ')']

/-! ## Facts about `characterAt` -/

theorem characterAt_lt (doc : QString) (i : Nat) (h : i < doc.length) :
    characterAt doc (i : Int) =
      if doc.get ⟨i, h⟩ = '\n' then QChar.paragraphSeparator else doc.get ⟨i, h⟩ := by
  have h0 : ¬ ((i : Int) < 0) := by omega
  simp only [characterAt, h0, if_false, Int.toNat_ofNat, List.get?_eq_get h]

theorem characterAt_ge (doc : QString) (i : Nat) (h : doc.length ≤ i) :
    characterAt doc (i : Int) = QChar.paragraphSeparator ∨ characterAt doc (i : Int) = QChar.null := by
  have h0 : ¬ ((i : Int) < 0) := by omega
  have h1 : doc.get? i = none := List.get?_eq_none.mpr h
  simp only [characterAt, h0, if_false, Int.toNat_ofNat, h1]
  by_cases h2 : i = doc.length
  · left; simp [h2]
  · right; simp [h2]

/-! ## Facts about `startsWith`, `indexOf` and `contains` -/

theorem startsWith_nil (t : QString) : startsWith t [] = true := by
  cases t <;> rfl

theorem startsWith_iff (pat : QString) :
    ∀ t : QString, startsWith t pat = true ↔ t.take pat.length = pat := by
  induction pat with
  | nil => intro t; simp [startsWith_nil]
  | cons p ps ih =>
    intro t
    cases t with
    | nil => simp [startsWith]
    | cons c t =>
      simp only [startsWith, Bool.and_eq_true, beq_iff_eq, ih t, List.length_cons,
        List.take_succ_cons, List.cons.injEq]

theorem startsWith_drop_iff (pat text : QString) (i : Nat) :
    startsWith (text.drop i) pat = true ↔ occursAt pat text i :=
  startsWith_iff pat (text.drop i)

theorem indexOfAux_eq_neg_one (pat : QString) :
    ∀ (s : QString) (i : Nat), (∀ j, j ≤ s.length → startsWith (s.drop j) pat = false) →
      indexOfAux pat s i = -1 := by
  intro s
  induction s with
  | nil =>
    intro i h
    have h0 := h 0 (Nat.le_refl _)
    simp only [List.drop_zero] at h0
    simp [indexOfAux, h0]
  | cons c t ih =>
    intro i h
    have h0 := h 0 (Nat.zero_le _)
    simp only [List.drop_zero] at h0
    simp only [indexOfAux, h0, Bool.false_eq_true, if_false]
    apply ih
    intro j hj
    have := h (j + 1) (by simp only [List.length_cons]; omega)
    simpa using this

theorem indexOfAux_eq_first (pat : QString) :
    ∀ (s : QString) (i k : Nat), k ≤ s.length → startsWith (s.drop k) pat = true →
      (∀ j, j < k → startsWith (s.drop j) pat = false) →
      indexOfAux pat s i = ((i + k : Nat) : Int) := by
  intro s
  induction s with
  | nil =>
    intro i k hk hat _
    have hk0 : k = 0 := by simpa using hk
    subst hk0
    simp only [List.drop_zero] at hat
    simp [indexOfAux, hat]
  | cons c t ih =>
    intro i k hk hat hbefore
    cases k with
    | zero =>
      simp only [List.drop_zero] at hat
      simp [indexOfAux, hat]
    | succ k =>
      have h0 := hbefore 0 (Nat.succ_pos _)
      simp only [List.drop_zero] at h0
      simp only [indexOfAux, h0, Bool.false_eq_true, if_false]
      have hk1 : k ≤ t.length := by simpa using hk
      have hat1 : startsWith (t.drop k) pat = true := by simpa using hat
      have := ih (i + 1) k hk1 hat1 (fun j hj => by
        have := hbefore (j + 1) (by omega)
        simpa using this)
      rw [this]
      congr 1
      omega

theorem indexOf_nat (text pat : QString) (off : Nat) (hoff : off ≤ text.length) :
    indexOf text pat (off : Int) = indexOfAux pat (text.drop off) off := by
  have h0 : ¬ ((off : Int) < 0) := by omega
  have h2 : ¬ ((text.length : Int) < (off : Int)) := by omega
  simp [indexOf, h0, h2]

theorem indexOf_eq_neg_one (text pat : QString) (off : Nat) (hoff : off ≤ text.length)
    (h : ∀ j, off ≤ j → ¬ occursAt pat text j) : indexOf text pat (off : Int) = -1 := by
  rw [indexOf_nat text pat off hoff]
  apply indexOfAux_eq_neg_one
  intro j _
  rw [List.drop_drop]
  have hj := h (off + j) (Nat.le_add_right _ _)
  rw [← startsWith_drop_iff] at hj
  simpa using hj

theorem indexOf_eq_first (text pat : QString) (off e : Nat) (hoe : off ≤ e)
    (he : e ≤ text.length) (hat : occursAt pat text e)
    (hbefore : ∀ j, off ≤ j → j < e → ¬ occursAt pat text j) :
    indexOf text pat (off : Int) = (e : Int) := by
  rw [indexOf_nat text pat off (by omega)]
  have key := indexOfAux_eq_first pat (text.drop off) off (e - off)
    (by simp only [List.length_drop]; omega)
    (by
      rw [List.drop_drop, startsWith_drop_iff]
      have : off + (e - off) = e := by omega
      rw [this]; exact hat)
    (fun j hj => by
      rw [List.drop_drop]
      have hj2 := hbefore (off + j) (Nat.le_add_right _ _) (by omega)
      rw [← startsWith_drop_iff] at hj2
      simpa using hj2)
  rw [key]
  have : off + (e - off) = e := by omega
  rw [this]

theorem occursAt_le (pat text : QString) (i : Nat) (hpat : pat ≠ []) (h : occursAt pat text i) :
    i + pat.length ≤ text.length := by
  unfold occursAt at h
  have hl : ((text.drop i).take pat.length).length = pat.length := by rw [h]
  simp only [List.length_take, List.length_drop] at hl
  have hp : 0 < pat.length := List.length_pos.mpr hpat
  omega

theorem indexOfAux_nil (s : QString) (i : Nat) : indexOfAux [] s i = (i : Int) := by
  cases s <;> simp [indexOfAux, startsWith]

theorem indexOf_nil (text : QString) (off : Nat) (hoff : off ≤ text.length) :
    indexOf text [] (off : Int) = (off : Int) := by
  rw [indexOf_nat text [] off hoff, indexOfAux_nil]

theorem not_occursAt_of_bounded (pat text : QString) (hpat : pat ≠ [])
    (h : ∀ i, i < text.length → ¬ occursAt pat text i) : ∀ i, ¬ occursAt pat text i := by
  intro i hi
  have := occursAt_le pat text i hpat hi
  have hp : 0 < pat.length := List.length_pos.mpr hpat
  exact h i (by omega) hi

/-! ## Facts about `setFormat` and the ordinary rules -/

theorem length_paint (format : TextFormat) (lo hi : Int) :
    ∀ (fs : List TextFormat) (k : Nat), (paint format lo hi k fs).length = fs.length := by
  intro fs
  induction fs with
  | nil => intro k; rfl
  | cons f fs ih => intro k; simp [paint, ih]

theorem getElem?_paint (format : TextFormat) (lo hi : Int) :
    ∀ (fs : List TextFormat) (k j : Nat),
      (paint format lo hi k fs)[j]? =
        fs[j]?.map (fun f => if lo ≤ ((k + j : Nat) : Int) ∧ ((k + j : Nat) : Int) < hi
          then format else f) := by
  intro fs
  induction fs with
  | nil => intro k j; simp [paint]
  | cons f fs ih =>
    intro k j
    cases j with
    | zero => simp [paint]
    | succ j =>
      simp only [paint, List.getElem?_cons_succ, ih]
      have : k + 1 + j = k + (j + 1) := by omega
      rw [this]

theorem length_setFormat (fs : List TextFormat) (start count : Int) (format : TextFormat) :
    (setFormat fs start count format).length = fs.length := by
  unfold setFormat
  split
  · rfl
  · exact length_paint _ _ _ _ _

theorem getElem?_setFormat (fs : List TextFormat) (start : Nat) (count : Int)
    (format : TextFormat) (j : Nat) :
    (setFormat fs (start : Int) count format)[j]? =
      fs[j]?.map (fun f => if start ≤ j ∧ (j : Int) < (start : Int) + count then format else f) := by
  unfold setFormat
  by_cases hj : j < fs.length
  · split
    · rename_i h
      have hs : fs.length ≤ start := by omega
      have : ¬ (start ≤ j ∧ (j : Int) < (start : Int) + count) := by omega
      simp [List.getElem?_eq_getElem hj, this]
    · rw [getElem?_paint]
      simp only [List.getElem?_eq_getElem hj, Option.map_some', Nat.zero_add, Option.some.injEq]
      by_cases hc : start ≤ j ∧ (j : Int) < (start : Int) + count
      · have : (start : Int) ≤ (j : Int) ∧ (j : Int) < min ((start : Int) + count) (fs.length : Int) := by
          refine ⟨by omega, ?_⟩
          rw [lt_min_iff]; omega
        rw [if_pos this, if_pos hc]
      · have : ¬ ((start : Int) ≤ (j : Int) ∧ (j : Int) < min ((start : Int) + count) (fs.length : Int)) := by
          rw [lt_min_iff]; omega
        rw [if_neg this, if_neg hc]
  · have hj2 : fs.length ≤ j := by omega
    split
    · simp [List.getElem?_eq_none hj2]
    · rw [getElem?_paint]
      simp [List.getElem?_eq_none hj2]

theorem length_applyRules (rules : List HighlightingRule) (text : QString) :
    ∀ fs : List TextFormat, (applyRules rules text fs).length = fs.length := by
  unfold applyRules
  induction rules with
  | nil => intro fs; rfl
  | cons rule rules ih =>
    intro fs
    simp only [List.foldl_cons]
    rw [ih]
    generalize rule.globalMatch text = ms
    induction ms generalizing fs with
    | nil => rfl
    | cons m ms ihm =>
      simp only [List.foldl_cons]
      rw [ihm, length_setFormat]

/-! ## The block-comment loop with empty expressions -/

theorem commentLoop_nil_diverges (text : QString) :
    ∀ (fuel k : Nat) (r : BlockResult), k ≤ text.length →
      commentLoop text [] [] fuel (k : Int) r = none := by
  intro fuel
  induction fuel with
  | zero => intro k r _; rfl
  | succ n ih =>
    intro k r hk
    have h0 : (0 : Int) ≤ (k : Int) := by omega
    have hne : ¬ ((k : Int) = -1) := by omega
    simp only [commentLoop, h0, if_true, indexOf_nil text k hk, hne, if_false, sub_self,
      List.length_nil, Nat.cast_zero, add_zero]
    exact ih k _ hk

/-! ## Bracket matching: the scan without a closer -/

theorem findMatchingBracketLoop_no_closer (doc : QString) (closing : Char)
    (hcl : closing = ')' ∨ closing = '}' ∨ closing = ']') :
    ∀ (fuel : Nat) (cursor : QTextCursor) (inside : Bool), cursor.isNull = false →
      closerOutsideString closing inside (doc.drop (cursor.position + 1)) = false →
      findMatchingBracketLoop doc closing fuel cursor inside = none := by
  have hsepq : QChar.paragraphSeparator ≠ '"' := by decide
  have hnulq : QChar.null ≠ '"' := by decide
  have hsepc : (QChar.paragraphSeparator == closing) = false := by
    rcases hcl with h | h | h <;> subst h <;> decide
  have hnulc : (QChar.null == closing) = false := by
    rcases hcl with h | h | h <;> subst h <;> decide
  have hnlc : ('\n' == closing) = false := by
    rcases hcl with h | h | h <;> subst h <;> decide
  intro fuel
  induction fuel with
  | zero => intro cursor inside _ _; rfl
  | succ n ih =>
    intro cursor inside hnull hno
    obtain ⟨isNull, p⟩ := cursor
    simp only at hnull hno
    subst hnull
    by_cases hp : p < doc.length
    · -- the cursor moves to `p + 1`
      have hmove : QTextCursor.movePositionNext doc ⟨false, p⟩ = ⟨false, p + 1⟩ := by
        simp [QTextCursor.movePositionNext, hp]
      by_cases hp1 : p + 1 < doc.length
      · have hdrop : doc.drop (p + 1) = doc.get ⟨p + 1, hp1⟩ :: doc.drop (p + 1 + 1) := by
          exact List.drop_eq_getElem_cons hp1
        rw [hdrop] at hno
        simp only [closerOutsideString, Bool.or_eq_false_iff] at hno
        obtain ⟨hhit, hrest⟩ := hno
        have hch := characterAt_lt doc (p + 1) hp1
        simp only [findMatchingBracketLoop, hmove, Bool.not_false, if_true]
        have hcast : ((p + 1 : Nat) : Int) = (p : Int) + 1 := by push_cast; rfl
        rw [hcast] at hch
        by_cases hnl : doc.get ⟨p + 1, hp1⟩ = '\n'
        · rw [hnl] at hhit hrest
          simp only [hnl, if_true] at hch
          have hq : ¬ ('\n' = '"') := by decide
          simp only [hq, if_false] at hhit hrest
          simp only [Nat.cast_add, Nat.cast_one, hch, hsepq, if_false, hsepc, Bool.and_false]
          exact ih ⟨false, p + 1⟩ inside rfl hrest
        · simp only [hnl, if_false] at hch
          simp only [Nat.cast_add, Nat.cast_one, hch, hhit]
          exact ih ⟨false, p + 1⟩ _ rfl hrest
      · have hlen : doc.length ≤ p + 1 := by omega
        have hdrop : doc.drop (p + 1 + 1) = [] := List.drop_eq_nil_of_le (by omega)
        simp only [findMatchingBracketLoop, hmove, Bool.not_false, if_true]
        have hcast : ((p + 1 : Nat) : Int) = (p : Int) + 1 := by push_cast; rfl
        have hrec : ∀ b, findMatchingBracketLoop doc closing n ⟨false, p + 1⟩ b = none :=
          fun b => ih ⟨false, p + 1⟩ b rfl (by simp [hdrop, closerOutsideString])
        rcases characterAt_ge doc (p + 1) hlen with h | h <;> rw [hcast] at h
        · simp only [Nat.cast_add, Nat.cast_one, h, hsepq, if_false, hsepc, Bool.and_false]
          exact hrec inside
        · simp only [Nat.cast_add, Nat.cast_one, h, hnulq, if_false, hnulc, Bool.and_false]
          exact hrec inside
    · -- the cursor is at the end of the document and stays there
      have hmove : QTextCursor.movePositionNext doc ⟨false, p⟩ = ⟨false, p⟩ := by
        simp [QTextCursor.movePositionNext, hp]
      simp only [findMatchingBracketLoop, hmove, Bool.not_false, if_true]
      have hrec : findMatchingBracketLoop doc closing n ⟨false, p⟩ inside = none :=
        ih ⟨false, p⟩ inside rfl hno
      rcases characterAt_ge doc p (by omega) with h | h
      · simp only [h, hsepq, if_false, hsepc, Bool.and_false]
        exact hrec
      · simp only [h, hnulq, if_false, hnulc, Bool.and_false]
        exact hrec

/-- C1: when the character at the cursor is an opening bracket and no corresponding closing
bracket occurs outside a double-quoted string between the cursor and the end of the document,
the scan of `findMatchingBracket` does not return, whatever the fuel, and so neither does
`highlightMatchingParenthesis`: the scan never reports "no match". -/
theorem findMatchingBracket_no_closer_diverges (ed : CodeEditor) (fuel : Nat)
    (hopen : characterAt ed.document ed.position = '(' ∨
      characterAt ed.document ed.position = '{' ∨ characterAt ed.document ed.position = '[')
    (hno : closerOutsideString (closingBracket (characterAt ed.document ed.position)) false
      (ed.document.drop (ed.position + 1)) = false) :
    findMatchingBracket fuel ed ed.position
        (closingBracket (characterAt ed.document ed.position)) = none ∧
      highlightMatchingParenthesis fuel ed = none := by
  have hcl : closingBracket (characterAt ed.document ed.position) = ')' ∨
      closingBracket (characterAt ed.document ed.position) = '}' ∨
      closingBracket (characterAt ed.document ed.position) = ']' := by
    rcases hopen with h | h | h <;> rw [h] <;> decide
  have hfind : findMatchingBracket fuel ed ed.position
      (closingBracket (characterAt ed.document ed.position)) = none :=
    findMatchingBracketLoop_no_closer ed.document _ hcl fuel ed.textCursor false rfl hno
  refine ⟨hfind, ?_⟩
  simp only [highlightMatchingParenthesis, CodeEditor.textCursor]
  rw [if_pos hopen]
  simp only [CodeEditor.textCursor] at hfind
  rw [hfind]

theorem findMatchingBracket_no_closer_diverges_witness :
    characterAt openParenEditor.document openParenEditor.position = '(' ∧
      findMatchingBracket 1000 openParenEditor 0 ')' = none ∧
      highlightMatchingParenthesis 1000 openParenEditor = none :=
  ⟨by decide,
   findMatchingBracket_no_closer_diverges openParenEditor 1000 (Or.inl (by decide)) (by decide)⟩

/-- C2: for the JSON profile, whose two block-comment expressions are empty, the block-comment
loop of `highlightBlock` does not end, whatever the line, the incoming state and the fuel: no
result, and so no outgoing state, is produced. -/
theorem highlightBlock_json_diverges (rules : List HighlightingRule) (fuel : Nat)
    (text : QString) (previousBlockState : Int) :
    highlightBlock (initJsonRules rules) fuel text previousBlockState = none := by
  simp only [highlightBlock, initJsonRules]
  have h0 := indexOf_nil text 0 (Nat.zero_le _)
  simp only [Nat.cast_zero] at h0
  rw [h0, ite_self]
  exact commentLoop_nil_diverges text fuel 0 _ (Nat.zero_le _)

/-! ## The block-comment loop of the C++ profile -/

theorem indexOf_length_eq_neg_one (text pat : QString) (hpat : pat ≠ []) :
    indexOf text pat (text.length : Int) = -1 :=
  indexOf_eq_neg_one text pat text.length (Nat.le_refl _) (fun j hj hocc => by
    have := occursAt_le pat text j hpat hocc
    have hp : 0 < pat.length := List.length_pos.mpr hpat
    omega)

theorem highlightBlock_cpp_continue_open (rules : List HighlightingRule) (text : QString)
    (n : Nat) (hno : ∀ i, ¬ occursAt ['*', '/'] text i) :
    highlightBlock (initCppRules rules) (n + 2) text 1 = some
      { formats := setFormat (applyRules rules text (List.replicate text.length TextFormat.plain))
          0 text.length TextFormat.multiLineCommentFormat
        currentBlockState := 1
        commentSpans := [(0, (text.length : Int))] } := by
  have hend : indexOf text ['*', '/'] 0 = -1 := by
    have := indexOf_eq_neg_one text ['*', '/'] 0 (Nat.zero_le _) (fun j _ => hno j)
    simpa using this
  have hstart := indexOf_length_eq_neg_one text ['/', '*'] (by simp)
  simp [highlightBlock, initCppRules, commentLoop, hend, hstart]

theorem highlightBlock_cpp_continue_close (rules : List HighlightingRule) (text : QString)
    (n e : Nat) (hat : occursAt ['*', '/'] text e) (hfirst : ∀ j, j < e → ¬ occursAt ['*', '/'] text j)
    (hafter : ∀ j, e + 2 ≤ j → ¬ occursAt ['/', '*'] text j) :
    highlightBlock (initCppRules rules) (n + 2) text 1 = some
      { formats := setFormat (applyRules rules text (List.replicate text.length TextFormat.plain))
          0 ((e : Int) + 2) TextFormat.multiLineCommentFormat
        currentBlockState := 0
        commentSpans := [(0, (e : Int) + 2)] } := by
  have hle := occursAt_le _ _ _ (by simp) hat
  simp only [List.length_cons, List.length_nil] at hle
  have hend : indexOf text ['*', '/'] 0 = (e : Int) := by
    have := indexOf_eq_first text ['*', '/'] 0 e (Nat.zero_le _) (by omega) hat
      (fun j _ hj => hfirst j hj)
    simpa using this
  have hstart : indexOf text ['/', '*'] ((e : Int) + 2) = -1 := by
    have := indexOf_eq_neg_one text ['/', '*'] (e + 2) (by omega) hafter
    simpa using this
  have hne : ¬ ((e : Int) = -1) := by omega
  simp [highlightBlock, initCppRules, commentLoop, hend, hstart, hne]

theorem highlightBlock_cpp_open (rules : List HighlightingRule) (text : QString)
    (previousBlockState : Int) (hprev : previousBlockState ≠ 1)
    (n s : Nat) (hat : occursAt ['/', '*'] text s) (hfirst : ∀ j, j < s → ¬ occursAt ['/', '*'] text j)
    (hno : ∀ j, s ≤ j → ¬ occursAt ['*', '/'] text j) :
    highlightBlock (initCppRules rules) (n + 2) text previousBlockState = some
      { formats := setFormat (applyRules rules text (List.replicate text.length TextFormat.plain))
          s ((text.length : Int) - s) TextFormat.multiLineCommentFormat
        currentBlockState := 1
        commentSpans := [((s : Int), (text.length : Int) - s)] } := by
  have hle := occursAt_le _ _ _ (by simp) hat
  simp only [List.length_cons, List.length_nil] at hle
  have hbegin : indexOf text ['/', '*'] 0 = (s : Int) := by
    have := indexOf_eq_first text ['/', '*'] 0 s (Nat.zero_le _) (by omega) hat
      (fun j _ hj => hfirst j hj)
    simpa using this
  have hend : indexOf text ['*', '/'] (s : Int) = -1 :=
    indexOf_eq_neg_one text ['*', '/'] s (by omega) hno
  have hstart := indexOf_length_eq_neg_one text ['/', '*'] (by simp)
  simp [highlightBlock, initCppRules, commentLoop, hprev, hbegin, hend, hstart]

/-- C3: on the line `/*/ x`, classified with incoming state 0 by the C++ profile, the first
start marker is at offset 0 and no end marker begins at an offset of 2 or more, yet the end
marker search starts on the start marker itself and finds `*/` at offset 1: only the three
characters `[0, 3)` are comment-styled, the characters after them keep the format of the
ordinary rules, and the outgoing block state is 0. -/
theorem highlightBlock_cpp_overlapping_markers (rules : List HighlightingRule) (n : Nat) :
    occursAt ['/', '*'] ['/', '*', '/', ' ', 'x'] 0 ∧
      (∀ j, 2 ≤ j → ¬ occursAt ['*', '/'] ['/', '*', '/', ' ', 'x'] j) ∧
      ∃ r, highlightBlock (initCppRules rules) (n + 2) ['/', '*', '/', ' ', 'x'] 0 = some r ∧
        r.currentBlockState = 0 ∧ r.commentSpans = [(0, 3)] ∧
        ∀ i, 3 ≤ i → r.formats[i]? =
          (applyRules rules ['/', '*', '/', ' ', 'x'] (List.replicate 5 TextFormat.plain))[i]? := by
  refine ⟨by decide, ?_, ?_⟩
  · intro j hj hocc
    have hle := occursAt_le _ _ _ (by simp) hocc
    simp only [List.length_cons, List.length_nil] at hle
    have hj2 : j = 2 ∨ j = 3 := by omega
    rcases hj2 with h | h <;> subst h <;> revert hocc <;> decide
  · have hbegin : indexOf ['/', '*', '/', ' ', 'x'] ['/', '*'] 0 = 0 := by decide
    have hend : indexOf ['/', '*', '/', ' ', 'x'] ['*', '/'] 0 = 1 := by decide
    have hnext : indexOf ['/', '*', '/', ' ', 'x'] ['/', '*'] 3 = -1 := by decide
    refine ⟨{ formats := setFormat
                (applyRules rules ['/', '*', '/', ' ', 'x'] (List.replicate 5 TextFormat.plain))
                0 3 TextFormat.multiLineCommentFormat
              currentBlockState := 0
              commentSpans := [(0, 3)] }, ?_, rfl, rfl, ?_⟩
    · simp [highlightBlock, initCppRules, commentLoop, hbegin, hend, hnext]
    intro i hi
    show (setFormat (applyRules rules ['/', '*', '/', ' ', 'x']
      (List.replicate 5 TextFormat.plain)) 0 3 TextFormat.multiLineCommentFormat)[i]? = _
    have h := getElem?_setFormat
      (applyRules rules ['/', '*', '/', ' ', 'x'] (List.replicate 5 TextFormat.plain)) 0 3
      TextFormat.multiLineCommentFormat i
    simp only [Nat.cast_zero] at h
    rw [h]
    have hc : ¬ (0 ≤ i ∧ (i : Int) < 0 + 3) := by omega
    simp only [hc, if_false, Option.map_id']

/-- C4: the C++ profile on a line classified with incoming state 1, given enough fuel. Without
`*/` in the line every character is comment-styled and the outgoing state is 1. With the first
`*/` at offset `e` and no `/*` from offset `e + 2` on, the one comment span is `[0, e + 2)`,
its characters are comment-styled, the characters after it keep the format the ordinary rules
gave them, and the outgoing state is 0. The lines `/* start`, `still in comment`,
`end */ code();` leave the states 1, 1, 0. -/
theorem highlightBlock_cpp_inside_comment (rules : List HighlightingRule) (text : QString)
    (fuel : Nat) (hfuel : 2 ≤ fuel) :
    ((∀ i, ¬ occursAt ['*', '/'] text i) →
      ∃ r, highlightBlock (initCppRules rules) fuel text 1 = some r ∧
        r.currentBlockState = 1 ∧ r.formats.length = text.length ∧
        ∀ i, i < text.length → r.formats[i]? = some TextFormat.multiLineCommentFormat) ∧
    (∀ e, occursAt ['*', '/'] text e → (∀ j, j < e → ¬ occursAt ['*', '/'] text j) →
        (∀ j, e + 2 ≤ j → ¬ occursAt ['/', '*'] text j) →
      ∃ r, highlightBlock (initCppRules rules) fuel text 1 = some r ∧
        r.currentBlockState = 0 ∧ r.formats.length = text.length ∧
        r.commentSpans = [(0, (e : Int) + 2)] ∧
        (∀ i, i < e + 2 → r.formats[i]? = some TextFormat.multiLineCommentFormat) ∧
        (∀ i, e + 2 ≤ i → r.formats[i]? =
          (applyRules rules text (List.replicate text.length TextFormat.plain))[i]?)) ∧
    threadStates (initCppRules rules) fuel (-1)
      ["/* start".toList, "still in comment".toList, "end */ code();".toList] = some [1, 1, 0] := by
  obtain ⟨n, rfl⟩ : ∃ n, fuel = n + 2 := ⟨fuel - 2, by omega⟩
  have hlen : (applyRules rules text (List.replicate text.length TextFormat.plain)).length
      = text.length := by
    rw [length_applyRules, List.length_replicate]
  refine ⟨?_, ?_, ?_⟩
  · intro hno
    refine ⟨_, highlightBlock_cpp_continue_open rules text n hno, rfl, ?_, ?_⟩
    · simp only [length_setFormat, hlen]
    · intro i hi
      have h := getElem?_setFormat
        (applyRules rules text (List.replicate text.length TextFormat.plain)) 0 text.length
        TextFormat.multiLineCommentFormat i
      simp only [Nat.cast_zero] at h
      rw [h, List.getElem?_eq_getElem (by omega)]
      have hc : 0 ≤ i ∧ (i : Int) < 0 + (text.length : Int) := by omega
      simp only [Option.map_some', if_pos hc]
  · intro e hat hfirst hafter
    have hle := occursAt_le _ _ _ (by simp) hat
    simp only [List.length_cons, List.length_nil] at hle
    refine ⟨_, highlightBlock_cpp_continue_close rules text n e hat hfirst hafter, rfl, ?_, rfl,
      ?_, ?_⟩
    · simp only [length_setFormat, hlen]
    · intro i hi
      have h := getElem?_setFormat
        (applyRules rules text (List.replicate text.length TextFormat.plain)) 0 ((e : Int) + 2)
        TextFormat.multiLineCommentFormat i
      simp only [Nat.cast_zero] at h
      rw [h, List.getElem?_eq_getElem (by omega)]
      have hc : 0 ≤ i ∧ (i : Int) < 0 + ((e : Int) + 2) := by omega
      simp only [Option.map_some', if_pos hc]
    · intro i hi
      have h := getElem?_setFormat
        (applyRules rules text (List.replicate text.length TextFormat.plain)) 0 ((e : Int) + 2)
        TextFormat.multiLineCommentFormat i
      simp only [Nat.cast_zero] at h
      rw [h]
      have hc : ¬ (0 ≤ i ∧ (i : Int) < 0 + ((e : Int) + 2)) := by omega
      simp only [hc, if_false, Option.map_id']
  · have h1 := highlightBlock_cpp_open rules "/* start".toList (-1) (by decide) n 0 (by decide)
      (fun j hj => by omega)
      (fun j _ => not_occursAt_of_bounded _ _ (by simp) (by decide) j)
    have h2 := highlightBlock_cpp_continue_open rules "still in comment".toList n
      (not_occursAt_of_bounded _ _ (by simp) (by decide))
    have h3 := highlightBlock_cpp_continue_close rules "end */ code();".toList n 4 (by decide)
      (by decide) (fun j _ => not_occursAt_of_bounded _ _ (by simp) (by decide) j)
    simp only [threadStates, h1, h2, h3]

theorem highlightBlock_cpp_inside_comment_witness :
    (∃ r, highlightBlock (initCppRules []) 2 "end */ code();".toList 1 = some r ∧
        r.currentBlockState = 0 ∧ r.formats.length = 14 ∧
        r.commentSpans = [(0, 6)] ∧
        (∀ i, i < 4 + 2 → r.formats[i]? = some TextFormat.multiLineCommentFormat) ∧
        (∀ i, 4 + 2 ≤ i → r.formats[i]? =
          (applyRules [] "end */ code();".toList (List.replicate 14 TextFormat.plain))[i]?)) ∧
      (∃ r, highlightBlock (initCppRules []) 2 "still in comment".toList 1 = some r ∧
        r.currentBlockState = 1 ∧ r.formats.length = 16 ∧
        ∀ i, i < 16 → r.formats[i]? = some TextFormat.multiLineCommentFormat) :=
  ⟨(highlightBlock_cpp_inside_comment [] "end */ code();".toList 2 (Nat.le_refl 2)).2.1 4
      (by decide) (by decide)
      (fun j _ => not_occursAt_of_bounded _ _ (by simp) (by decide) j),
   (highlightBlock_cpp_inside_comment [] "still in comment".toList 2 (Nat.le_refl 2)).1
      (not_occursAt_of_bounded _ _ (by simp) (by decide))⟩

/-! ## The Return key after an opening brace -/

/-- C5: on the line of two spaces followed by `if (x) {`, with the cursor at its end, Return
leaves the three lines `  if (x) {`, two spaces and a tab, and four spaces and `}`, with the
cursor at the end of the second: the line of the closing brace holds every whitespace character
of the line left, not only its leading two spaces. -/
theorem keyPressEventReturn_brace_all_spaces :
    (keyPressEventReturn (editorAt "  if (x) \x7b".toList 10)).document
        = "  if (x) \x7b\n  \t\n    \x7d".toList ∧
      (keyPressEventReturn (editorAt "  if (x) \x7b".toList 10)).position = 14 ∧
      (keyPressEventReturn (editorAt "  if (x) \x7b".toList 10)).document
        ≠ "  if (x) \x7b\n  \t\n  \x7d".toList := by
  decide

/-! ## The cursor word -/

/-- C8: `getWordOfCursor` returns the empty string whenever the character after the cursor is a
letter, a digit or a space, or the character before the cursor is a space; so it does for
`foo.bar` with the cursor between `b` and `a`. -/
theorem getWordOfCursor_blocked (T : QCharTables) :
    (∀ (doc : QString) (position : Nat),
      (T.isLetter (characterAt doc (position : Int)) = true ∨
        T.isDigit (characterAt doc (position : Int)) = true ∨
        characterAt doc (position : Int) = ' ' ∨
        characterAt doc ((position : Int) - 1) = ' ') →
      getWordOfCursor T doc position = []) ∧
    getWordOfCursor T "foo.bar".toList 5 = [] := by
  have general : ∀ (doc : QString) (position : Nat),
      (T.isLetter (characterAt doc (position : Int)) = true ∨
        T.isDigit (characterAt doc (position : Int)) = true ∨
        characterAt doc (position : Int) = ' ' ∨
        characterAt doc ((position : Int) - 1) = ' ') →
      getWordOfCursor T doc position = [] := by
    intro doc position h
    simp only [getWordOfCursor, sub_add_cancel]
    rcases h with h | h | h | h
    · simp [h]
    · simp [h]
    · simp [h]
    · split
      · rfl
      · simp [h]
  refine ⟨general, general _ 5 (Or.inl ?_)⟩
  have hch : characterAt "foo.bar".toList ((5 : Nat) : Int) = 'a' := by decide
  rw [hch, T.isLetter_ascii 'a' (by decide)]
  decide

theorem getWordOfCursor_blocked_witness :
    characterAt "int ;".toList (((4 : Nat) : Int) - 1) = ' ' ∧
      getWordOfCursor asciiTables "int ;".toList 4 = [] :=
  ⟨by decide,
   (getWordOfCursor_blocked asciiTables).1 "int ;".toList 4 (Or.inr (Or.inr (Or.inr (by decide))))⟩

/-! ## Language detection by extension -/

theorem toLower_of_lower (T : QCharTables) (s : QString)
    (h : ∀ c ∈ s, c.toNat < 128 ∧ c.toLower = c) : toLower T s = s := by
  induction s with
  | nil => rfl
  | cons c s ih =>
    have hc := h c (List.mem_cons_self _ _)
    have hs : toLower T s = s := ih (fun d hd => h d (List.mem_cons_of_mem _ hd))
    unfold toLower at hs ⊢
    rw [List.map_cons, hs, T.toLower_ascii c hc.1, hc.2]

/-- C10: a file name whose suffix is `cpp`, `c`, `h`, `cxx` or `hpp` gives Cpp, suffix `py`
gives Python and suffix `json` gives JSON, for every content; `x.py` is Python whatever the
content. -/
theorem detectLanguage_by_extension (T : QCharTables) (fileName content : QString) :
    ((QFileInfo.suffix fileName = "cpp".toList ∨ QFileInfo.suffix fileName = "c".toList ∨
        QFileInfo.suffix fileName = "h".toList ∨ QFileInfo.suffix fileName = "cxx".toList ∨
        QFileInfo.suffix fileName = "hpp".toList) →
      detectLanguage T fileName content = LanguageType.Cpp) ∧
    (QFileInfo.suffix fileName = "py".toList →
      detectLanguage T fileName content = LanguageType.Python) ∧
    (QFileInfo.suffix fileName = "json".toList →
      detectLanguage T fileName content = LanguageType.JSON) ∧
    detectLanguage T "x.py".toList content = LanguageType.Python := by
  have key : ∀ (name suffix : QString) (lang : LanguageType),
      QFileInfo.suffix name = suffix → suffix ≠ [] →
      (∀ c ∈ suffix, c.toNat < 128 ∧ c.toLower = c) →
      ((if suffix = "cpp".toList ∨ suffix = "c".toList ∨ suffix = "h".toList ∨
          suffix = "cxx".toList ∨ suffix = "hpp".toList then some LanguageType.Cpp
        else if suffix = "py".toList then some LanguageType.Python
        else if suffix = "json".toList then some LanguageType.JSON
        else none) = some lang) →
      detectLanguage T name content = lang := by
    intro name suffix lang hsuf hne hlow hlang
    have hname : name.isEmpty = false := by
      cases name with
      | nil => exact absurd hsuf.symm hne
      | cons c t => rfl
    simp only [detectLanguage, hname, Bool.not_false, if_true, hsuf, toLower_of_lower T suffix hlow,
      hlang]
  refine ⟨?_, ?_, ?_, ?_⟩
  · intro h
    rcases h with h | h | h | h | h <;>
      exact key fileName _ _ h (by decide) (by decide) (by decide)
  · intro h
    exact key fileName _ _ h (by decide) (by decide) (by decide)
  · intro h
    exact key fileName _ _ h (by decide) (by decide) (by decide)
  · exact key "x.py".toList "py".toList _ (by decide) (by decide) (by decide) (by decide)

theorem detectLanguage_by_extension_witness :
    detectLanguage asciiTables "src/main.cpp".toList "def f(): pass".toList = LanguageType.Cpp ∧
      detectLanguage asciiTables "data.json".toList "#include <x>;".toList = LanguageType.JSON :=
  ⟨(detectLanguage_by_extension asciiTables "src/main.cpp".toList "def f(): pass".toList).1
      (Or.inl (by decide)),
   (detectLanguage_by_extension asciiTables "data.json".toList "#include <x>;".toList).2.2.1
      (by decide)⟩

/-! ## The backward scan of `getWordOfCursor` -/

theorem isWordChar_iff (T : QCharTables) (c : Char) :
    isWordChar T c = true ↔
      (T.isLetter c = true ∨ T.isDigit c = true ∨ c = '_' ∨ c = '#') := by
  simp only [isWordChar, Bool.or_eq_true, beq_iff_eq]
  tauto

theorem isWordChar_separator (T : QCharTables) :
    isWordChar T QChar.paragraphSeparator = false := by
  simp only [isWordChar, T.isLetter_separator, T.isDigit_separator, Bool.false_or]
  decide

theorem isWordChar_newline (T : QCharTables) : isWordChar T '\n' = false := by
  simp only [isWordChar, T.isLetter_ascii '\n' (by decide), T.isDigit_ascii '\n' (by decide)]
  decide

theorem wordLoop_spec (T : QCharTables) (doc : QString) :
    ∀ n, n ≤ doc.length → ∀ words : List Char, ∃ run rest : List Char,
      wordLoop T doc n words = words ++ run.reverse ∧ doc.take n = rest ++ run ∧
      (∀ c ∈ run, isWordChar T c = true) ∧
      (∀ rest1 c, rest = rest1 ++ [c] → isWordChar T c = false) := by
  intro n
  induction n with
  | zero =>
    intro _ words
    exact ⟨[], [], by simp [wordLoop], by simp, by simp, by simp⟩
  | succ n ih =>
    intro hn words
    have hlt : n < doc.length := by omega
    have htake : doc.take (n + 1) = doc.take n ++ [doc.get ⟨n, hlt⟩] := by
      rw [List.take_succ, List.getElem?_eq_getElem hlt]; rfl
    have hch := characterAt_lt doc n hlt
    by_cases hw : isWordChar T (characterAt doc (n : Int)) = true
    · have heq : characterAt doc (n : Int) = doc.get ⟨n, hlt⟩ := by
        by_cases hnl : doc.get ⟨n, hlt⟩ = '\n'
        · rw [hch, if_pos hnl] at hw
          rw [isWordChar_separator] at hw
          exact absurd hw (by decide)
        · rw [hch, if_neg hnl]
      obtain ⟨run, rest, hloop, hsplit, hrun, hrest⟩ :=
        ih (by omega) (words ++ [characterAt doc (n : Int)])
      refine ⟨run ++ [doc.get ⟨n, hlt⟩], rest, ?_, ?_, ?_, hrest⟩
      · have hstep : wordLoop T doc (n + 1) words =
            wordLoop T doc n (words ++ [characterAt doc (n : Int)]) := by
          simp only [wordLoop, hw, if_true]
        rw [hstep, hloop, heq]
        simp
      · rw [htake, hsplit, List.append_assoc]
      · intro c hc
        rcases List.mem_append.mp hc with h | h
        · exact hrun c h
        · rw [List.mem_singleton] at h
          rw [h, ← heq]; exact hw
    · have hw2 : isWordChar T (characterAt doc (n : Int)) = false := by
        simpa using hw
      refine ⟨[], doc.take n ++ [doc.get ⟨n, hlt⟩], ?_, ?_, by simp, ?_⟩
      · simp [wordLoop, hw2]
      · rw [htake, List.append_nil]
      · intro rest1 c hc
        have hlast := (List.append_inj' hc rfl).2
        have hc2 : c = doc.get ⟨n, hlt⟩ := by simpa using hlast.symm
        by_cases hnl : doc.get ⟨n, hlt⟩ = '\n'
        · rw [hc2, hnl]; exact isWordChar_newline T
        · rw [hch, if_neg hnl] at hw2
          rw [hc2]; exact hw2

/-- C9: when the character after the cursor is no letter, digit or space and the character
before it is no space, `getWordOfCursor` returns the longest run of letters, digits, `_` and
`#` that ends at the cursor: a suffix of the text before the cursor, made of such characters
only, and preceded (if at all) by a character that is none of them; at the start of the buffer
it is empty. -/
theorem getWordOfCursor_longest_run (T : QCharTables) (doc : QString) (position : Nat)
    (hpos : position ≤ doc.length)
    (hafter : T.isLetter (characterAt doc (position : Int)) = false ∧
      T.isDigit (characterAt doc (position : Int)) = false ∧
      characterAt doc (position : Int) ≠ ' ')
    (hbefore : characterAt doc ((position : Int) - 1) ≠ ' ') :
    (∃ rest, doc.take position = rest ++ getWordOfCursor T doc position) ∧
      (∀ c ∈ getWordOfCursor T doc position,
        T.isLetter c = true ∨ T.isDigit c = true ∨ c = '_' ∨ c = '#') ∧
      (∀ rest c, doc.take position = rest ++ [c] ++ getWordOfCursor T doc position →
        ¬ (T.isLetter c = true ∨ T.isDigit c = true ∨ c = '_' ∨ c = '#')) ∧
      (position = 0 → getWordOfCursor T doc position = []) := by
  obtain ⟨run, rest, hloop, hsplit, hrun, hrest⟩ := wordLoop_spec T doc position hpos []
  have hword : getWordOfCursor T doc position = run := by
    obtain ⟨h1, h2, h3⟩ := hafter
    simp [getWordOfCursor, h1, h2, h3, hbefore, hloop]
  rw [hword]
  refine ⟨⟨rest, hsplit⟩, ?_, ?_, ?_⟩
  · intro c hc
    exact (isWordChar_iff T c).mp (hrun c hc)
  · intro rest2 c hsplit2 hc
    rw [hsplit] at hsplit2
    have hr : rest = rest2 ++ [c] := List.append_cancel_right hsplit2
    have := hrest rest2 c hr
    rw [(isWordChar_iff T c).mpr hc] at this
    exact absurd this (by decide)
  · intro h0
    subst h0
    have : rest ++ run = [] := by rw [← hsplit]; rfl
    exact (List.append_eq_nil.mp this).2

theorem getWordOfCursor_longest_run_witness :
    getWordOfCursor asciiTables "foo.ba".toList 6 = "ba".toList ∧
      (∃ rest, "foo.ba".toList.take 6 = rest ++ getWordOfCursor asciiTables "foo.ba".toList 6) :=
  ⟨by decide,
   (getWordOfCursor_longest_run asciiTables "foo.ba".toList 6 (by decide)
      ⟨by decide, by decide, by decide⟩ (by decide)).1⟩

/-! ## The candidate list -/

theorem contains_iff (pat : QString) : ∀ s : QString, contains s pat = true ↔ pat <:+: s := by
  have hstart : ∀ s : QString, startsWith s pat = true ↔ pat <+: s := by
    intro s
    rw [startsWith_iff, List.prefix_iff_eq_take]
    exact eq_comm
  intro s
  induction s with
  | nil =>
    rw [contains, hstart, List.infix_nil]
    exact List.prefix_nil
  | cons c t ih =>
    rw [contains, Bool.or_eq_true, hstart, ih, List.infix_cons_iff]

theorem sortInsert_perm {α : Type} (comp : α → α → Bool) (x : α) :
    ∀ l : List α, (sortInsert comp x l).Perm (x :: l) := by
  intro l
  induction l with
  | nil => exact List.Perm.refl _
  | cons y ys ih =>
    simp only [sortInsert]
    split
    · exact (List.Perm.cons y ih).trans (List.Perm.swap x y ys)
    · exact List.Perm.refl _

theorem stdSort_perm {α : Type} (comp : α → α → Bool) :
    ∀ l : List α, (stdSort comp l).Perm l := by
  intro l
  induction l with
  | nil => exact List.Perm.refl _
  | cons x xs ih =>
    have : stdSort comp (x :: xs) = sortInsert comp x (stdSort comp xs) := rfl
    rw [this]
    exact (sortInsert_perm comp x _).trans (List.Perm.cons x ih)

theorem sortInsert_pairwise {α : Type} (key : α → Int) (x : α) :
    ∀ l : List α, l.Pairwise (fun a b => key a ≤ key b) →
      (sortInsert (fun a b => decide (key a < key b)) x l).Pairwise
        (fun a b => key a ≤ key b) := by
  intro l
  induction l with
  | nil => intro _; simp [sortInsert]
  | cons y ys ih =>
    intro h
    have hy := List.pairwise_cons.mp h
    simp only [sortInsert]
    by_cases hyx : key y < key x
    · simp only [hyx, decide_True, if_true]
      refine List.pairwise_cons.mpr ⟨?_, ih hy.2⟩
      intro z hz
      have hz2 := (sortInsert_perm _ x ys).mem_iff.mp hz
      rcases List.mem_cons.mp hz2 with hz3 | hz3
      · rw [hz3]; omega
      · exact hy.1 z hz3
    · simp only [hyx, decide_False, Bool.false_eq_true, if_false]
      refine List.pairwise_cons.mpr ⟨?_, h⟩
      intro z hz
      rcases List.mem_cons.mp hz with hz | hz
      · rw [hz]; omega
      · have := hy.1 z hz
        omega

theorem stdSort_pairwise {α : Type} (key : α → Int) :
    ∀ l : List α, (stdSort (fun a b => decide (key a < key b)) l).Pairwise
      (fun a b => key a ≤ key b) := by
  intro l
  induction l with
  | nil => exact List.Pairwise.nil
  | cons x xs ih => exact sortInsert_pairwise key x _ ih

theorem collectCandidates_spec (ldistance : QString → QString → Int) (word : QString) :
    ∀ (l : List QString) (st : Candidates),
      (∀ s ∈ st.itemList, st.distance.value s = ldistance s word) →
      (collectCandidates ldistance word l st).itemList
          = st.itemList ++ l.filter (fun e => contains e word) ∧
        ∀ s ∈ (collectCandidates ldistance word l st).itemList,
          (collectCandidates ldistance word l st).distance.value s = ldistance s word := by
  intro l
  induction l with
  | nil => intro st h; exact ⟨by simp [collectCandidates], h⟩
  | cons temp rest ih =>
    intro st h
    by_cases hc : contains temp word = true
    · simp only [collectCandidates, hc, if_true, List.filter_cons_of_pos]
      have hinv : ∀ s ∈ st.itemList ++ [temp],
          (st.distance.assign temp (ldistance temp word)).value s = ldistance s word := by
        intro s hs
        by_cases hst : temp = s
        · subst hst; simp [QMap.assign, QMap.value]
        · have hmem : s ∈ st.itemList := by
            rcases List.mem_append.mp hs with h1 | h1
            · exact h1
            · exact absurd (List.mem_singleton.mp h1).symm hst
          simp only [QMap.assign, QMap.value, hst, if_false]
          exact h s hmem
      obtain ⟨h1, h2⟩ := ih
        { itemList := st.itemList ++ [temp]
          distance := st.distance.assign temp (ldistance temp word)
          maxSize := if st.maxSize < (temp.length : Int) then (temp.length : Int)
            else st.maxSize } hinv
      refine ⟨?_, h2⟩
      rw [h1]
      simp
    · have hc2 : contains temp word = false := by simpa using hc
      simp only [collectCandidates, hc2, Bool.false_eq_true, if_false]
      obtain ⟨h1, h2⟩ := ih st h
      refine ⟨?_, h2⟩
      rw [h1, List.filter_cons_of_neg (by simp [hc2])]

/-- What `showCompleteWidget` leaves in the popup when it runs outside `Ignore` with a non-empty
cursor word: the sorted `itemList` of the scan of the vocabulary. -/
theorem showCompleteWidget_items (T : QCharTables) (ldistance : QString → QString → Int)
    (ed : CodeEditor) (hstate : ed.completeState ≠ CompleteState.Ignore)
    (hword : getWordOfCursor T ed.document ed.position ≠ []) :
    (showCompleteWidget T ldistance ed).widgetItems =
      sortedItemList (collectCandidates ldistance (getWordOfCursor T ed.document ed.position)
        ed.completeList { itemList := [], distance := [], maxSize := 0 }) := by
  have hne : (getWordOfCursor T ed.document ed.position).isEmpty = false := by
    cases h : getWordOfCursor T ed.document ed.position with
    | nil => exact absurd h hword
    | cons c t => rfl
  simp only [showCompleteWidget, if_neg hstate, hne, Bool.not_false, if_true]
  split
  · rfl
  · rename_i hlen
    have hnil : (collectCandidates ldistance (getWordOfCursor T ed.document ed.position)
        ed.completeList { itemList := [], distance := [], maxSize := 0 }).itemList = [] := by
      apply List.eq_nil_of_length_eq_zero
      omega
    simp [sortedItemList, hnil, stdSort]

/-- C6: the candidate list `showCompleteWidget` builds for a non-empty cursor word is ordered
by non-decreasing distance to the word: each candidate is at most as far from the word as the
next one, and as every later one. -/
theorem showCompleteWidget_sorted (T : QCharTables) (ldistance : QString → QString → Int)
    (ed : CodeEditor) (hstate : ed.completeState ≠ CompleteState.Ignore)
    (hword : getWordOfCursor T ed.document ed.position ≠ []) :
    List.Chain'
        (fun a b => ldistance a (getWordOfCursor T ed.document ed.position)
          ≤ ldistance b (getWordOfCursor T ed.document ed.position))
        (showCompleteWidget T ldistance ed).widgetItems ∧
      List.Pairwise
        (fun a b => ldistance a (getWordOfCursor T ed.document ed.position)
          ≤ ldistance b (getWordOfCursor T ed.document ed.position))
        (showCompleteWidget T ldistance ed).widgetItems := by
  rw [showCompleteWidget_items T ldistance ed hstate hword]
  obtain ⟨_, hdist⟩ := collectCandidates_spec ldistance
    (getWordOfCursor T ed.document ed.position) ed.completeList
    { itemList := [], distance := [], maxSize := 0 } (by simp)
  have hpair : List.Pairwise
      (fun a b => ldistance a (getWordOfCursor T ed.document ed.position)
        ≤ ldistance b (getWordOfCursor T ed.document ed.position))
      (sortedItemList (collectCandidates ldistance (getWordOfCursor T ed.document ed.position)
        ed.completeList { itemList := [], distance := [], maxSize := 0 })) := by
    refine List.Pairwise.imp_of_mem ?_ (stdSort_pairwise _ _)
    intro a b ha hb hab
    have ha2 := hdist a ((stdSort_perm _ _).mem_iff.mp ha)
    have hb2 := hdist b ((stdSort_perm _ _).mem_iff.mp hb)
    rw [← ha2, ← hb2]
    exact hab
  exact ⟨hpair.chain', hpair⟩

theorem showCompleteWidget_sorted_witness :
    (showCompleteWidget asciiTables lengthDistance (editorAt "x = in".toList 6)).widgetItems
        = ["int", "using", "inline", "#define", "continue", "#include <>",
            "#include \"\""].map String.toList ∧
      List.Chain'
        (fun a b => lengthDistance a (getWordOfCursor asciiTables "x = in".toList 6)
          ≤ lengthDistance b (getWordOfCursor asciiTables "x = in".toList 6))
        (showCompleteWidget asciiTables lengthDistance (editorAt "x = in".toList 6)).widgetItems :=
  ⟨by decide,
   (showCompleteWidget_sorted asciiTables lengthDistance (editorAt "x = in".toList 6)
      (by decide) (by decide)).1⟩

/-- C7: for a non-empty cursor word, an entry is in the candidate list built by
`showCompleteWidget` exactly when it is a vocabulary entry that contains the word as a
contiguous substring, compared character by character, and the list is a permutation of those
vocabulary entries. -/
theorem showCompleteWidget_filter (T : QCharTables) (ldistance : QString → QString → Int)
    (ed : CodeEditor) (hstate : ed.completeState ≠ CompleteState.Ignore)
    (hword : getWordOfCursor T ed.document ed.position ≠ []) :
    (∀ entry, entry ∈ (showCompleteWidget T ldistance ed).widgetItems ↔
        (entry ∈ ed.completeList ∧
          ∃ pre post, entry = pre ++ getWordOfCursor T ed.document ed.position ++ post)) ∧
      List.Perm (showCompleteWidget T ldistance ed).widgetItems
        (ed.completeList.filter
          (fun e => decide (getWordOfCursor T ed.document ed.position <:+: e))) := by
  rw [showCompleteWidget_items T ldistance ed hstate hword]
  obtain ⟨hitems, _⟩ := collectCandidates_spec ldistance
    (getWordOfCursor T ed.document ed.position) ed.completeList
    { itemList := [], distance := [], maxSize := 0 } (by simp)
  simp only [List.nil_append] at hitems
  have hfilter : ed.completeList.filter
      (fun e => contains e (getWordOfCursor T ed.document ed.position)) =
      ed.completeList.filter
        (fun e => decide (getWordOfCursor T ed.document ed.position <:+: e)) := by
    apply List.filter_congr
    intro e _
    by_cases h : getWordOfCursor T ed.document ed.position <:+: e
    · rw [(contains_iff _ e).mpr h]; simp [h]
    · have : contains e (getWordOfCursor T ed.document ed.position) = false := by
        cases hc : contains e (getWordOfCursor T ed.document ed.position) with
        | false => rfl
        | true => exact absurd ((contains_iff _ e).mp hc) h
      rw [this]; simp [h]
  have hperm : List.Perm
      (sortedItemList (collectCandidates ldistance (getWordOfCursor T ed.document ed.position)
        ed.completeList { itemList := [], distance := [], maxSize := 0 }))
      (ed.completeList.filter
        (fun e => decide (getWordOfCursor T ed.document ed.position <:+: e))) := by
    rw [← hfilter, ← hitems]
    exact stdSort_perm _ _
  refine ⟨?_, hperm⟩
  intro entry
  rw [hperm.mem_iff, List.mem_filter, decide_eq_true_iff]
  constructor
  · rintro ⟨hmem, pre, post, h⟩
    exact ⟨hmem, pre, post, h.symm⟩
  · rintro ⟨hmem, pre, post, h⟩
    exact ⟨hmem, pre, post, h.symm⟩

theorem showCompleteWidget_filter_witness :
    ("using".toList ∈
        (showCompleteWidget asciiTables lengthDistance (editorAt "x = in".toList 6)).widgetItems ↔
      ("using".toList ∈ (editorAt "x = in".toList 6).completeList ∧
        ∃ pre post, "using".toList =
          pre ++ getWordOfCursor asciiTables "x = in".toList 6 ++ post)) ∧
      getWordOfCursor asciiTables "x = in".toList 6 = "in".toList :=
  ⟨(showCompleteWidget_filter asciiTables lengthDistance (editorAt "x = in".toList 6)
      (by decide) (by decide)).1 "using".toList,
   by decide⟩

/-! ## The Return key after an opening brace, in general -/

theorem insertPlainText_at (ed : CodeEditor) (a b s : QString) (hd : ed.document = a ++ b)
    (hp : ed.position = a.length) :
    (insertPlainText ed s).document = (a ++ s) ++ b ∧
      (insertPlainText ed s).position = (a ++ s).length := by
  simp only [insertPlainText, hd, hp, List.take_left, List.drop_left, List.length_append,
    and_self]

theorem insertLeadingSpaces_at :
    ∀ (temp : QString) (ed : CodeEditor) (a b : QString), ed.document = a ++ b →
      ed.position = a.length →
      (insertLeadingSpaces temp ed).document = (a ++ temp.takeWhile QChar.isSpace) ++ b ∧
        (insertLeadingSpaces temp ed).position = (a ++ temp.takeWhile QChar.isSpace).length := by
  intro temp
  induction temp with
  | nil => intro ed a b hd hp; simp [insertLeadingSpaces, hd, hp]
  | cons c rest ih =>
    intro ed a b hd hp
    by_cases hc : QChar.isSpace c = true
    · obtain ⟨h1, h2⟩ := insertPlainText_at ed a b [c] hd hp
      obtain ⟨h3, h4⟩ := ih (insertPlainText ed [c]) (a ++ [c]) b h1 h2
      simp only [insertLeadingSpaces, hc, if_true, List.takeWhile_cons_of_pos, h3, h4,
        List.append_assoc, List.singleton_append, and_self]
    · simp [insertLeadingSpaces, hc, hd, hp]

theorem insertAllSpaces_at :
    ∀ (temp : QString) (ed : CodeEditor) (a b : QString), ed.document = a ++ b →
      ed.position = a.length →
      (insertAllSpaces temp ed).document = (a ++ temp.filter QChar.isSpace) ++ b ∧
        (insertAllSpaces temp ed).position = (a ++ temp.filter QChar.isSpace).length := by
  intro temp
  induction temp with
  | nil => intro ed a b hd hp; simp [insertAllSpaces, hd, hp]
  | cons c rest ih =>
    intro ed a b hd hp
    by_cases hc : QChar.isSpace c = true
    · obtain ⟨h1, h2⟩ := insertPlainText_at ed a b [c] hd hp
      obtain ⟨h3, h4⟩ := ih (insertPlainText ed [c]) (a ++ [c]) b h1 h2
      simp only [insertAllSpaces, hc, if_true, List.filter_cons_of_pos, h3, h4,
        List.append_assoc, List.singleton_append, and_self]
    · obtain ⟨h3, h4⟩ := ih ed a b hd hp
      simp only [insertAllSpaces, hc, Bool.false_eq_true, if_false, h3, h4,
        List.filter_cons_of_neg hc, and_self]

theorem currentBlockText_line (pre line post : QString) (hline : ∀ c ∈ line, c ≠ '\n')
    (hpre : pre = [] ∨ ∃ p, pre = p ++ ['\n']) (hpost : post = [] ∨ ∃ q, post = '\n' :: q) :
    currentBlockText (pre ++ line ++ post) (pre ++ line).length = line := by
  have hafter : (post.takeWhile (fun c => c != '\n')) = [] := by
    rcases hpost with h | ⟨q, h⟩ <;> subst h <;> simp
  have hbefore : afterLast '\n' (pre ++ line) = line := by
    unfold afterLast
    rw [List.reverse_append, List.takeWhile_append_of_pos (by
      intro c hc
      have := hline c (List.mem_reverse.mp hc)
      simpa using this)]
    rcases hpre with h | ⟨p, h⟩ <;> subst h <;> simp
  unfold currentBlockText
  rw [List.take_left, List.drop_left, hafter, hbefore, List.append_nil]

/-- What the Return branch does on a line `line` ending with an opening brace, the cursor at
its end: the line is followed by a line of its leading whitespace and a tab, then by a line of
all its whitespace characters and a closing brace; the cursor ends after the tab. -/
theorem keyPressEventReturn_after_brace (ed : CodeEditor) (pre line post : QString)
    (hd : ed.document = pre ++ line ++ post) (hp : ed.position = (pre ++ line).length)
    (hline : ∀ c ∈ line, c ≠ '\n') (hlast : line.getLast? = some '{')
    (hpre : pre = [] ∨ ∃ p, pre = p ++ ['\n']) (hpost : post = [] ∨ ∃ q, post = '\n' :: q) :
    (keyPressEventReturn ed).document =
        pre ++ line ++ ['\n'] ++ line.takeWhile QChar.isSpace ++ ['\t'] ++
          ['\n'] ++ line.filter QChar.isSpace ++ ['}'] ++ post ∧
      (keyPressEventReturn ed).position =
        (pre ++ line ++ ['\n'] ++ line.takeWhile QChar.isSpace ++ ['\t']).length := by
  have htemp : currentBlockText ed.document ed.position = line := by
    rw [hd, hp]; exact currentBlockText_line pre line post hline hpre hpost
  have hlen : ¬ (line.length ≤ 0) := by
    cases line with
    | nil => simp at hlast
    | cons c t => simp
  have hparen : ¬ ((some '{' : Option Char) = some ')' ∧
      (contains line "for(".toList ∨ contains line "while(".toList ∨
        contains line "switch(".toList ∨ contains line "if(".toList)) := by
    intro h
    exact absurd h.1 (by decide)
  obtain ⟨h1, h2⟩ := insertPlainText_at ed (pre ++ line) post ['\n'] hd hp
  obtain ⟨h3, h4⟩ := insertLeadingSpaces_at line _ _ _ h1 h2
  obtain ⟨h5, h6⟩ := insertPlainText_at _ _ _ ['\t'] h3 h4
  obtain ⟨h7, h8⟩ := insertPlainText_at _ _ _ ['\n'] h5 h6
  obtain ⟨h9, h10⟩ := insertAllSpaces_at line _ _ _ h7 h8
  obtain ⟨h11, _⟩ := insertPlainText_at _ _ _ ['}'] h9 h10
  simp only [keyPressEventReturn, htemp, hlast, if_neg hlen, if_neg hparen, if_true]
  exact ⟨h11, h6⟩

/-! ## The paired shortcuts and the arrow keys -/

/-- C18: the paired-parenthesis shortcut inserts `()` at the cursor and the paired-quote
shortcut inserts two double quotes there; the rest of the text is unchanged and the cursor ends
one past where it was, between the two characters. In an empty buffer the quote shortcut gives
the text of two double quotes with the cursor at position 1. -/
theorem keyPressEvent_pair (T : QCharTables) (fuel : Nat)
    (base : QKeyEvent → CodeEditor → CodeEditor) (ed : CodeEditor) :
    (∃ ed1, keyPressEvent T fuel base ⟨40, Qt.ShiftModifier⟩ ed = some ed1 ∧
        ed1.document = ed.document.take ed.position ++ ['(', ')'] ++ ed.document.drop ed.position ∧
        ed1.position = ed.position + 1) ∧
      (∃ ed1, keyPressEvent T fuel base ⟨34, Qt.ShiftModifier⟩ ed = some ed1 ∧
        ed1.document = ed.document.take ed.position ++ ['"', '"'] ++ ed.document.drop ed.position ∧
        ed1.position = ed.position + 1) ∧
      (∃ ed1, keyPressEvent T fuel base ⟨34, Qt.ShiftModifier⟩ (editorAt [] 0) = some ed1 ∧
        ed1.document = ['"', '"'] ∧ ed1.position = 1) := by
  refine ⟨⟨moveCursorPrevious (insertPlainText ed "()".toList), ?_, rfl, rfl⟩,
    ⟨moveCursorPrevious (insertPlainText ed "\"\"".toList), ?_, rfl, rfl⟩,
    ⟨moveCursorPrevious (insertPlainText (editorAt [] 0) "\"\"".toList), ?_, rfl, rfl⟩⟩
  · simp [keyPressEvent]
  · simp [keyPressEvent]
  · simp [keyPressEvent]

/-- C16: in a Showing state with at least one candidate and the highlighted row `r` within the
list, the Up key leaves the editor as it was but for the row, now `max (r - 1) 0`, and the Down
key but for the row, now `min (r + 1) (n - 1)`. -/
theorem keyPressEvent_up_down (T : QCharTables) (fuel : Nat)
    (base : QKeyEvent → CodeEditor → CodeEditor) (modifiers : Nat) (ed : CodeEditor)
    (hshow : ed.completeState = CompleteState.Showing) (hn : 1 ≤ ed.widgetItems.length)
    (hlo : 0 ≤ ed.currentRow) (hhi : ed.currentRow ≤ (ed.widgetItems.length : Int) - 1) :
    keyPressEvent T fuel base ⟨16777235, modifiers⟩ ed =
        some { ed with currentRow := max (ed.currentRow - 1) 0 } ∧
      keyPressEvent T fuel base ⟨16777237, modifiers⟩ ed =
        some { ed with
          currentRow := min (ed.currentRow + 1) ((ed.widgetItems.length : Int) - 1) } := by
  obtain ⟨document, position, completeList, completeState, widgetItems, widgetVisible,
    currentRow, extraSelections⟩ := ed
  simp only at hshow hn hlo hhi
  subst hshow
  constructor
  · by_cases h : 0 < currentRow
    · have hm : max (currentRow - 1) 0 = currentRow - 1 := max_eq_left (by omega)
      simp [keyPressEvent, h, hm]
    · have h0 : currentRow = 0 := by omega
      subst h0
      simp [keyPressEvent]
  · by_cases h : currentRow < (widgetItems.length : Int) - 1
    · have hm : min (currentRow + 1) ((widgetItems.length : Int) - 1) = currentRow + 1 :=
        min_eq_left (by omega)
      simp [keyPressEvent, h, hm]
    · have h0 : currentRow = (widgetItems.length : Int) - 1 := by omega
      have hm : min (currentRow + 1) ((widgetItems.length : Int) - 1) = currentRow := by
        rw [h0]; exact min_eq_right (by omega)
      simp only [hm]
      simp [keyPressEvent, h]

theorem keyPressEvent_up_down_witness :
    keyPressEvent asciiTables 0 (fun _ ed => ed) ⟨16777237, 0⟩
        { editorAt "x = in".toList 6 with
          completeState := CompleteState.Showing
          widgetItems := ["int".toList, "using".toList]
          currentRow := 0 } =
      some { editorAt "x = in".toList 6 with
          completeState := CompleteState.Showing
          widgetItems := ["int".toList, "using".toList]
          currentRow := min (0 + 1) (((["int".toList, "using".toList].length : Nat) : Int) - 1) } :=
  (keyPressEvent_up_down asciiTables 0 (fun _ ed => ed) 0
    { editorAt "x = in".toList 6 with
      completeState := CompleteState.Showing
      widgetItems := ["int".toList, "using".toList]
      currentRow := 0 } rfl (by decide) (by decide) (by decide)).2

/-! ## Backspace -/

theorem characterAt_eq_iff (doc : QString) (i : Nat) (c : Char) (h1 : c ≠ '\n')
    (h2 : c ≠ QChar.paragraphSeparator) (h3 : c ≠ QChar.null) :
    characterAt doc (i : Int) = c ↔ doc[i]? = some c := by
  by_cases hi : i < doc.length
  · rw [characterAt_lt doc i hi, List.getElem?_eq_getElem hi]
    simp only [List.get_eq_getElem, Option.some.injEq]
    by_cases hnl : doc[i] = '\n'
    · rw [if_pos hnl, hnl]
      constructor
      · intro h; exact absurd h.symm h2
      · intro h; exact absurd h.symm h1
    · rw [if_neg hnl]
  · have hge : doc.length ≤ i := by omega
    rw [List.getElem?_eq_none hge]
    constructor
    · intro h
      rcases characterAt_ge doc i hge with h4 | h4
      · rw [h4] at h; exact absurd h.symm h2
      · rw [h4] at h; exact absurd h.symm h3
    · intro h; exact absurd h (by simp)

theorem toLatin1_eq_iff (c d : Char) (hd : d.toNat ≤ 0xff) (hd0 : d.toNat ≠ 0) :
    QChar.toLatin1 c = d.toNat ↔ c = d := by
  unfold QChar.toLatin1
  constructor
  · intro h
    split at h
    · have := congrArg Char.ofNat h
      simpa using this
    · exact absurd h.symm hd0
  · intro h
    subst h
    rw [if_pos hd]

theorem deletePreviousChar_at (ed : CodeEditor) (hp : 0 < ed.position)
    (hlen : ed.position ≤ ed.document.length) :
    (deletePreviousChar ed).document =
        ed.document.take (ed.position - 1) ++ ed.document.drop ed.position ∧
      (deletePreviousChar ed).position = ed.position - 1 ∧
      (deletePreviousChar ed).document[ed.position - 1]? = ed.document[ed.position]? ∧
      (deleteChar (deletePreviousChar ed)).document =
        ed.document.take (ed.position - 1) ++ ed.document.drop (ed.position + 1) ∧
      (deleteChar (deletePreviousChar ed)).position = ed.position - 1 := by
  have hlt : (ed.document.take (ed.position - 1)).length = ed.position - 1 := by
    rw [List.length_take]; omega
  have h1 : (deletePreviousChar ed).document =
      ed.document.take (ed.position - 1) ++ ed.document.drop ed.position := by
    simp [deletePreviousChar, hp]
  have h2 : (deletePreviousChar ed).position = ed.position - 1 := by
    simp [deletePreviousChar, hp]
  refine ⟨h1, h2, ?_, ?_, ?_⟩
  · rw [h1, List.getElem?_append_right (by omega), hlt]
    simp
  · simp only [deleteChar, h1, h2]
    rw [List.take_left' hlt]
    have : ed.position - 1 + 1 = (ed.document.take (ed.position - 1)).length + 1 := by omega
    rw [this, List.drop_append, List.drop_drop]
  · simp [deleteChar, h2]

theorem backspace_closer (ed : CodeEditor) (hp : 0 < ed.position)
    (hlen : ed.position ≤ ed.document.length) (c : Char) (h1 : c ≠ '\n')
    (h2 : c ≠ QChar.paragraphSeparator) (h3 : c ≠ QChar.null) :
    (if characterAt (deletePreviousChar ed).document ((deletePreviousChar ed).position : Int) = c
        then deleteChar (deletePreviousChar ed) else deletePreviousChar ed).document =
        ed.document.take (ed.position - 1) ++
          ed.document.drop (if ed.document[ed.position]? = some c then ed.position + 1
            else ed.position) ∧
      (if characterAt (deletePreviousChar ed).document ((deletePreviousChar ed).position : Int) = c
        then deleteChar (deletePreviousChar ed) else deletePreviousChar ed).position =
        ed.position - 1 := by
  obtain ⟨hd, hpos, hget, hdd, hdp⟩ := deletePreviousChar_at ed hp hlen
  have hiff : characterAt (deletePreviousChar ed).document ((deletePreviousChar ed).position : Int)
      = c ↔ ed.document[ed.position]? = some c := by
    rw [hpos, characterAt_eq_iff _ _ c h1 h2 h3, hget]
  by_cases hc : ed.document[ed.position]? = some c
  · rw [if_pos (hiff.mpr hc), if_pos hc]
    exact ⟨hdd, hdp⟩
  · rw [if_neg (fun h => hc (hiff.mp h)), if_neg hc]
    exact ⟨hd, hpos⟩

/-- C13: with the cursor at `p > 0`, Backspace deletes the character at `p - 1`, and the
character at `p` as well exactly when the two are `(` and `)`, two double quotes, or `<` and
`>`; the rest of the text is unchanged and the cursor ends at `p - 1`. The buffer `()` with the
cursor between the parentheses becomes empty. -/
theorem keyPressEvent_backspace (T : QCharTables) (fuel : Nat)
    (base : QKeyEvent → CodeEditor → CodeEditor) (ed : CodeEditor) (hp : 0 < ed.position)
    (hlen : ed.position ≤ ed.document.length) :
    (∃ ed1, keyPressEvent T fuel base ⟨Qt.Key_Backspace, 0⟩ ed = some ed1 ∧
        ed1.document = ed.document.take (ed.position - 1) ++
          ed.document.drop (if emptyPairAt ed.document ed.position then ed.position + 1
            else ed.position) ∧
        ed1.position = ed.position - 1) ∧
      (∃ ed1, keyPressEvent T fuel base ⟨Qt.Key_Backspace, 0⟩ (editorAt ['(', ')'] 1) = some ed1 ∧
        ed1.document = [] ∧ ed1.position = 0) := by
  have hkey : ∀ e : CodeEditor, keyPressEvent T fuel base ⟨Qt.Key_Backspace, 0⟩ e =
      some (keyPressEventBackspace e) := by
    intro e
    simp [keyPressEvent, Qt.Key_Backspace, Qt.Key_Return, Qt.ShiftModifier]
  refine ⟨⟨keyPressEventBackspace ed, hkey ed, ?_⟩, ⟨keyPressEventBackspace (editorAt ['(', ')'] 1),
    hkey _, by decide, by decide⟩⟩
  have hlt : ed.position - 1 < ed.document.length := by omega
  have hcast : ((ed.position : Int) - 1) = ((ed.position - 1 : Nat) : Int) := by omega
  have hopen : ∀ o : Char, o ≠ '\n' → o ≠ QChar.paragraphSeparator → o ≠ QChar.null →
      o.toNat ≤ 0xff → o.toNat ≠ 0 →
      (QChar.toLatin1 (characterAt ed.document ((ed.position : Int) - 1)) = o.toNat ↔
        ed.document[ed.position - 1]? = some o) := by
    intro o h1 h2 h3 h4 h5
    rw [toLatin1_eq_iff _ o h4 h5, hcast, characterAt_eq_iff _ _ o h1 h2 h3]
  have hparen := hopen '(' (by decide) (by decide) (by decide) (by decide) (by decide)
  have hquote := hopen '"' (by decide) (by decide) (by decide) (by decide) (by decide)
  have hangle := hopen '<' (by decide) (by decide) (by decide) (by decide) (by decide)
  have bparen := backspace_closer ed hp hlen ')' (by decide) (by decide) (by decide)
  have bquote := backspace_closer ed hp hlen '"' (by decide) (by decide) (by decide)
  have bangle := backspace_closer ed hp hlen '>' (by decide) (by decide) (by decide)
  obtain ⟨hd, hpos, _, _, _⟩ := deletePreviousChar_at ed hp hlen
  unfold keyPressEventBackspace
  by_cases c1 : ed.document[ed.position - 1]? = some '('
  · have hpair : emptyPairAt ed.document ed.position ↔ ed.document[ed.position]? = some ')' := by
      unfold emptyPairAt
      rw [c1]
      simp
    simp only [if_pos (hparen.mpr c1)]
    rw [bparen.1, bparen.2]
    by_cases hc : ed.document[ed.position]? = some ')'
    · rw [if_pos hc, if_pos (hpair.mpr hc)]; exact ⟨rfl, rfl⟩
    · rw [if_neg hc, if_neg (fun h => hc (hpair.mp h))]; exact ⟨rfl, rfl⟩
  · by_cases c2 : ed.document[ed.position - 1]? = some '"'
    · have hpair : emptyPairAt ed.document ed.position ↔ ed.document[ed.position]? = some '"' := by
        unfold emptyPairAt
        rw [c2]
        simp
      simp only [if_neg (fun h => c1 (hparen.mp h)), if_pos (hquote.mpr c2)]
      rw [bquote.1, bquote.2]
      by_cases hc : ed.document[ed.position]? = some '"'
      · rw [if_pos hc, if_pos (hpair.mpr hc)]; exact ⟨rfl, rfl⟩
      · rw [if_neg hc, if_neg (fun h => hc (hpair.mp h))]; exact ⟨rfl, rfl⟩
    · by_cases c3 : ed.document[ed.position - 1]? = some '<'
      · have hpair : emptyPairAt ed.document ed.position ↔
            ed.document[ed.position]? = some '>' := by
          unfold emptyPairAt
          rw [c3]
          simp
        simp only [if_neg (fun h => c1 (hparen.mp h)), if_neg (fun h => c2 (hquote.mp h)),
          if_pos (hangle.mpr c3)]
        rw [bangle.1, bangle.2]
        by_cases hc : ed.document[ed.position]? = some '>'
        · rw [if_pos hc, if_pos (hpair.mpr hc)]; exact ⟨rfl, rfl⟩
        · rw [if_neg hc, if_neg (fun h => hc (hpair.mp h))]; exact ⟨rfl, rfl⟩
      · have hpair : ¬ emptyPairAt ed.document ed.position := by
          unfold emptyPairAt
          simp [c1, c2, c3]
        simp only [if_neg (fun h => c1 (hparen.mp h)), if_neg (fun h => c2 (hquote.mp h)),
          if_neg (fun h => c3 (hangle.mp h)), if_neg hpair]
        exact ⟨hd, hpos⟩

theorem keyPressEvent_backspace_witness :
    ∃ ed1, keyPressEvent asciiTables 0 (fun _ ed => ed) ⟨Qt.Key_Backspace, 0⟩
        (editorAt "f(<>)".toList 3) = some ed1 ∧
      ed1.document = "f(<>)".toList.take (3 - 1) ++
        "f(<>)".toList.drop (if emptyPairAt "f(<>)".toList 3 then 3 + 1 else 3) ∧
      ed1.position = 3 - 1 :=
  (keyPressEvent_backspace asciiTables 0 (fun _ ed => ed) (editorAt "f(<>)".toList 3)
    (by decide) (by decide)).1

/-! ## The Return key on a line without an opening brace at its end -/

/-- C19: on a line that does not end with an opening brace, the cursor at its end and the
completion list not showing, Return inserts at the cursor a line break, then the leading
whitespace of the line, then one tab exactly when the line ends with `)` and contains one of
`for(`, `while(`, `switch(`, `if(`; nothing else changes and the cursor ends after the inserted
text. For an empty line the inserted text is the line break alone. -/
theorem keyPressEvent_return_indent (T : QCharTables) (fuel : Nat)
    (base : QKeyEvent → CodeEditor → CodeEditor) (ed : CodeEditor) (pre line post : QString)
    (hd : ed.document = pre ++ line ++ post) (hp : ed.position = (pre ++ line).length)
    (hline : ∀ c ∈ line, c ≠ '\n') (hlast : line.getLast? ≠ some '{')
    (hpre : pre = [] ∨ ∃ p, pre = p ++ ['\n']) (hpost : post = [] ∨ ∃ q, post = '\n' :: q)
    (hstate : ed.completeState ≠ CompleteState.Showing) :
    ∃ ed1, keyPressEvent T fuel base ⟨Qt.Key_Return, 0⟩ ed = some ed1 ∧
      ed1.document = pre ++ line ++
        (['\n'] ++ line.takeWhile QChar.isSpace ++ (if extraIndent line then ['\t'] else [])) ++
        post ∧
      ed1.position = (pre ++ line ++
        (['\n'] ++ line.takeWhile QChar.isSpace ++
          (if extraIndent line then ['\t'] else []))).length ∧
      (line = [] → ed1.document = pre ++ ['\n'] ++ post) := by
  have hkey : keyPressEvent T fuel base ⟨Qt.Key_Return, 0⟩ ed = some (keyPressEventReturn ed) := by
    simp [keyPressEvent, Qt.Key_Return, Qt.ShiftModifier, hstate]
  refine ⟨keyPressEventReturn ed, hkey, ?_⟩
  have htemp : currentBlockText ed.document ed.position = line := by
    rw [hd, hp]; exact currentBlockText_line pre line post hline hpre hpost
  obtain ⟨h1, h2⟩ := insertPlainText_at ed (pre ++ line) post ['\n'] hd hp
  have hcond : (line.getLast? = some ')' ∧
      (contains line "for(".toList ∨ contains line "while(".toList ∨
        contains line "switch(".toList ∨ contains line "if(".toList)) ↔ extraIndent line := by
    unfold extraIndent
    rw [contains_iff, contains_iff, contains_iff, contains_iff]
  cases hl : line with
  | nil =>
    subst hl
    have hno : ¬ extraIndent [] := by decide
    simp only [keyPressEventReturn, htemp, List.length_nil, Nat.le_refl, if_true, h1, h2,
      List.takeWhile_nil, if_neg hno, List.append_nil]
    exact ⟨trivial, trivial, fun _ => trivial⟩
  | cons c t =>
    rw [← hl]
    have hlen : ¬ (line.length ≤ 0) := by rw [hl]; simp
    have hne : line ≠ [] := by rw [hl]; simp
    obtain ⟨h3, h4⟩ := insertLeadingSpaces_at line _ _ _ h1 h2
    by_cases hx : extraIndent line
    · obtain ⟨h5, h6⟩ := insertPlainText_at _ _ _ ['\t'] h3 h4
      simp only [keyPressEventReturn, htemp, if_neg hlen, if_pos (hcond.mpr hx), if_neg hlast,
        if_pos hx, h5, h6]
      refine ⟨by simp, by simp, fun h => absurd h hne⟩
    · simp only [keyPressEventReturn, htemp, if_neg hlen, if_neg (fun h => hx (hcond.mp h)),
        if_neg hlast, if_neg hx, h3, h4]
      refine ⟨by simp, by simp, fun h => absurd h hne⟩

theorem keyPressEvent_return_indent_witness :
    ∃ ed1, keyPressEvent asciiTables 0 (fun _ ed => ed) ⟨Qt.Key_Return, 0⟩
        (editorAt "a;\n  if(x)\nb".toList 10) = some ed1 ∧
      ed1.document = "a;\n  if(x)\n  \t\nb".toList ∧ ed1.position = 14 := by
  obtain ⟨ed1, h1, h2, h3, _⟩ :=
    keyPressEvent_return_indent asciiTables 0 (fun _ ed => ed)
      (editorAt "a;\n  if(x)\nb".toList 10) "a;\n".toList "  if(x)".toList "\nb".toList
      (by decide) (by decide) (by decide) (by decide) (Or.inr ⟨"a;".toList, by decide⟩)
      (Or.inr ⟨"b".toList, by decide⟩) (by decide)
  refine ⟨ed1, h1, ?_, ?_⟩
  · rw [h2]; decide
  · rw [h3]; decide

/-! ## Accepting a candidate -/

theorem wordLoop_length (T : QCharTables) (doc : QString) :
    ∀ (n : Nat) (words : List Char),
      words.length ≤ (wordLoop T doc n words).length ∧
        (wordLoop T doc n words).length ≤ words.length + n := by
  intro n
  induction n with
  | zero => intro words; simp [wordLoop]
  | succ n ih =>
    intro words
    by_cases hw : isWordChar T (characterAt doc (n : Int)) = true
    · have h := ih (words ++ [characterAt doc (n : Int)])
      simp only [wordLoop, hw, if_true]
      simp only [List.length_append, List.length_singleton] at h
      omega
    · simp only [wordLoop, hw, Bool.false_eq_true, if_false]
      omega

theorem getWordOfCursor_length_le (T : QCharTables) (doc : QString) (position : Nat) :
    (getWordOfCursor T doc position).length ≤ position := by
  unfold getWordOfCursor
  simp only
  split
  · simp
  · split
    · simp
    · have := (wordLoop_length T doc position []).2
      simpa using this

theorem deleteWord_at :
    ∀ (n : Nat) (ed : CodeEditor) (a b : QString), ed.document = a ++ b →
      ed.position = a.length → n ≤ a.length →
      (deleteWord n ed).document = a.take (a.length - n) ++ b ∧
        (deleteWord n ed).position = a.length - n ∧
        (deleteWord n ed).completeState = ed.completeState := by
  intro n
  induction n with
  | zero => intro ed a b hd hp _; simp [deleteWord, hd, hp]
  | succ n ih =>
    intro ed a b hd hp hn
    have hpos : 0 < ed.position := by omega
    have hform : deletePreviousChar ed =
        { ed with
          document := ed.document.take (ed.position - 1) ++ ed.document.drop ed.position
          position := ed.position - 1 } := by
      unfold deletePreviousChar
      rw [if_pos hpos]
    have hd1 : (deletePreviousChar ed).document = a.take (a.length - 1) ++ b := by
      rw [hform]
      simp only [hd, hp, List.drop_left]
      rw [List.take_append_of_le_length (by omega)]
    have hp1 : (deletePreviousChar ed).position = (a.take (a.length - 1)).length := by
      rw [hform]
      simp only [hp, List.length_take]
      omega
    have hs1 : (deletePreviousChar ed).completeState = ed.completeState := by
      rw [hform]
    obtain ⟨h1, h2, h3⟩ := ih (deletePreviousChar ed) (a.take (a.length - 1)) b hd1 hp1
      (by rw [List.length_take]; omega)
    simp only [deleteWord]
    refine ⟨?_, ?_, ?_⟩
    · rw [h1, List.take_take, List.length_take]
      congr 2
      omega
    · rw [h2, List.length_take]; omega
    · rw [h3, hs1]

/-- C14: in a Showing state with highlighted candidate `c`, cursor at `p` and cursor word `w`,
Return replaces the `|w|` characters before the cursor by `c`, leaves the text before
`p - |w|` and after `p` as it was, ends in state `Hide` with the popup hidden, and leaves the
cursor right after the inserted text, or one character before its end when `c` contains
`#include`. -/
theorem keyPressEvent_accept (T : QCharTables) (fuel : Nat)
    (base : QKeyEvent → CodeEditor → CodeEditor) (ed : CodeEditor) (c : QString)
    (hshow : ed.completeState = CompleteState.Showing) (hrow : 0 ≤ ed.currentRow)
    (hc : ed.widgetItems[ed.currentRow.toNat]? = some c)
    (hpos : ed.position ≤ ed.document.length) :
    ∃ ed1, keyPressEvent T fuel base ⟨Qt.Key_Return, 0⟩ ed = some ed1 ∧
      ed1.document =
        ed.document.take (ed.position - (getWordOfCursor T ed.document ed.position).length)
          ++ c ++ ed.document.drop ed.position ∧
      ed1.completeState = CompleteState.Hide ∧ ed1.widgetVisible = false ∧
      ed1.position =
        ed.position - (getWordOfCursor T ed.document ed.position).length + c.length
          - (if "#include".toList <:+: c then 1 else 0) ∧
      (getWordOfCursor T ed.document ed.position).length ≤ ed.position := by
  have hwlen := getWordOfCursor_length_le T ed.document ed.position
  have hrow2 : ¬ (ed.currentRow < 0) := by omega
  have hget : ed.widgetItems.get? ed.currentRow.toNat = some c := by
    rw [List.get?_eq_getElem?]; exact hc
  have htake : (ed.document.take ed.position).length = ed.position := by
    rw [List.length_take]; omega
  obtain ⟨h1, h2, h3⟩ := deleteWord_at (getWordOfCursor T ed.document ed.position).length
    { ed with completeState := CompleteState.Ignore }
    (ed.document.take ed.position) (ed.document.drop ed.position)
    (by simp) (by simp [htake]) (by rw [htake]; exact hwlen)
  rw [htake, List.take_take] at h1
  rw [htake] at h2
  have hmin : min (ed.position - (getWordOfCursor T ed.document ed.position).length) ed.position
      = ed.position - (getWordOfCursor T ed.document ed.position).length := by omega
  rw [hmin] at h1
  have hlen2 : (ed.document.take
      (ed.position - (getWordOfCursor T ed.document ed.position).length)).length =
      ed.position - (getWordOfCursor T ed.document ed.position).length := by
    rw [List.length_take]; omega
  obtain ⟨h4, h5⟩ := insertPlainText_at _ _ _ c h1 (by rw [h2, hlen2])
  have hkey : keyPressEvent T fuel base ⟨Qt.Key_Return, 0⟩ ed = keyPressEventAccept T ed := by
    simp [keyPressEvent, Qt.Key_Return, Qt.ShiftModifier, hshow]
  rw [hkey]
  simp only [keyPressEventAccept, if_neg hrow2, hget]
  by_cases hinc : "#include".toList <:+: c
  · have hcont : contains c "#include".toList = true := (contains_iff _ _).mpr hinc
    refine ⟨_, rfl, ?_, rfl, rfl, ?_, hwlen⟩
    · simp only [hcont, if_true, moveCursorPrevious]
      exact h4
    · simp only [hcont, if_true, moveCursorPrevious, if_pos hinc, h5, List.length_append, hlen2]
  · have hcont : contains c "#include".toList = false := by
      cases hx : contains c "#include".toList with
      | false => rfl
      | true => exact absurd ((contains_iff _ _).mp hx) hinc
    refine ⟨_, rfl, ?_, rfl, rfl, ?_, hwlen⟩
    · simp only [hcont, Bool.false_eq_true, if_false]
      exact h4
    · simp only [hcont, Bool.false_eq_true, if_false, if_neg hinc, h5, List.length_append, hlen2]
      omega

theorem keyPressEvent_accept_witness :
    ∃ ed1, keyPressEvent asciiTables 0 (fun _ ed => ed) ⟨Qt.Key_Return, 0⟩
        { editorAt "x = in".toList 6 with
          completeState := CompleteState.Showing
          widgetItems := ["int".toList, "#include <>".toList]
          currentRow := 1 } = some ed1 ∧
      ed1.document = "x = #include <>".toList ∧ ed1.completeState = CompleteState.Hide ∧
      ed1.position = 14 := by
  obtain ⟨ed1, h1, h2, h3, _, h5, _⟩ :=
    keyPressEvent_accept asciiTables 0 (fun _ ed => ed)
      { editorAt "x = in".toList 6 with
        completeState := CompleteState.Showing
        widgetItems := ["int".toList, "#include <>".toList]
        currentRow := 1 } "#include <>".toList rfl (by decide) (by decide) (by decide)
  refine ⟨ed1, h1, ?_, h3, ?_⟩
  · rw [h2]; decide
  · rw [h5]; decide

/-! ## The state after `showCompleteWidget` -/

theorem collectCandidates_pos_iff (ldistance : QString → QString → Int) (word : QString)
    (completeList : List QString) :
    0 < (collectCandidates ldistance word completeList
        { itemList := [], distance := [], maxSize := 0 }).itemList.length ↔
      ∃ e ∈ completeList, word <:+: e := by
  obtain ⟨hitems, _⟩ := collectCandidates_spec ldistance word completeList
    { itemList := [], distance := [], maxSize := 0 } (by simp)
  rw [hitems, List.nil_append, List.length_pos, ne_eq, List.filter_eq_nil_iff]
  constructor
  · intro h
    by_contra hno
    apply h
    intro e he hc
    exact hno ⟨e, he, (contains_iff word e).mp hc⟩
  · rintro ⟨e, he, hin⟩ h
    exact h e he ((contains_iff word e).mpr hin)

/-- C15: run in a state other than `Ignore`, `showCompleteWidget` ends in `Showing` exactly when
the cursor word is non-empty and some vocabulary entry contains it, and then the popup is shown
with a non-empty list; otherwise it ends in `Hide` with an empty candidate list and the popup
hidden. Run in state `Ignore` it changes nothing. -/
theorem showCompleteWidget_state (T : QCharTables) (ldistance : QString → QString → Int)
    (ed : CodeEditor) :
    (ed.completeState ≠ CompleteState.Ignore →
      (((showCompleteWidget T ldistance ed).completeState = CompleteState.Showing ↔
          (getWordOfCursor T ed.document ed.position ≠ [] ∧
            ∃ e ∈ ed.completeList, getWordOfCursor T ed.document ed.position <:+: e)) ∧
        ((showCompleteWidget T ldistance ed).completeState = CompleteState.Showing →
          (showCompleteWidget T ldistance ed).widgetVisible = true ∧
            (showCompleteWidget T ldistance ed).widgetItems ≠ []) ∧
        ((showCompleteWidget T ldistance ed).completeState ≠ CompleteState.Showing →
          (showCompleteWidget T ldistance ed).completeState = CompleteState.Hide ∧
            (showCompleteWidget T ldistance ed).widgetItems = [] ∧
            (showCompleteWidget T ldistance ed).widgetVisible = false))) ∧
      (ed.completeState = CompleteState.Ignore → showCompleteWidget T ldistance ed = ed) := by
  constructor
  · intro hstate
    have hpos := collectCandidates_pos_iff ldistance
      (getWordOfCursor T ed.document ed.position) ed.completeList
    by_cases hw : getWordOfCursor T ed.document ed.position = []
    · have hres : showCompleteWidget T ldistance ed =
          { ed with
            widgetVisible := false, completeState := CompleteState.Hide
            widgetItems := [], currentRow := -1 } := by
        simp [showCompleteWidget, hstate, hw]
      rw [hres]
      simp [hw]
    · have hne : (getWordOfCursor T ed.document ed.position).isEmpty = false := by
        cases h : getWordOfCursor T ed.document ed.position with
        | nil => exact absurd h hw
        | cons c t => rfl
      by_cases hex : ∃ e ∈ ed.completeList, getWordOfCursor T ed.document ed.position <:+: e
      · have hlen := hpos.mpr hex
        have hres : showCompleteWidget T ldistance ed =
            { ed with
              widgetVisible := true, completeState := CompleteState.Showing
              widgetItems := sortedItemList (collectCandidates ldistance
                (getWordOfCursor T ed.document ed.position) ed.completeList
                { itemList := [], distance := [], maxSize := 0 })
              currentRow := 0 } := by
          simp only [showCompleteWidget, if_neg hstate, hne, Bool.not_false, if_true, hlen]
        have hitems : sortedItemList (collectCandidates ldistance
            (getWordOfCursor T ed.document ed.position) ed.completeList
            { itemList := [], distance := [], maxSize := 0 }) ≠ [] := by
          intro h
          unfold sortedItemList at h
          have hl := (stdSort_perm
            (fun s1 s2 => decide ((collectCandidates ldistance
              (getWordOfCursor T ed.document ed.position) ed.completeList
              { itemList := [], distance := [], maxSize := 0 }).distance.value s1 <
              (collectCandidates ldistance
              (getWordOfCursor T ed.document ed.position) ed.completeList
              { itemList := [], distance := [], maxSize := 0 }).distance.value s2))
            (collectCandidates ldistance
              (getWordOfCursor T ed.document ed.position) ed.completeList
              { itemList := [], distance := [], maxSize := 0 }).itemList).length_eq
          rw [h] at hl
          simp only [List.length_nil] at hl
          omega
        rw [hres]
        simp only [ne_eq, hw, not_false_eq_true, hex, and_self, true_iff, forall_const,
          not_true_eq_false, false_implies, and_true, true_and]
        exact hitems
      · have hlen : ¬ (0 < (collectCandidates ldistance
            (getWordOfCursor T ed.document ed.position) ed.completeList
            { itemList := [], distance := [], maxSize := 0 }).itemList.length) :=
          fun h => hex (hpos.mp h)
        have hres : showCompleteWidget T ldistance ed =
            { ed with
              widgetVisible := false, completeState := CompleteState.Hide
              widgetItems := [], currentRow := -1 } := by
          simp only [showCompleteWidget, if_neg hstate, hne, Bool.not_false, if_true, if_neg hlen]
        rw [hres]
        simp [hex]
  · intro hstate
    simp [showCompleteWidget, hstate]

theorem showCompleteWidget_state_witness :
    (showCompleteWidget asciiTables lengthDistance (editorAt "x = in".toList 6)).completeState
        = CompleteState.Showing ∧
      showCompleteWidget asciiTables lengthDistance
          { editorAt "x = in".toList 6 with completeState := CompleteState.Ignore } =
        { editorAt "x = in".toList 6 with completeState := CompleteState.Ignore } :=
  ⟨((showCompleteWidget_state asciiTables lengthDistance (editorAt "x = in".toList 6)).1
      (by decide)).1.mpr ⟨by decide, "int".toList, by decide, by decide⟩,
   (showCompleteWidget_state asciiTables lengthDistance
      { editorAt "x = in".toList 6 with completeState := CompleteState.Ignore }).2 rfl⟩

/-! ## The anchor of the popup -/

theorem anchorLoop_spec (T : QCharTables) (doc : QString) :
    ∀ (n : Nat) (words : List Char),
      anchorLoop T doc n + 1 =
        max (n + 1 - ((wordLoop T doc (n + 1) words).length - words.length)) 1 := by
  intro n
  induction n with
  | zero =>
    intro words
    by_cases hw : isWordChar T (characterAt doc ((0 : Nat) : Int)) = true
    · simp [anchorLoop, wordLoop, hw]
    · simp [anchorLoop, wordLoop, hw]
  | succ m ih =>
    intro words
    by_cases hw : isWordChar T (characterAt doc ((m + 1 : Nat) : Int)) = true
    · have hstep : wordLoop T doc (m + 1 + 1) words =
          wordLoop T doc (m + 1) (words ++ [characterAt doc ((m + 1 : Nat) : Int)]) := by
        simp only [wordLoop, hw, if_true]
      have hb := wordLoop_length T doc (m + 1) (words ++ [characterAt doc ((m + 1 : Nat) : Int)])
      have h := ih (words ++ [characterAt doc ((m + 1 : Nat) : Int)])
      simp only [List.length_append, List.length_singleton] at hb h
      rw [hstep]
      simp only [anchorLoop, hw, if_true]
      omega
    · have hstep : wordLoop T doc (m + 1 + 1) words = words := by
        simp only [wordLoop, hw, Bool.false_eq_true, if_false]
      rw [hstep]
      simp only [anchorLoop, hw, Bool.false_eq_true, if_false]
      omega

/-- Where `getCompleteWidgetX` reads the anchor for a non-empty cursor word `w` at cursor `p`:
at `p - |w|`, the first character of the word, unless the word starts the document, where it
reads at position 1; the cursor is back at `p` afterwards. -/
theorem getCompleteWidgetX_anchor (T : QCharTables) (ed : CodeEditor)
    (hw : getWordOfCursor T ed.document ed.position ≠ []) :
    (getCompleteWidgetX T ed).1 =
        max (ed.position - (getWordOfCursor T ed.document ed.position).length) 1 ∧
      (getCompleteWidgetX T ed).2.position = ed.position := by
  have hlen := getWordOfCursor_length_le T ed.document ed.position
  have hpos : 0 < (getWordOfCursor T ed.document ed.position).length := List.length_pos.mpr hw
  have hp : ed.position ≠ 0 := by omega
  have hword : (getWordOfCursor T ed.document ed.position).length =
      (wordLoop T ed.document ed.position []).length := by
    unfold getWordOfCursor at hw ⊢
    simp only at hw ⊢
    split
    · rename_i h; rw [if_pos h] at hw; exact absurd rfl hw
    · rename_i h
      rw [if_neg h] at hw
      split
      · rename_i h2; rw [if_pos h2] at hw; exact absurd rfl hw
      · simp
  refine ⟨?_, rfl⟩
  have hs := anchorLoop_spec T ed.document (ed.position - 1) []
  have hsucc : ed.position - 1 + 1 = ed.position := by omega
  rw [hsucc] at hs
  simp only [getCompleteWidgetX, if_neg hp, hs, hword, List.length_nil, Nat.sub_zero]

theorem getCompleteWidgetX_unchanged (T : QCharTables) (ed : CodeEditor)
    (h : ed.completeState = CompleteState.Hide) : (getCompleteWidgetX T ed).2 = ed := by
  obtain ⟨document, position, completeList, completeState, widgetItems, widgetVisible,
    currentRow, extraSelections⟩ := ed
  simp only at h
  subst h
  rfl

/-- C17: for the buffer `in` with the cursor at its end the cursor word is `in`, which starts
the document, and `getCompleteWidgetX` reads the anchor at position 1, the second character of
the word, not at position 0; the cursor is back at 2 afterwards. -/
theorem getCompleteWidgetX_word_at_start (T : QCharTables) :
    getWordOfCursor T "in".toList 2 = "in".toList ∧
      (getCompleteWidgetX T (editorAt "in".toList 2)).1 = 1 ∧
      (getCompleteWidgetX T (editorAt "in".toList 2)).2.position = 2 := by
  have hn : isWordChar T 'n' = true := by
    simp [isWordChar, T.isLetter_ascii 'n' (by decide)]
  have hi : isWordChar T 'i' = true := by
    simp [isWordChar, T.isLetter_ascii 'i' (by decide)]
  have c0 : characterAt "in".toList ((0 : Nat) : Int) = 'i' := by decide
  have c1 : characterAt "in".toList ((1 : Nat) : Int) = 'n' := by decide
  have c2 : characterAt "in".toList (((2 : Nat) : Int) - 1 + 1) = QChar.paragraphSeparator := by
    decide
  have c3 : characterAt "in".toList (((2 : Nat) : Int) - 1) = 'n' := by decide
  have hsp : (QChar.paragraphSeparator == ' ') = false := by decide
  have hnsp : ('n' == ' ') = false := by decide
  have hloop : wordLoop T "in".toList 2 [] = ['n', 'i'] := by
    simp only [wordLoop, c1, hn, if_true, c0, hi, List.nil_append, List.singleton_append]
  have hword : getWordOfCursor T "in".toList 2 = "in".toList := by
    simp only [getWordOfCursor, c2, c3, T.isDigit_separator, T.isLetter_separator, hsp, hnsp,
      Bool.or_self, Bool.false_eq_true, if_false, hloop]
    rfl
  refine ⟨hword, ?_, rfl⟩
  have h := (getCompleteWidgetX_anchor T (editorAt "in".toList 2) (by
    show getWordOfCursor T "in".toList 2 ≠ []
    rw [hword]; decide)).1
  rw [h]
  show max (2 - (getWordOfCursor T "in".toList 2).length) 1 = 1
  rw [hword]
  decide

/-! ## Language detection by content -/

theorem contains_singleton (c : Char) : ∀ s : QString, contains s [c] = true ↔ c ∈ s := by
  intro s
  induction s with
  | nil => simp [contains, startsWith]
  | cons d t ih =>
    simp only [contains, startsWith, startsWith_nil, Bool.and_true, Bool.or_eq_true, beq_iff_eq,
      ih, List.mem_cons]
    constructor
    · rintro (h | h)
      · exact Or.inl h.symm
      · exact Or.inr h
    · rintro (h | h)
      · exact Or.inl h.symm
      · exact Or.inr h

theorem ascii_toLower_punctuation :
    ∀ n, n < 128 → ∀ c ∈ sniffedPunctuation,
      ((Char.ofNat n).toLower = c ↔ Char.ofNat n = c) := by
  decide

theorem toLower_eq_punctuation (T : QCharTables) (c : Char) (hc : c ∈ sniffedPunctuation)
    (x : Char) : T.toLower x = c ↔ x = c := by
  have hc1 : c.toNat < 128 ∧ c.isAlpha = false := by
    revert c; decide
  by_cases hx : x.toNat < 128
  · rw [T.toLower_ascii x hx]
    have := ascii_toLower_punctuation x.toNat hx c hc
    rwa [Char.ofNat_toNat] at this
  · have hne : x ≠ c := by
      intro h; rw [h] at hx; exact hx hc1.1
    constructor
    · intro h
      rcases T.toLower_outside x (by omega) with h1 | h1
      · rw [h] at h1; omega
      · rw [h, hc1.2] at h1; exact absurd h1 (by decide)
    · intro h; exact absurd h hne

theorem contains_toLower_punctuation (T : QCharTables) (c : Char) (hc : c ∈ sniffedPunctuation)
    (s : QString) : contains (toLower T s) [c] = decide (c ∈ s) := by
  have h : contains (toLower T s) [c] = true ↔ c ∈ s := by
    rw [contains_singleton]
    unfold toLower
    rw [List.mem_map]
    constructor
    · rintro ⟨x, hx, hxc⟩
      rw [(toLower_eq_punctuation T c hc x).mp hxc] at hx
      exact hx
    · intro h
      exact ⟨c, h, (toLower_eq_punctuation T c hc c).mpr rfl⟩
  by_cases hm : c ∈ s
  · rw [h.mpr hm]; simp [hm]
  · have : contains (toLower T s) [c] = false := by
      cases hx : contains (toLower T s) [c] with
      | false => rfl
      | true => exact absurd (h.mp hx) hm
    rw [this]; simp [hm]

theorem contains_eq_decide (s pat : QString) : contains s pat = decide (pat <:+: s) := by
  by_cases h : pat <:+: s
  · rw [(contains_iff pat s).mpr h]; simp [h]
  · have : contains s pat = false := by
      cases hx : contains s pat with
      | false => rfl
      | true => exact absurd ((contains_iff pat s).mp hx) h
    rw [this]; simp [h]

theorem detectLanguage_unrecognised (T : QCharTables) (fileName content : QString)
    (hext : ¬ recognisedExtension T fileName) :
    detectLanguage T fileName content = detectLanguage T [] content := by
  by_cases hname : fileName = []
  · rw [hname]
  · have hsuf : toLower T (QFileInfo.suffix fileName) ∉
        ["cpp", "c", "h", "cxx", "hpp", "py", "json"].map String.toList :=
      fun h => hext ⟨hname, h⟩
    simp only [List.map_cons, List.map_nil, List.mem_cons, List.mem_singleton, List.not_mem_nil,
      or_false, not_or] at hsuf
    obtain ⟨h1, h2, h3, h4, h5, h6, h7⟩ := hsuf
    have hemp : fileName.isEmpty = false := by
      cases fileName with
      | nil => exact absurd rfl hname
      | cons c t => rfl
    simp only [detectLanguage, hemp, h1, h2, h3, h4, h5, h6, h7, List.isEmpty_nil, or_self,
      Bool.not_false, Bool.not_true, if_true, if_false, Bool.false_eq_true]

theorem detectLanguage_content (T : QCharTables) (content : QString) :
    detectLanguage T [] content =
      if content = [] then LanguageType.Cpp
      else if jsonCondition content then LanguageType.JSON
      else if hasPythonToken (toLower T content) ∧
          ¬ ("#include".toList <:+: toLower T content) ∧ ';' ∉ content then LanguageType.Python
      else LanguageType.Cpp := by
  by_cases hc : content = []
  · subst hc
    simp [detectLanguage]
  · have hemp : content.isEmpty = false := by
      cases content with
      | nil => exact absurd rfl hc
      | cons c t => rfl
    have p1 := contains_toLower_punctuation T ':' (by decide) content
    have p2 := contains_toLower_punctuation T '{' (by decide) content
    have p3 := contains_toLower_punctuation T '}' (by decide) content
    have p4 := contains_toLower_punctuation T '[' (by decide) content
    have p5 := contains_toLower_punctuation T ']' (by decide) content
    have p6 := contains_toLower_punctuation T ';' (by decide) content
    have e1 : "[".toList = ['['] := rfl
    have e2 : "]".toList = [']'] := rfl
    have e3 : ":".toList = [':'] := rfl
    have e4 : ";".toList = [';'] := rfl
    simp only [detectLanguage, List.isEmpty_nil, Bool.not_true, Bool.false_eq_true, if_false,
      hemp, Bool.not_false, if_true, e1, e2, e3, e4, p1, p2, p3, p4, p5, p6, if_neg hc,
      contains_eq_decide, ite_self]
    by_cases hj : jsonCondition content
    · have hj2 := hj
      unfold jsonCondition at hj2
      rw [if_pos hj, if_pos]
      simp only [Bool.and_eq_true, Bool.or_eq_true, decide_eq_true_eq]
      exact ⟨hj2.2, hj2.1⟩
    · have hj2 := hj
      unfold jsonCondition at hj2
      rw [if_neg hj, if_neg]
      · by_cases hpy : hasPythonToken (toLower T content) ∧
            ¬ ("#include".toList <:+: toLower T content) ∧ ';' ∉ content
        · rw [if_pos hpy, if_pos]
          obtain ⟨ha, hb, hc2⟩ := hpy
          unfold hasPythonToken at ha
          simp only [Bool.and_eq_true, Bool.or_eq_true, decide_eq_true_eq, Bool.not_eq_true',
            Bool.or_eq_false_iff, decide_eq_false_iff_not]
          exact ⟨by tauto, hb, hc2⟩
        · rw [if_neg hpy, if_neg]
          intro h
          apply hpy
          simp only [Bool.and_eq_true, Bool.or_eq_true, decide_eq_true_eq, Bool.not_eq_true',
            Bool.or_eq_false_iff, decide_eq_false_iff_not] at h
          refine ⟨?_, h.2.1, h.2.2⟩
          unfold hasPythonToken
          have h1 := h.1
          tauto
      · simp only [Bool.and_eq_true, Bool.or_eq_true, decide_eq_true_eq]
        intro h
        exact hj2 ⟨h.2, h.1⟩

/-- C11: for a file name that is empty or has no recognised extension, `detectLanguage` returns
JSON exactly when the content contains a colon and either both braces or both brackets; the
content of an opening brace, `"a": 1` and a closing brace gives JSON. -/
theorem detectLanguage_json_iff (T : QCharTables) (fileName content : QString)
    (hext : ¬ recognisedExtension T fileName) :
    (detectLanguage T fileName content = LanguageType.JSON ↔ jsonCondition content) ∧
      detectLanguage T fileName "\x7b\"a\": 1\x7d".toList = LanguageType.JSON := by
  have key : ∀ c : QString,
      detectLanguage T fileName c = LanguageType.JSON ↔ jsonCondition c := by
    intro c
    rw [detectLanguage_unrecognised T fileName c hext, detectLanguage_content]
    by_cases hj : jsonCondition c
    · have hne : c ≠ [] := by
        intro h; rw [h] at hj; exact absurd hj (by decide)
      simp [hj, hne]
    · simp only [hj, if_false, iff_false]
      split
      · decide
      · split <;> decide
  exact ⟨key content, (key _).mpr (by decide)⟩

theorem detectLanguage_json_iff_witness :
    detectLanguage asciiTables "notes.txt".toList "[1: 2]".toList = LanguageType.JSON ∧
      ¬ recognisedExtension asciiTables "notes.txt".toList :=
  ⟨((detectLanguage_json_iff asciiTables "notes.txt".toList "[1: 2]".toList (by decide)).1).mpr
      (by decide),
   by decide⟩

/-- C12, as stated, fails: with an empty file name the content `DEF x` holds none of the tokens
`def `, `class `, `import `, `from ` as written, yet `detectLanguage` returns Python, because it
looks for the tokens in the lower-cased content. -/
theorem detectLanguage_upper_case_token :
    detectLanguage asciiTables [] "DEF x".toList = LanguageType.Python ∧
      ¬ hasPythonToken "DEF x".toList ∧ ¬ recognisedExtension asciiTables [] := by
  decide

/-- C12, amended: for a file name that is empty or has no recognised extension,
`detectLanguage` returns Python exactly when the JSON condition does not hold, the lower-cased
content contains one of the tokens `def `, `class `, `import `, `from `, the lower-cased content
does not contain `#include`, and the content has no `;`; in every remaining case without the
JSON condition it returns Cpp. The content `def f(): pass` gives Python. -/
theorem detectLanguage_python_iff (T : QCharTables) (fileName content : QString)
    (hext : ¬ recognisedExtension T fileName) :
    (detectLanguage T fileName content = LanguageType.Python ↔
        (¬ jsonCondition content ∧ hasPythonToken (toLower T content) ∧
          ¬ ("#include".toList <:+: toLower T content) ∧ ';' ∉ content)) ∧
      (detectLanguage T fileName content = LanguageType.Cpp ↔
        (¬ jsonCondition content ∧
          ¬ (hasPythonToken (toLower T content) ∧
            ¬ ("#include".toList <:+: toLower T content) ∧ ';' ∉ content))) ∧
      detectLanguage T fileName "def f(): pass".toList = LanguageType.Python := by
  have key : ∀ c : QString,
      (detectLanguage T fileName c = LanguageType.Python ↔
        (¬ jsonCondition c ∧ hasPythonToken (toLower T c) ∧
          ¬ ("#include".toList <:+: toLower T c) ∧ ';' ∉ c)) ∧
      (detectLanguage T fileName c = LanguageType.Cpp ↔
        (¬ jsonCondition c ∧
          ¬ (hasPythonToken (toLower T c) ∧
            ¬ ("#include".toList <:+: toLower T c) ∧ ';' ∉ c))) := by
    intro c
    rw [detectLanguage_unrecognised T fileName c hext, detectLanguage_content]
    by_cases hc : c = []
    · subst hc
      have h1 : ¬ jsonCondition [] := by decide
      have h2 : ¬ hasPythonToken (toLower T []) := by
        show ¬ hasPythonToken []
        decide
      simp [h1, h2]
    · by_cases hj : jsonCondition c
      · simp [hc, hj]
      · by_cases hpy : hasPythonToken (toLower T c) ∧
            ¬ ("#include".toList <:+: toLower T c) ∧ ';' ∉ c
        · simp only [if_neg hc, if_neg hj, if_pos hpy, hj, not_false_eq_true, true_and, hpy,
            and_self, not_true_eq_false, iff_false, true_iff]
          decide
        · simp only [if_neg hc, if_neg hj, if_neg hpy, hj, not_false_eq_true, true_and,
            hpy, iff_true, iff_false]
          decide
  refine ⟨(key content).1, (key content).2, ?_⟩
  have hlow : toLower T "def f(): pass".toList = "def f(): pass".toList :=
    toLower_of_lower T _ (by decide)
  rw [(key _).1, hlow]
  decide

theorem detectLanguage_python_iff_witness :
    detectLanguage asciiTables "Makefile".toList "IMPORT os".toList = LanguageType.Python ∧
      detectLanguage asciiTables "Makefile".toList "from x #INCLUDE".toList
        = LanguageType.Cpp :=
  ⟨((detectLanguage_python_iff asciiTables "Makefile".toList "IMPORT os".toList
      (by decide)).1).mpr (by decide),
   ((detectLanguage_python_iff asciiTables "Makefile".toList "from x #INCLUDE".toList
      (by decide)).2.1).mpr (by decide)⟩

/-! ## Bracket matching: the reported match -/

theorem stringFlag_cons (b : Bool) (c : Char) (l : QString) :
    stringFlag b (c :: l) = stringFlag (if c = '"' then !b else b) l := rfl

theorem firstCloser_iff (closing : Char) :
    ∀ (l : QString) (b : Bool) (k : Nat),
      firstCloser closing b l = some k ↔
        (l[k]? = some closing ∧ stringFlag b (l.take (k + 1)) = false ∧
          ∀ j, j < k → ¬ (l[j]? = some closing ∧ stringFlag b (l.take (j + 1)) = false)) := by
  intro l
  induction l with
  | nil => intro b k; simp [firstCloser]
  | cons c rest ih =>
    intro b k
    by_cases hit : (!(if c = '"' then !b else b) && c == closing) = true
    · have hit2 := hit
      simp only [Bool.and_eq_true, Bool.not_eq_true', beq_iff_eq] at hit2
      simp only [firstCloser, hit, if_true, Option.some.injEq]
      constructor
      · intro h
        subst h
        refine ⟨by simp [hit2.2], ?_, fun j hj => absurd hj (Nat.not_lt_zero _)⟩
        simp only [Nat.zero_add, List.take_succ_cons, List.take_zero, stringFlag_cons]
        exact hit2.1
      · rintro ⟨_, _, hleast⟩
        by_contra hk
        have hk0 : 0 < k := Nat.pos_of_ne_zero (fun h => hk h.symm)
        apply hleast 0 hk0
        refine ⟨by simp [hit2.2], ?_⟩
        simp only [Nat.zero_add, List.take_succ_cons, List.take_zero, stringFlag_cons]
        exact hit2.1
    · have hmiss : ¬ ((c :: rest)[0]? = some closing ∧
          stringFlag b ((c :: rest).take (0 + 1)) = false) := by
        simp only [Nat.zero_add, List.take_succ_cons, List.take_zero, stringFlag_cons,
          List.getElem?_cons_zero, Option.some.injEq]
        intro h
        apply hit
        simp only [Bool.and_eq_true, Bool.not_eq_true', beq_iff_eq]
        exact ⟨h.2, h.1⟩
      simp only [firstCloser, hit, Bool.false_eq_true, if_false, Option.map_eq_some']
      constructor
      · rintro ⟨k1, hk1, rfl⟩
        obtain ⟨h1, h2, h3⟩ := (ih _ k1).mp hk1
        refine ⟨by simpa using h1, ?_, ?_⟩
        · simp only [List.take_succ_cons, stringFlag_cons]; exact h2
        · intro j hj
          cases j with
          | zero => exact hmiss
          | succ j =>
            simp only [List.getElem?_cons_succ, List.take_succ_cons, stringFlag_cons]
            exact h3 j (by omega)
      · rintro ⟨h1, h2, h3⟩
        cases k with
        | zero => exact absurd ⟨h1, h2⟩ hmiss
        | succ k1 =>
          refine ⟨k1, (ih _ k1).mpr ⟨by simpa using h1, ?_, ?_⟩, rfl⟩
          · simpa only [List.take_succ_cons, stringFlag_cons] using h2
          · intro j hj
            have := h3 (j + 1) (by omega)
            simpa only [List.getElem?_cons_succ, List.take_succ_cons, stringFlag_cons] using this

theorem closerOutsideString_eq (closing : Char) :
    ∀ (l : QString) (b : Bool),
      closerOutsideString closing b l = (firstCloser closing b l).isSome := by
  intro l
  induction l with
  | nil => intro b; rfl
  | cons c rest ih =>
    intro b
    by_cases hit : (!(if c = '"' then !b else b) && c == closing) = true
    · simp [closerOutsideString, firstCloser, hit]
    · simp only [closerOutsideString, firstCloser, hit, Bool.false_or, Bool.false_eq_true,
        if_false, ih, Option.isSome_map']

theorem findMatchingBracketLoop_eq (doc : QString) (closing : Char)
    (hcl : closing = ')' ∨ closing = '}' ∨ closing = ']') :
    ∀ (fuel n : Nat) (b : Bool),
      findMatchingBracketLoop doc closing fuel ⟨false, n⟩ b =
        (firstCloser closing b (doc.drop (n + 1))).bind
          (fun k => if k < fuel then some ⟨false, n + 1 + k⟩ else none) := by
  have hsepc : (QChar.paragraphSeparator == closing) = false := by
    rcases hcl with h | h | h <;> subst h <;> decide
  have hnlc : ('\n' == closing) = false := by
    rcases hcl with h | h | h <;> subst h <;> decide
  intro fuel
  induction fuel with
  | zero =>
    intro n b
    cases firstCloser closing b (doc.drop (n + 1)) <;> simp [findMatchingBracketLoop]
  | succ m ih =>
    intro n b
    by_cases hp1 : n + 1 < doc.length
    · have hp : n < doc.length := by omega
      have hmove : QTextCursor.movePositionNext doc ⟨false, n⟩ = ⟨false, n + 1⟩ := by
        simp [QTextCursor.movePositionNext, hp]
      have hdrop : doc.drop (n + 1) = doc.get ⟨n + 1, hp1⟩ :: doc.drop (n + 1 + 1) :=
        List.drop_eq_getElem_cons hp1
      have hch := characterAt_lt doc (n + 1) hp1
      have hquote : (characterAt doc ((n + 1 : Nat) : Int) = '"') ↔
          doc.get ⟨n + 1, hp1⟩ = '"' := by
        rw [hch]
        by_cases hnl : doc.get ⟨n + 1, hp1⟩ = '\n'
        · rw [if_pos hnl, hnl]; decide
        · rw [if_neg hnl]
      have hclose : (characterAt doc ((n + 1 : Nat) : Int) == closing) =
          (doc.get ⟨n + 1, hp1⟩ == closing) := by
        rw [hch]
        by_cases hnl : doc.get ⟨n + 1, hp1⟩ = '\n'
        · rw [if_pos hnl, hnl, hsepc, hnlc]
        · rw [if_neg hnl]
      have hflag : (if characterAt doc ((n + 1 : Nat) : Int) = '"' then !b else b) =
          (if doc.get ⟨n + 1, hp1⟩ = '"' then !b else b) := by
        by_cases hq : doc.get ⟨n + 1, hp1⟩ = '"'
        · rw [if_pos hq, if_pos (hquote.mpr hq)]
        · rw [if_neg hq, if_neg (fun h => hq (hquote.mp h))]
      rw [hdrop]
      simp only [findMatchingBracketLoop, hmove, Bool.not_false, if_true, hflag, hclose,
        firstCloser]
      by_cases hit : (!(if doc.get ⟨n + 1, hp1⟩ = '"' then !b else b) &&
          doc.get ⟨n + 1, hp1⟩ == closing) = true
      · simp only [hit, if_true, Option.some_bind]
        simp
      · simp only [hit, Bool.false_eq_true, if_false, ih]
        cases firstCloser closing (if doc.get ⟨n + 1, hp1⟩ = '"' then !b else b)
            (doc.drop (n + 1 + 1)) with
        | none => rfl
        | some k =>
          simp only [Option.map_some', Option.some_bind, Nat.add_lt_add_iff_right]
          have : n + 1 + 1 + k = n + 1 + (k + 1) := by omega
          rw [this]
    · by_cases hp : n < doc.length
      · -- the cursor moves onto the end of the document
        have hmove : QTextCursor.movePositionNext doc ⟨false, n⟩ = ⟨false, n + 1⟩ := by
          simp [QTextCursor.movePositionNext, hp]
        have hdrop : doc.drop (n + 1) = [] := List.drop_eq_nil_of_le (by omega)
        have hdrop2 : doc.drop (n + 1 + 1) = [] := List.drop_eq_nil_of_le (by omega)
        have hnone := findMatchingBracketLoop_no_closer doc closing hcl (m + 1) ⟨false, n⟩ b rfl
          (by rw [hdrop]; rfl)
        rw [hnone, hdrop]
        rfl
      · have hdrop : doc.drop (n + 1) = [] := List.drop_eq_nil_of_le (by omega)
        have hnone := findMatchingBracketLoop_no_closer doc closing hcl (m + 1) ⟨false, n⟩ b rfl
          (by rw [hdrop]; rfl)
        rw [hnone, hdrop]
        rfl

theorem closerAt_iff_offset (doc : QString) (closing : Char) (p k : Nat) :
    closerAt doc closing p (p + 1 + k) ↔
      ((doc.drop (p + 1))[k]? = some closing ∧
        stringFlag false ((doc.drop (p + 1)).take (k + 1)) = false) := by
  unfold closerAt
  have h1 : p + 1 + k - p = k + 1 := by omega
  rw [h1, List.getElem?_drop]
  constructor
  · rintro ⟨_, h2, h3⟩; exact ⟨h2, h3⟩
  · rintro ⟨h2, h3⟩; exact ⟨by omega, h2, h3⟩

/-- C20: with the cursor at `p` on an opening bracket, a match reported by
`findMatchingBracket` is a non-null cursor at the least position `q > p` that holds the
corresponding closing bracket and at which the scan, started outside a string at `p + 1` and
flipping its flag at each double quote, is outside a string; and when there is such a position
the scan reports it as soon as the fuel covers the distance. Opening brackets in between are
not counted: in `((a)b)` the match of the first parenthesis is the `)` at position 3. -/
theorem findMatchingBracket_first_closer (ed : CodeEditor) (fuel : Nat)
    (hopen : characterAt ed.document ed.position = '(' ∨
      characterAt ed.document ed.position = '{' ∨ characterAt ed.document ed.position = '[') :
    (∀ c, findMatchingBracket fuel ed ed.position
          (closingBracket (characterAt ed.document ed.position)) = some c →
        c.isNull = false ∧
          closerAt ed.document (closingBracket (characterAt ed.document ed.position))
            ed.position c.position ∧
          ∀ q, q < c.position →
            ¬ closerAt ed.document (closingBracket (characterAt ed.document ed.position))
              ed.position q) ∧
      (∀ q, closerAt ed.document (closingBracket (characterAt ed.document ed.position))
            ed.position q →
          (∀ q1, q1 < q →
            ¬ closerAt ed.document (closingBracket (characterAt ed.document ed.position))
              ed.position q1) →
          q - ed.position ≤ fuel →
          findMatchingBracket fuel ed ed.position
            (closingBracket (characterAt ed.document ed.position)) = some ⟨false, q⟩) ∧
      findMatchingBracket 10 (editorAt "((a)b)".toList 0) 0 ')' = some ⟨false, 3⟩ := by
  have hcl : closingBracket (characterAt ed.document ed.position) = ')' ∨
      closingBracket (characterAt ed.document ed.position) = '}' ∨
      closingBracket (characterAt ed.document ed.position) = ']' := by
    rcases hopen with h | h | h <;> rw [h] <;> decide
  generalize closingBracket (characterAt ed.document ed.position) = closing at hcl ⊢
  have hloop : findMatchingBracket fuel ed ed.position closing =
      (firstCloser closing false (ed.document.drop (ed.position + 1))).bind
        (fun k => if k < fuel then some ⟨false, ed.position + 1 + k⟩ else none) :=
    findMatchingBracketLoop_eq ed.document closing hcl fuel ed.position false
  refine ⟨?_, ?_, by decide⟩
  · intro c hc
    rw [hloop] at hc
    cases hfc : firstCloser closing false (ed.document.drop (ed.position + 1)) with
    | none => rw [hfc] at hc; exact absurd hc (by simp)
    | some k =>
      rw [hfc, Option.some_bind] at hc
      by_cases hk : k < fuel
      · rw [if_pos hk, Option.some.injEq] at hc
        subst hc
        obtain ⟨h1, h2, h3⟩ := (firstCloser_iff closing _ false k).mp hfc
        refine ⟨rfl, (closerAt_iff_offset _ _ _ k).mpr ⟨h1, h2⟩, ?_⟩
        intro q hq hcq
        have hpq : ed.position < q := hcq.1
        obtain ⟨j, rfl⟩ : ∃ j, q = ed.position + 1 + j := ⟨q - ed.position - 1, by omega⟩
        have hj : j < k := by
          simp only at hq
          omega
        exact h3 j hj ((closerAt_iff_offset _ _ _ j).mp hcq)
      · rw [if_neg hk] at hc
        exact absurd hc (by simp)
  · intro q hq hleast hfuel
    have hpq : ed.position < q := hq.1
    obtain ⟨k, rfl⟩ : ∃ k, q = ed.position + 1 + k := ⟨q - ed.position - 1, by omega⟩
    have hfc : firstCloser closing false (ed.document.drop (ed.position + 1)) = some k := by
      obtain ⟨h1, h2⟩ := (closerAt_iff_offset _ _ _ k).mp hq
      refine (firstCloser_iff closing _ false k).mpr ⟨h1, h2, ?_⟩
      intro j hj hcj
      exact hleast (ed.position + 1 + j) (by omega) ((closerAt_iff_offset _ _ _ j).mpr hcj)
    rw [hloop, hfc, Option.some_bind, if_pos (by omega)]

theorem findMatchingBracket_first_closer_witness :
    findMatchingBracket 20 (editorAt "f(\")\", x) + g()".toList 1) 1 ')' = some ⟨false, 8⟩ ∧
      closerAt "f(\")\", x) + g()".toList ')' 1 8 :=
  ⟨(findMatchingBracket_first_closer (editorAt "f(\")\", x) + g()".toList 1) 20
      (Or.inl (by decide))).2.1 8 (by decide) (by decide) (by decide),
   by decide⟩

/-! ## Escaped quotes in the bracket scan -/

/-- C21, as stated, fails: for the text of an opening parenthesis, a quote, a backslash, a
quote, a closing parenthesis, a quote and a closing parenthesis, with the cursor at 0, the
reported match is the `)` at position 4, not the one at position 6. -/
theorem findMatchingBracket_escaped_quote_counterexample :
    findMatchingBracket 10 (editorAt escapedQuoteText 0) 0 ')' = some ⟨false, 4⟩ ∧
      findMatchingBracket 10 (editorAt escapedQuoteText 0) 0 ')' ≠ some ⟨false, 6⟩ ∧
      escapedQuoteText[2]? = some '\\' ∧ escapedQuoteText[3]? = some '"' := by
  decide

/-- C21, amended: the in-string flag of the bracket scan is flipped by every double quote, also
by one that comes right after a backslash: the step of the scan onto such a quote continues
with the flag negated. Hence for the text of an opening parenthesis, a quote, a backslash, a
quote, a closing parenthesis, a quote and a closing parenthesis, with the cursor at 0, the
reported match is the `)` at position 4, whenever the fuel is at least 4. -/
theorem findMatchingBracket_escaped_quote (doc : QString) (closing : Char) (fuel n : Nat)
    (b : Bool) (hcl : closing = ')' ∨ closing = '}' ∨ closing = ']')
    (_hback : doc[n]? = some '\\') (hquote : doc[n + 1]? = some '"') :
    findMatchingBracketLoop doc closing (fuel + 1) ⟨false, n⟩ b =
        findMatchingBracketLoop doc closing fuel ⟨false, n + 1⟩ (!b) ∧
      (4 ≤ fuel →
        findMatchingBracket fuel (editorAt escapedQuoteText 0) 0 ')' = some ⟨false, 4⟩) := by
  constructor
  · have hlt : n + 1 < doc.length := by
      by_contra h
      rw [List.getElem?_eq_none (by omega)] at hquote
      exact absurd hquote (by simp)
    have hmove : QTextCursor.movePositionNext doc ⟨false, n⟩ = ⟨false, n + 1⟩ := by
      simp [QTextCursor.movePositionNext, (by omega : n < doc.length)]
    have hch : characterAt doc ((n + 1 : Nat) : Int) = '"' :=
      (characterAt_eq_iff doc (n + 1) '"' (by decide) (by decide) (by decide)).mpr hquote
    have hne : ('"' == closing) = false := by
      rcases hcl with h | h | h <;> subst h <;> decide
    simp only [findMatchingBracketLoop, hmove, Bool.not_false, if_true, hch, hne, Bool.and_false,
      Bool.false_eq_true, if_false]
  · intro hfuel
    have h := findMatchingBracketLoop_eq escapedQuoteText ')' (Or.inl rfl) fuel 0 false
    have hfc : firstCloser ')' false (escapedQuoteText.drop (0 + 1)) = some 3 := by decide
    rw [hfc, Option.some_bind, if_pos (by omega)] at h
    exact h

theorem findMatchingBracket_escaped_quote_witness :
    findMatchingBracketLoop escapedQuoteText ')' (5 + 1) ⟨false, 2⟩ true =
        findMatchingBracketLoop escapedQuoteText ')' 5 ⟨false, 2 + 1⟩ (!true) ∧
      findMatchingBracketLoop escapedQuoteText ')' 5 ⟨false, 3⟩ false = some ⟨false, 4⟩ :=
  ⟨(findMatchingBracket_escaped_quote escapedQuoteText ')' 5 2 true (Or.inl rfl) (by decide)
      (by decide)).1,
   by decide⟩

/-! ## The vocabulary -/

/-- C22: the vocabulary built by `setUpCompleteList` holds `template` twice, so it is no set;
and for the buffer `temp` with the cursor at its end the candidate list is `template` twice,
whatever the distance function. -/
theorem setUpCompleteList_duplicate (ldist : QString → QString → Int) :
    setUpCompleteList.count "template".toList = 2 ∧ ¬ setUpCompleteList.Nodup ∧
      (showCompleteWidget asciiTables ldist (editorAt "temp".toList 4)).widgetItems
        = ["template".toList, "template".toList] := by
  refine ⟨by decide, by decide, ?_⟩
  have hword : getWordOfCursor asciiTables "temp".toList 4 = "temp".toList := by decide
  have hitems := showCompleteWidget_items asciiTables ldist (editorAt "temp".toList 4)
    (by decide) (by decide)
  obtain ⟨hcollect, _⟩ := collectCandidates_spec ldist
    (getWordOfCursor asciiTables (editorAt "temp".toList 4).document
      (editorAt "temp".toList 4).position)
    (editorAt "temp".toList 4).completeList
    { itemList := [], distance := [], maxSize := 0 } (by simp)
  have hfilter : (editorAt "temp".toList 4).completeList.filter
      (fun e => contains e (getWordOfCursor asciiTables (editorAt "temp".toList 4).document
        (editorAt "temp".toList 4).position)) = List.replicate 2 "template".toList := by
    decide
  rw [List.nil_append, hfilter] at hcollect
  rw [hitems]
  unfold sortedItemList
  have hperm := stdSort_perm
    (fun s1 s2 => decide ((collectCandidates ldist
      (getWordOfCursor asciiTables (editorAt "temp".toList 4).document
        (editorAt "temp".toList 4).position)
      (editorAt "temp".toList 4).completeList
      { itemList := [], distance := [], maxSize := 0 }).distance.value s1 <
      (collectCandidates ldist
      (getWordOfCursor asciiTables (editorAt "temp".toList 4).document
        (editorAt "temp".toList 4).position)
      (editorAt "temp".toList 4).completeList
      { itemList := [], distance := [], maxSize := 0 }).distance.value s2))
    (collectCandidates ldist
      (getWordOfCursor asciiTables (editorAt "temp".toList 4).document
        (editorAt "temp".toList 4).position)
      (editorAt "temp".toList 4).completeList
      { itemList := [], distance := [], maxSize := 0 }).itemList
  rw [hcollect] at hperm
  exact List.perm_replicate.mp hperm

/-! ## The edit distance: symmetry and the distance to a substring -/

theorem ldistance_nil_right (s : QString) : ldistance s [] = s.length := by
  cases s with
  | nil => rfl
  | cons a s => rfl

theorem ldistance_cons_cons (a b : Char) (s t : QString) :
    ldistance (a :: s) (b :: t) =
      min (min (ldistance s (b :: t) + 1) (ldistance (a :: s) t + 1))
        (ldistance s t + if a = b then 0 else 1) := rfl

theorem ldistance_comm : ∀ s t : QString, ldistance s t = ldistance t s := by
  intro s
  induction s with
  | nil => intro t; rw [ldistance_nil_right]; rfl
  | cons a s ihs =>
    intro t
    induction t with
    | nil => rw [ldistance_nil_right]; rfl
    | cons b t iht =>
      rw [ldistance_cons_cons, ldistance_cons_cons, ihs (b :: t), ihs t, iht]
      have hc : (if a = b then 0 else 1) = (if b = a then 0 else 1) := by
        by_cases h : a = b
        · rw [if_pos h, if_pos h.symm]
        · rw [if_neg h, if_neg (fun h2 => h h2.symm)]
      rw [hc, min_comm (ldistance (b :: t) s + 1) (ldistance t (a :: s) + 1)]

/-- C24: the edit distance is symmetric: the distance from `s` to `t` is the distance from `t`
to `s`, also as the integer `showCompleteWidget` stores. -/
theorem ldistance_symmetric (s t : QString) :
    ldistance s t = ldistance t s ∧ ldistanceInt s t = ldistanceInt t s := by
  refine ⟨ldistance_comm s t, ?_⟩
  unfold ldistanceInt
  rw [ldistance_comm s t]

theorem ldistance_lower : ∀ s t : QString, s.length ≤ ldistance s t + t.length := by
  intro s
  induction s with
  | nil => intro t; simp
  | cons a s ihs =>
    intro t
    induction t with
    | nil => rw [ldistance_nil_right]; simp
    | cons b t iht =>
      rw [ldistance_cons_cons]
      have h1 := ihs (b :: t)
      have h2 := ihs t
      simp only [List.length_cons] at h1 h2 iht ⊢
      have h3 : 0 ≤ (if a = b then 0 else 1) := Nat.zero_le _
      omega

theorem ldistance_delete (a : Char) (s t : QString) :
    ldistance (a :: s) t ≤ ldistance s t + 1 := by
  cases t with
  | nil => rw [ldistance_nil_right, ldistance_nil_right]; simp
  | cons b t =>
    rw [ldistance_cons_cons]
    omega

theorem ldistance_append_right (post : QString) :
    ∀ w : QString, ldistance (w ++ post) w ≤ post.length := by
  intro w
  induction w with
  | nil => rw [List.nil_append, ldistance_nil_right]
  | cons a w ih =>
    rw [List.cons_append, ldistance_cons_cons, if_pos rfl]
    omega

theorem ldistance_append_left (x w : QString) :
    ∀ pre : QString, ldistance (pre ++ x) w ≤ pre.length + ldistance x w := by
  intro pre
  induction pre with
  | nil => simp
  | cons a pre ih =>
    have h := ldistance_delete a (pre ++ x) w
    simp only [List.cons_append, List.length_cons]
    omega

theorem ldistance_infix (entry word : QString) (h : word <:+: entry) :
    ldistance entry word + word.length = entry.length := by
  obtain ⟨pre, post, rfl⟩ := h
  have h1 := ldistance_append_left (word ++ post) word pre
  have h2 := ldistance_append_right post word
  have h3 := ldistance_lower (pre ++ word ++ post) word
  rw [List.append_assoc] at h3 ⊢
  simp only [List.length_append] at h3 ⊢
  omega


/-- C26: an entry that contains the non-empty word as a substring is at distance
`length entry - length word` from it; so the candidate list `showCompleteWidget` builds with the
edit distance is ordered by non-decreasing length, and among its candidates the order by
distance is the order by length. -/
theorem showCompleteWidget_sorted_by_length (T : QCharTables) (ed : CodeEditor)
    (hstate : ed.completeState ≠ CompleteState.Ignore)
    (hword : getWordOfCursor T ed.document ed.position ≠ []) :
    (∀ word entry : QString, word ≠ [] → word <:+: entry →
        ldistance entry word = entry.length - word.length ∧ word.length ≤ entry.length) ∧
      List.Chain' (fun a b : QString => a.length ≤ b.length)
        (showCompleteWidget T ldistanceInt ed).widgetItems ∧
      List.Pairwise (fun a b : QString => a.length ≤ b.length)
        (showCompleteWidget T ldistanceInt ed).widgetItems ∧
      (∀ a ∈ (showCompleteWidget T ldistanceInt ed).widgetItems,
        ∀ b ∈ (showCompleteWidget T ldistanceInt ed).widgetItems,
          (ldistanceInt a (getWordOfCursor T ed.document ed.position) ≤
              ldistanceInt b (getWordOfCursor T ed.document ed.position) ↔
            a.length ≤ b.length)) := by
  have hdist : ∀ word entry : QString, word <:+: entry →
      ldistance entry word = entry.length - word.length ∧ word.length ≤ entry.length := by
    intro word entry h
    have := ldistance_infix entry word h
    omega
  rw [showCompleteWidget_items T ldistanceInt ed hstate hword]
  obtain ⟨hitems, hvalue⟩ := collectCandidates_spec ldistanceInt
    (getWordOfCursor T ed.document ed.position) ed.completeList
    { itemList := [], distance := [], maxSize := 0 } (by simp)
  simp only [List.nil_append] at hitems
  have hmem : ∀ a ∈ sortedItemList (collectCandidates ldistanceInt
      (getWordOfCursor T ed.document ed.position) ed.completeList
      { itemList := [], distance := [], maxSize := 0 }),
      a ∈ (collectCandidates ldistanceInt
        (getWordOfCursor T ed.document ed.position) ed.completeList
        { itemList := [], distance := [], maxSize := 0 }).itemList ∧
      ldistanceInt a (getWordOfCursor T ed.document ed.position) =
        (a.length : Int) - ((getWordOfCursor T ed.document ed.position).length : Int) := by
    intro a ha
    have ha1 := (stdSort_perm _ _).mem_iff.mp ha
    refine ⟨ha1, ?_⟩
    have ha2 := ha1
    rw [hitems, List.mem_filter] at ha2
    have hin := (contains_iff _ a).mp ha2.2
    have := ldistance_infix a _ hin
    unfold ldistanceInt
    omega
  have hpair : List.Pairwise (fun a b : QString => a.length ≤ b.length)
      (sortedItemList (collectCandidates ldistanceInt
        (getWordOfCursor T ed.document ed.position) ed.completeList
        { itemList := [], distance := [], maxSize := 0 })) := by
    refine List.Pairwise.imp_of_mem ?_ (stdSort_pairwise _ _)
    intro a b ha hb hab
    have ha2 := hmem a ha
    have hb2 := hmem b hb
    rw [hvalue a ha2.1, hvalue b hb2.1, ha2.2, hb2.2] at hab
    omega
  refine ⟨fun word entry _ h => hdist word entry h, hpair.chain', hpair, ?_⟩
  intro a ha b hb
  rw [(hmem a ha).2, (hmem b hb).2]
  omega

theorem showCompleteWidget_sorted_by_length_witness :
    List.Chain' (fun a b : QString => a.length ≤ b.length)
        (showCompleteWidget asciiTables ldistanceInt (editorAt "x = in".toList 6)).widgetItems ∧
      getWordOfCursor asciiTables "x = in".toList 6 = "in".toList :=
  ⟨(showCompleteWidget_sorted_by_length asciiTables (editorAt "x = in".toList 6)
      (by decide) (by decide)).2.1,
   by decide⟩

/-! ## The block-comment loop with non-empty expressions -/

theorem indexOf_spec (text pat : QString) (hpat : pat ≠ []) (off : Nat)
    (hoff : off ≤ text.length) :
    (indexOf text pat (off : Int) = -1 ∧ ∀ j, off ≤ j → ¬ occursAt pat text j) ∨
      ∃ e, off ≤ e ∧ e + pat.length ≤ text.length ∧ indexOf text pat (off : Int) = (e : Int) ∧
        occursAt pat text e := by
  by_cases h : ∃ e, off ≤ e ∧ occursAt pat text e
  · right
    have hspec := Nat.find_spec h
    have hle := occursAt_le pat text _ hpat hspec.2
    refine ⟨Nat.find h, hspec.1, hle, ?_, hspec.2⟩
    apply indexOf_eq_first text pat off (Nat.find h) hspec.1 (by omega) hspec.2
    intro j hj1 hj2 hocc
    exact Nat.find_min h hj2 ⟨hj1, hocc⟩
  · left
    have hno : ∀ j, off ≤ j → ¬ occursAt pat text j := fun j hj hocc => h ⟨j, hj, hocc⟩
    exact ⟨indexOf_eq_neg_one text pat off hoff hno, hno⟩

theorem commentLoop_stop (text startExp endExp : QString) (fuel : Nat) (r : BlockResult) :
    commentLoop text startExp endExp (fuel + 1) (-1) r = some r := by
  simp [commentLoop]

theorem commentLoop_succ (text startExp endExp : QString) (fuel : Nat) (k : Int) (hk : 0 ≤ k)
    (r : BlockResult) :
    commentLoop text startExp endExp (fuel + 1) k r =
      commentLoop text startExp endExp fuel
        (indexOf text startExp
          (k + (if indexOf text endExp k = -1 then (text.length : Int) - k
            else indexOf text endExp k - k + endExp.length)))
        ⟨setFormat r.formats k
            (if indexOf text endExp k = -1 then (text.length : Int) - k
              else indexOf text endExp k - k + endExp.length)
            TextFormat.multiLineCommentFormat,
          if indexOf text endExp k = -1 then 1 else r.currentBlockState,
          r.commentSpans ++
            [(k, if indexOf text endExp k = -1 then (text.length : Int) - k
              else indexOf text endExp k - k + endExp.length)]⟩ := by
  rw [commentLoop]
  simp only [hk, if_true]

theorem commentLoop_spans (text startExp endExp : QString) (hs : startExp ≠ [])
    (he : endExp ≠ []) :
    ∀ (m k fuel : Nat) (r : BlockResult), k ≤ text.length → text.length - k ≤ m →
      m + 2 ≤ fuel →
      ∃ (r1 : BlockResult) (new : List (Int × Int)),
        commentLoop text startExp endExp fuel (k : Int) r = some r1 ∧
        r1.commentSpans = r.commentSpans ++ new ∧ new.length ≤ m + 1 ∧
        (∀ sp ∈ new, (k : Int) ≤ sp.1 ∧ 0 ≤ sp.2 ∧ sp.1 + sp.2 ≤ (text.length : Int)) ∧
        new.Pairwise (fun a b => a.1 < b.1 ∧ a.1 + a.2 ≤ b.1) ∧
        (startExp = endExp → occursAt startExp text k →
          r1.currentBlockState = r.currentBlockState) := by
  have hel : 0 < endExp.length := List.length_pos.mpr he
  intro m
  induction m with
  | zero =>
    intro k fuel r hk hm hfuel
    obtain ⟨f, rfl⟩ : ∃ f, fuel = f + 2 := ⟨fuel - 2, by omega⟩
    have hkl : k = text.length := by omega
    have h0 : (0 : Int) ≤ (k : Int) := by omega
    have hend : indexOf text endExp (k : Int) = -1 := by
      rw [hkl]; exact indexOf_length_eq_neg_one text endExp he
    have hnext : indexOf text startExp ((k : Int) + ((text.length : Int) - (k : Int))) = -1 := by
      have : (k : Int) + ((text.length : Int) - (k : Int)) = (text.length : Int) := by omega
      rw [this]; exact indexOf_length_eq_neg_one text startExp hs
    refine ⟨⟨setFormat r.formats (k : Int) ((text.length : Int) - (k : Int))
        TextFormat.multiLineCommentFormat, 1,
        r.commentSpans ++ [((k : Int), (text.length : Int) - (k : Int))]⟩,
      [((k : Int), (text.length : Int) - (k : Int))], ?_, rfl, by simp, ?_, by simp, ?_⟩
    · rw [commentLoop_succ text startExp endExp _ _ h0, hend]
      simp only [eq_self_iff_true, if_true]
      rw [hnext, commentLoop_stop]
    · intro sp hsp
      rw [List.mem_singleton] at hsp
      subst hsp
      simp only
      omega
    · intro heq hocc
      have := occursAt_le startExp text k hs hocc
      have hp : 0 < startExp.length := List.length_pos.mpr hs
      omega
  | succ m ih =>
    intro k fuel r hk hm hfuel
    obtain ⟨f, rfl⟩ : ∃ f, fuel = f + 1 := ⟨fuel - 1, by omega⟩
    have h0 : (0 : Int) ≤ (k : Int) := by omega
    rcases indexOf_spec text endExp he k hk with ⟨hend, hnone⟩ | ⟨e, hke, hele, hend, hocc⟩
    · -- no end marker: the rest of the line is one span and the loop ends
      have hnext : indexOf text startExp ((k : Int) + ((text.length : Int) - (k : Int))) = -1 := by
        have : (k : Int) + ((text.length : Int) - (k : Int)) = (text.length : Int) := by omega
        rw [this]; exact indexOf_length_eq_neg_one text startExp hs
      obtain ⟨f1, rfl⟩ : ∃ f1, f = f1 + 1 := ⟨f - 1, by omega⟩
      refine ⟨⟨setFormat r.formats (k : Int) ((text.length : Int) - (k : Int))
          TextFormat.multiLineCommentFormat, 1,
          r.commentSpans ++ [((k : Int), (text.length : Int) - (k : Int))]⟩,
        [((k : Int), (text.length : Int) - (k : Int))], ?_, rfl, by simp, ?_, by simp, ?_⟩
      · rw [commentLoop_succ text startExp endExp _ _ h0, hend]
        simp only [eq_self_iff_true, if_true]
        rw [hnext, commentLoop_stop]
      · intro sp hsp
        rw [List.mem_singleton] at hsp
        subst hsp
        simp only
        omega
      · intro heq hocc
        rw [heq] at hocc
        exact absurd hocc (hnone k (Nat.le_refl _))
    · -- an end marker at `e`
      have hne : ¬ ((e : Int) = -1) := by omega
      have hoff : (k : Int) + ((e : Int) - (k : Int) + (endExp.length : Int)) =
          ((e + endExp.length : Nat) : Int) := by push_cast; omega
      have hstep : commentLoop text startExp endExp (f + 1) (k : Int) r =
          commentLoop text startExp endExp f
            (indexOf text startExp ((e + endExp.length : Nat) : Int))
            { formats := setFormat r.formats (k : Int)
                ((e : Int) - (k : Int) + (endExp.length : Int))
                TextFormat.multiLineCommentFormat
              currentBlockState := r.currentBlockState
              commentSpans := r.commentSpans ++
                [((k : Int), (e : Int) - (k : Int) + (endExp.length : Int))] } := by
        rw [commentLoop_succ text startExp endExp _ _ h0, hend]
        simp only [hne, if_false, hoff]
      have hspan : (k : Int) ≤ (k : Int) ∧ (0 : Int) ≤ (e : Int) - (k : Int) + (endExp.length : Int) ∧
          (k : Int) + ((e : Int) - (k : Int) + (endExp.length : Int)) ≤ (text.length : Int) := by
        omega
      rcases indexOf_spec text startExp hs (e + endExp.length) hele with
        ⟨hnext, _⟩ | ⟨k1, hk1, hk1le, hnext, hocc1⟩
      · obtain ⟨f1, rfl⟩ : ∃ f1, f = f1 + 1 := ⟨f - 1, by omega⟩
        refine ⟨⟨setFormat r.formats (k : Int) ((e : Int) - (k : Int) + (endExp.length : Int))
              TextFormat.multiLineCommentFormat, r.currentBlockState,
              r.commentSpans ++ [((k : Int), (e : Int) - (k : Int) + (endExp.length : Int))]⟩,
          [((k : Int), (e : Int) - (k : Int) + (endExp.length : Int))], ?_, rfl,
          by simp, ?_, by simp, fun _ _ => rfl⟩
        · rw [hstep, hnext, commentLoop_stop]
        · intro sp hsp
          rw [List.mem_singleton] at hsp
          subst hsp
          exact hspan
      · have hsl : 0 < startExp.length := List.length_pos.mpr hs
        obtain ⟨r1, new, hrun, hspans, hlen, hall, hpair, hstate⟩ :=
          ih k1 f
            { formats := setFormat r.formats (k : Int)
                ((e : Int) - (k : Int) + (endExp.length : Int))
                TextFormat.multiLineCommentFormat
              currentBlockState := r.currentBlockState
              commentSpans := r.commentSpans ++
                [((k : Int), (e : Int) - (k : Int) + (endExp.length : Int))] }
            (by omega) (by omega) (by omega)
        refine ⟨r1, ((k : Int), (e : Int) - (k : Int) + (endExp.length : Int)) :: new, ?_, ?_, ?_,
          ?_, ?_, ?_⟩
        · rw [hstep, hnext]; exact hrun
        · rw [hspans]; simp
        · simp only [List.length_cons]; omega
        · intro sp hsp
          rcases List.mem_cons.mp hsp with h | h
          · subst h; exact hspan
          · have := hall sp h
            omega
        · refine List.pairwise_cons.mpr ⟨?_, hpair⟩
          intro sp hsp
          have := hall sp hsp
          simp only
          omega
        · intro heq hocc0
          rw [hstate heq hocc1]

theorem highlightBlock_spans_aux (h : Highlighter) (hs : h.commentStartExpression ≠ [])
    (he : h.commentEndExpression ≠ []) (text : QString) (previousBlockState : Int) (fuel : Nat)
    (hfuel : text.length + 2 ≤ fuel) :
    ∃ r, highlightBlock h fuel text previousBlockState = some r ∧
      r.commentSpans.length ≤ text.length + 1 ∧
      (∀ sp ∈ r.commentSpans, 0 ≤ sp.1 ∧ 0 ≤ sp.2 ∧ sp.1 + sp.2 ≤ (text.length : Int)) ∧
      r.commentSpans.Pairwise (fun a b => a.1 < b.1 ∧ a.1 + a.2 ≤ b.1) ∧
      (h.commentStartExpression = h.commentEndExpression → previousBlockState ≠ 1 →
        r.currentBlockState = 0) := by
  have hloop : ∀ (k : Nat), k ≤ text.length →
      (previousBlockState ≠ 1 → occursAt h.commentStartExpression text k) →
      ∃ r, commentLoop text h.commentStartExpression h.commentEndExpression fuel (k : Int)
          { formats := applyRules h.highlightingRules text
              (List.replicate text.length TextFormat.plain)
            currentBlockState := 0, commentSpans := [] } = some r ∧
        r.commentSpans.length ≤ text.length + 1 ∧
        (∀ sp ∈ r.commentSpans, 0 ≤ sp.1 ∧ 0 ≤ sp.2 ∧ sp.1 + sp.2 ≤ (text.length : Int)) ∧
        r.commentSpans.Pairwise (fun a b => a.1 < b.1 ∧ a.1 + a.2 ≤ b.1) ∧
        (h.commentStartExpression = h.commentEndExpression → previousBlockState ≠ 1 →
          r.currentBlockState = 0) := by
    intro k hk hocc
    obtain ⟨r1, new, hrun, hspans, hlen, hall, hpair, hstate⟩ :=
      commentLoop_spans text h.commentStartExpression h.commentEndExpression hs he
        text.length k fuel
        { formats := applyRules h.highlightingRules text
            (List.replicate text.length TextFormat.plain)
          currentBlockState := 0, commentSpans := [] }
        hk (by omega) hfuel
    simp only [List.nil_append] at hspans
    refine ⟨r1, hrun, ?_, ?_, ?_, ?_⟩
    · rw [hspans]; exact hlen
    · intro sp hsp
      rw [hspans] at hsp
      have := hall sp hsp
      omega
    · rw [hspans]; exact hpair
    · intro heq hprev
      exact hstate heq (hocc hprev)
  have hb : highlightBlock h fuel text previousBlockState =
      commentLoop text h.commentStartExpression h.commentEndExpression fuel
        (if previousBlockState ≠ 1 then indexOf text h.commentStartExpression 0 else 0)
        { formats := applyRules h.highlightingRules text
            (List.replicate text.length TextFormat.plain)
          currentBlockState := 0, commentSpans := [] } := rfl
  rw [hb]
  by_cases hprev : previousBlockState ≠ 1
  · rw [if_pos hprev]
    rcases indexOf_spec text h.commentStartExpression hs 0 (Nat.zero_le _) with
      ⟨hnone, _⟩ | ⟨k, _, hkle, hk, hocc⟩
    · obtain ⟨f, rfl⟩ : ∃ f, fuel = f + 1 := ⟨fuel - 1, by omega⟩
      have h0 : ((0 : Nat) : Int) = 0 := rfl
      rw [h0] at hnone
      rw [hnone, commentLoop_stop]
      exact ⟨_, rfl, by simp, by simp, by simp, fun _ _ => rfl⟩
    · have h0 : ((0 : Nat) : Int) = 0 := rfl
      rw [h0] at hk
      rw [hk]
      have hkl : k ≤ text.length := by omega
      exact hloop k hkl (fun _ => hocc)
  · rw [if_neg hprev]
    exact hloop 0 (Nat.zero_le _) (fun hc => absurd hc hprev)

theorem threadStates_all_zero (h : Highlighter) (fuel : Nat)
    (hstep : ∀ text : QString, text.length + 2 ≤ fuel → ∀ prev : Int, prev ≠ 1 →
      ∃ r, highlightBlock h fuel text prev = some r ∧ r.currentBlockState = 0) :
    ∀ (lines : List QString) (state : Int), (∀ line ∈ lines, line.length + 2 ≤ fuel) →
      state ≠ 1 → threadStates h fuel state lines = some (List.replicate lines.length 0) := by
  intro lines
  induction lines with
  | nil => intro state _ _; rfl
  | cons line rest ih =>
    intro state hfuel hstate
    obtain ⟨r, hr, hzero⟩ := hstep line (hfuel line (List.mem_cons_self _ _)) state hstate
    have hrest := ih 0 (fun l hl => hfuel l (List.mem_cons_of_mem _ hl)) (by decide)
    simp only [threadStates, hr, hzero, hrest, List.length_cons, List.replicate_succ]

/-- C25: with the Python profile, whose block-comment start and end expressions are both three
single quotes, a line classified with an incoming state other than 1 ("inside") always gets the
outgoing state 0, whatever its text; so the states of any sequence of lines threaded from an
initial state other than 1 are all 0, and no line is ever classified with incoming state 1, the
only state in which a line is styled as the continuation of an earlier block. -/
theorem highlightBlock_python_never_inside (rules : List HighlightingRule) (fuel : Nat)
    (lines : List QString) (hfuel : ∀ line ∈ lines, line.length + 2 ≤ fuel)
    (state : Int) (hstate : state ≠ 1) :
    (∀ line ∈ lines, ∀ prev : Int, prev ≠ 1 →
        ∃ r, highlightBlock (initPythonRules rules) fuel line prev = some r ∧
          r.currentBlockState = 0) ∧
      threadStates (initPythonRules rules) fuel state lines =
        some (List.replicate lines.length 0) ∧
      (∀ states, threadStates (initPythonRules rules) fuel state lines = some states →
        ∀ s ∈ state :: states, s ≠ 1) := by
  have hstep : ∀ text : QString, text.length + 2 ≤ fuel → ∀ prev : Int, prev ≠ 1 →
      ∃ r, highlightBlock (initPythonRules rules) fuel text prev = some r ∧
        r.currentBlockState = 0 := by
    intro text hf prev hprev
    obtain ⟨r, hr, _, _, _, hz⟩ := highlightBlock_spans_aux (initPythonRules rules)
      (by simp [initPythonRules]) (by simp [initPythonRules]) text prev fuel hf
    exact ⟨r, hr, hz rfl hprev⟩
  have hall := threadStates_all_zero (initPythonRules rules) fuel hstep lines state hfuel hstate
  refine ⟨fun line hl prev hprev => hstep line (hfuel line hl) prev hprev, hall, ?_⟩
  intro states hstates s hs
  rw [hall] at hstates
  rcases List.mem_cons.mp hs with h | h
  · rw [h]; exact hstate
  · have hstates2 : List.replicate lines.length (0 : Int) = states := Option.some.inj hstates
    rw [← hstates2] at h
    rw [List.eq_of_mem_replicate h]
    decide

theorem highlightBlock_python_never_inside_witness :
    threadStates (initPythonRules []) 12 (-1)
        ["a = '''x".toList, "y''' + '''".toList, "'''".toList] = some [0, 0, 0] :=
  (highlightBlock_python_never_inside [] 12
    ["a = '''x".toList, "y''' + '''".toList, "'''".toList] (by decide) (-1) (by decide)).2.1

/-- C27: with the C++ and the Python profile, for every line and every incoming state, the
block-comment loop of `highlightBlock` ends within `length + 2` units of fuel after at most
`length + 1` iterations (one span is emitted per iteration); every span has a start of at least 0
and ends within the line, and each span starts strictly after the start and not before the end of
every earlier span. -/
theorem highlightBlock_comment_spans (rules : List HighlightingRule) (h : Highlighter)
    (hh : h = initCppRules rules ∨ h = initPythonRules rules) (text : QString)
    (previousBlockState : Int) (fuel : Nat) (hfuel : text.length + 2 ≤ fuel) :
    ∃ r, highlightBlock h fuel text previousBlockState = some r ∧
      r.commentSpans.length ≤ text.length + 1 ∧
      (∀ sp ∈ r.commentSpans, 0 ≤ sp.1 ∧ 0 ≤ sp.2 ∧ sp.1 + sp.2 ≤ (text.length : Int)) ∧
      r.commentSpans.Pairwise (fun a b => a.1 < b.1 ∧ a.1 + a.2 ≤ b.1) := by
  have hne : h.commentStartExpression ≠ [] ∧ h.commentEndExpression ≠ [] := by
    rcases hh with rfl | rfl
    · simp [initCppRules]
    · simp [initPythonRules]
  obtain ⟨r, hr, hlen, hall, hpair, _⟩ :=
    highlightBlock_spans_aux h hne.1 hne.2 text previousBlockState fuel hfuel
  exact ⟨r, hr, hlen, hall, hpair⟩

theorem highlightBlock_comment_spans_witness :
    ∃ r, highlightBlock (initCppRules []) 12 "/*/ x /* y".toList 1 = some r ∧
      r.commentSpans.length ≤ "/*/ x /* y".toList.length + 1 ∧
      (∀ sp ∈ r.commentSpans, 0 ≤ sp.1 ∧ 0 ≤ sp.2 ∧
        sp.1 + sp.2 ≤ ("/*/ x /* y".toList.length : Int)) ∧
      r.commentSpans.Pairwise (fun a b => a.1 < b.1 ∧ a.1 + a.2 ≤ b.1) :=
  highlightBlock_comment_spans [] (initCppRules []) (Or.inl rfl) "/*/ x /* y".toList 1 12
    (by decide)

/-! ## The popup invariant -/

theorem popupInvariant_congr (a b : CodeEditor) (h : popupOf a = popupOf b)
    (hb : popupInvariant b) : popupInvariant a := by
  simp only [popupOf, Prod.mk.injEq] at h
  obtain ⟨h1, h2, h3, h4⟩ := h
  unfold popupInvariant at *
  rw [h1, h2, h3, h4]
  exact hb

theorem popupOf_insertPlainText (ed : CodeEditor) (s : QString) :
    popupOf (insertPlainText ed s) = popupOf ed := rfl

theorem popupOf_moveCursorPrevious (ed : CodeEditor) :
    popupOf (moveCursorPrevious ed) = popupOf ed := rfl

theorem popupOf_deleteChar (ed : CodeEditor) : popupOf (deleteChar ed) = popupOf ed := rfl

theorem popupOf_setPosition (ed : CodeEditor) (p : Nat) :
    popupOf { ed with position := p } = popupOf ed := rfl

theorem popupOf_deletePreviousChar (ed : CodeEditor) :
    popupOf (deletePreviousChar ed) = popupOf ed := by
  unfold deletePreviousChar
  split <;> rfl

theorem popupOf_deleteWord : ∀ (n : Nat) (ed : CodeEditor),
    popupOf (deleteWord n ed) = popupOf ed := by
  intro n
  induction n with
  | zero => intro ed; rfl
  | succ n ih =>
    intro ed
    simp only [deleteWord]
    rw [ih, popupOf_deletePreviousChar]

theorem popupOf_insertLeadingSpaces : ∀ (temp : QString) (ed : CodeEditor),
    popupOf (insertLeadingSpaces temp ed) = popupOf ed := by
  intro temp
  induction temp with
  | nil => intro ed; rfl
  | cons c rest ih =>
    intro ed
    simp only [insertLeadingSpaces]
    split
    · rw [ih, popupOf_insertPlainText]
    · rfl

theorem popupOf_insertAllSpaces : ∀ (temp : QString) (ed : CodeEditor),
    popupOf (insertAllSpaces temp ed) = popupOf ed := by
  intro temp
  induction temp with
  | nil => intro ed; rfl
  | cons c rest ih =>
    intro ed
    simp only [insertAllSpaces]
    split
    · rw [ih, popupOf_insertPlainText]
    · rw [ih]

theorem popupOf_ite_insert (c : Prop) [Decidable c] (ed : CodeEditor) (s : QString) :
    popupOf (if c then insertPlainText ed s else ed) = popupOf ed := by
  split <;> rfl

theorem popupOf_keyPressEventReturn (ed : CodeEditor) :
    popupOf (keyPressEventReturn ed) = popupOf ed := by
  unfold keyPressEventReturn
  simp only []
  split
  · rfl
  · split
    · rw [popupOf_setPosition, popupOf_insertPlainText, popupOf_insertAllSpaces,
        popupOf_insertPlainText, popupOf_insertPlainText, popupOf_ite_insert,
        popupOf_insertLeadingSpaces, popupOf_insertPlainText]
    · rw [popupOf_ite_insert, popupOf_insertLeadingSpaces, popupOf_insertPlainText]

theorem popupOf_ite_deleteChar (c : Prop) [Decidable c] (ed : CodeEditor) :
    popupOf (if c then deleteChar ed else ed) = popupOf ed := by
  split <;> rfl

theorem popupOf_keyPressEventBackspace (ed : CodeEditor) :
    popupOf (keyPressEventBackspace ed) = popupOf ed := by
  unfold keyPressEventBackspace
  simp only []
  split
  · rw [popupOf_ite_deleteChar, popupOf_deletePreviousChar]
  · split
    · rw [popupOf_ite_deleteChar, popupOf_deletePreviousChar]
    · split
      · rw [popupOf_ite_deleteChar, popupOf_deletePreviousChar]
      · rw [popupOf_deletePreviousChar]

theorem popupOf_highlightMatchingParenthesis (fuel : Nat) (ed ed1 : CodeEditor)
    (h : highlightMatchingParenthesis fuel ed = some ed1) : popupOf ed1 = popupOf ed := by
  unfold highlightMatchingParenthesis at h
  simp only [] at h
  split at h
  · split at h
    · exact absurd h (by simp)
    · split at h
      · rw [← Option.some.inj h]
      · rw [← Option.some.inj h]
        rfl
  · rw [← Option.some.inj h]

theorem keyPressEventAccept_some (T : QCharTables) (ed : CodeEditor)
    (hrow : 0 ≤ ed.currentRow) (hlt : ed.currentRow ≤ (ed.widgetItems.length : Int) - 1) :
    ∃ insertText ed1, ed.widgetItems.get? ed.currentRow.toNat = some insertText ∧
      keyPressEventAccept T ed = some ed1 ∧ ed1.completeState = CompleteState.Hide := by
  have hn : ed.currentRow.toNat < ed.widgetItems.length := by omega
  have hget : ed.widgetItems.get? ed.currentRow.toNat =
      some (ed.widgetItems.get ⟨ed.currentRow.toNat, hn⟩) := List.get?_eq_get hn
  unfold keyPressEventAccept
  rw [if_neg (not_lt.mpr hrow), hget]
  exact ⟨_, _, rfl, rfl, rfl⟩

theorem keyPressEventAccept_state (T : QCharTables) (ed ed1 : CodeEditor)
    (h : keyPressEventAccept T ed = some ed1) : ed1.completeState = CompleteState.Hide := by
  unfold keyPressEventAccept at h
  split at h
  · exact absurd h (by simp)
  · split at h
    · exact absurd h (by simp)
    · rw [← Option.some.inj h]

theorem sortedItemList_length (st : Candidates) :
    (sortedItemList st).length = st.itemList.length :=
  (stdSort_perm _ st.itemList).length_eq

theorem showCompleteWidget_popupInvariant (T : QCharTables) (ldist : QString → QString → Int)
    (ed : CodeEditor) (h : popupInvariant ed) :
    popupInvariant (showCompleteWidget T ldist ed) := by
  unfold showCompleteWidget
  split
  · exact h
  · simp only []
    split
    · split
      · rename_i hpos
        have hlen := sortedItemList_length
          (collectCandidates ldist (getWordOfCursor T ed.document ed.position)
            ed.completeList { itemList := [], distance := [], maxSize := 0 })
        intro _
        refine ⟨rfl, ?_, le_refl _, ?_⟩
        · intro hnil
          have hnil2 : sortedItemList
              (collectCandidates ldist (getWordOfCursor T ed.document ed.position)
                ed.completeList { itemList := [], distance := [], maxSize := 0 }) = [] := hnil
          rw [hnil2] at hlen
          simp only [List.length_nil] at hlen
          omega
        · show (0 : Int) ≤ ((sortedItemList
              (collectCandidates ldist (getWordOfCursor T ed.document ed.position)
                ed.completeList { itemList := [], distance := [], maxSize := 0 })).length : Int) - 1
          omega
      · intro hc
        exact absurd hc (by simp)
    · intro hc
      exact absurd hc (by simp)

theorem keyPressEvent_popupInvariant (T : QCharTables) (fuel : Nat)
    (base : QKeyEvent → CodeEditor → CodeEditor)
    (hbase : ∀ event ed, popupOf (base event ed) = popupOf ed)
    (event : QKeyEvent) (ed ed1 : CodeEditor) (hinv : popupInvariant ed)
    (h : keyPressEvent T fuel base event ed = some ed1) : popupInvariant ed1 := by
  unfold keyPressEvent at h
  split at h
  · rw [← Option.some.inj h]
    exact popupInvariant_congr _ ed rfl hinv
  · split at h
    · rw [← Option.some.inj h]
      exact popupInvariant_congr _ ed rfl hinv
    · split at h
      · rename_i hup
        have hi := hinv hup.2
        rw [← Option.some.inj h]
        split
        · intro _
          refine ⟨hi.1, hi.2.1, ?_, ?_⟩
          · show (0 : Int) ≤ ed.currentRow - 1
            omega
          · show ed.currentRow - 1 ≤ (ed.widgetItems.length : Int) - 1
            omega
        · exact hinv
      · split at h
        · rename_i hdown
          have hi := hinv hdown.2
          rw [← Option.some.inj h]
          split
          · intro _
            refine ⟨hi.1, hi.2.1, ?_, ?_⟩
            · show (0 : Int) ≤ ed.currentRow + 1
              omega
            · show ed.currentRow + 1 ≤ (ed.widgetItems.length : Int) - 1
              omega
          · exact hinv
        · split at h
          · intro hc
            rw [keyPressEventAccept_state T ed ed1 h] at hc
            exact absurd hc (by simp)
          · split at h
            · rw [← Option.some.inj h]
              exact popupInvariant_congr _ ed (popupOf_keyPressEventReturn ed) hinv
            · split at h
              · rw [← Option.some.inj h]
                exact popupInvariant_congr _ ed (popupOf_keyPressEventBackspace ed) hinv
              · exact popupInvariant_congr _ ed
                  ((popupOf_highlightMatchingParenthesis fuel _ ed1 h).trans (hbase event ed))
                  hinv

theorem runEvents_popupInvariant (T : QCharTables) (ldist : QString → QString → Int)
    (fuel : Nat) (base : QKeyEvent → CodeEditor → CodeEditor)
    (hbase : ∀ event ed, popupOf (base event ed) = popupOf ed) :
    ∀ (events : List EditorEvent) (ed0 ed : CodeEditor), popupInvariant ed0 →
      runEvents T ldist fuel base events ed0 = some ed → popupInvariant ed := by
  intro events
  induction events with
  | nil =>
    intro ed0 ed h0 hrun
    rw [← Option.some.inj hrun]
    exact h0
  | cons e rest ih =>
    intro ed0 ed h0 hrun
    simp only [runEvents] at hrun
    cases e with
    | keyPress event =>
      simp only [handleEvent] at hrun
      cases hk : keyPressEvent T fuel base event ed0 with
      | none => rw [hk] at hrun; exact absurd hrun (by simp)
      | some ed1 =>
        rw [hk] at hrun
        exact ih ed1 ed (keyPressEvent_popupInvariant T fuel base hbase event ed0 ed1 h0 hk) hrun
    | cursorPositionChanged =>
      simp only [handleEvent] at hrun
      exact ih _ ed (showCompleteWidget_popupInvariant T ldist ed0 h0) hrun

/-- C23: in every editor state reached from a state `Hide` by key events and recomputations of
the popup (the default key handling being assumed to leave the popup alone), if the state is
`Showing` the popup is shown, its list has a candidate and the highlighted row is between 0 and
the count less 1, so that the Return key enters the accept branch, reads the highlighted
candidate and ends in state `Hide`; and if the state is not `Showing` the Return key does not
accept but inserts a line break. -/
theorem runEvents_showing_invariant (T : QCharTables) (ldist : QString → QString → Int)
    (fuel : Nat) (base : QKeyEvent → CodeEditor → CodeEditor)
    (hbase : ∀ event ed, popupOf (base event ed) = popupOf ed)
    (events : List EditorEvent) (ed0 ed : CodeEditor)
    (hinit : ed0.completeState = CompleteState.Hide)
    (hrun : runEvents T ldist fuel base events ed0 = some ed) :
    (ed.completeState = CompleteState.Showing →
      ed.widgetVisible = true ∧ ed.widgetItems ≠ [] ∧ 0 ≤ ed.currentRow ∧
        ed.currentRow ≤ (ed.widgetItems.length : Int) - 1 ∧
        ∀ event : QKeyEvent, event.key = Qt.Key_Return →
          ∃ insertText ed1, ed.widgetItems.get? ed.currentRow.toNat = some insertText ∧
            keyPressEventAccept T ed = some ed1 ∧
            keyPressEvent T fuel base event ed = some ed1 ∧
            ed1.completeState = CompleteState.Hide) ∧
      (ed.completeState ≠ CompleteState.Showing →
        ∀ event : QKeyEvent, event.key = Qt.Key_Return →
          keyPressEvent T fuel base event ed = some (keyPressEventReturn ed)) := by
  have h0 : popupInvariant ed0 := by
    intro hc
    rw [hinit] at hc
    exact absurd hc (by simp)
  have hinv := runEvents_popupInvariant T ldist fuel base hbase events ed0 ed h0 hrun
  have hkey : ∀ event : QKeyEvent, event.key = Qt.Key_Return →
      keyPressEvent T fuel base event ed =
        if ed.completeState = CompleteState.Showing then keyPressEventAccept T ed
        else some (keyPressEventReturn ed) := by
    intro event hk
    unfold keyPressEvent
    rw [hk]
    simp [Qt.Key_Return]
  constructor
  · intro hshow
    obtain ⟨hvis, hne, hrow, hle⟩ := hinv hshow
    refine ⟨hvis, hne, hrow, hle, ?_⟩
    intro event hk
    obtain ⟨insertText, ed1, hget, hacc, hstate⟩ := keyPressEventAccept_some T ed hrow hle
    refine ⟨insertText, ed1, hget, hacc, ?_, hstate⟩
    rw [hkey event hk, if_pos hshow, hacc]
  · intro hno event hk
    rw [hkey event hk, if_neg hno]

theorem runEvents_showing_invariant_witness :
    runEvents asciiTables lengthDistance 8 (fun _ ed => ed)
        [EditorEvent.cursorPositionChanged, EditorEvent.keyPress ⟨16777237, 0⟩]
        (editorAt "x = in".toList 6) =
      some { showCompleteWidget asciiTables lengthDistance (editorAt "x = in".toList 6) with
        currentRow := 1 } ∧
    ({ showCompleteWidget asciiTables lengthDistance (editorAt "x = in".toList 6) with
        currentRow := 1 } : CodeEditor).widgetItems ≠ [] :=
  ⟨by rfl,
   ((runEvents_showing_invariant asciiTables lengthDistance 8 (fun _ ed => ed) (fun _ _ => rfl)
      [EditorEvent.cursorPositionChanged, EditorEvent.keyPress ⟨16777237, 0⟩]
      (editorAt "x = in".toList 6)
      { showCompleteWidget asciiTables lengthDistance (editorAt "x = in".toList 6) with
        currentRow := 1 }
      rfl (by rfl)).1 (by decide)).2.1⟩

end HJEditor
